import Mathlib

/-!
Particle swarm optimiser: synchronous coordinator (pso.cpp), concurrent
swarmers (newswarmer.cpp, particle.hpp) and batch program (simplepso2.cpp)

A shallow embedding of `class particle`, `class swarm` and the objectives of
pso.cpp, of `class swarmer` of newswarmer.cpp, of `class swarmer` of
particle.hpp with the owners of its objects, and of the globals, `initialize`
and `optimize` of simplepso2.cpp.

Modelling conventions
* `double` is modelled by exact rationals `ℚ`.  The one place where the source
  stores `+infinity` (the personal-best cost of a just constructed particle) is
  kept by giving the stored cost the type `WithTop ℚ`.
* `std::vector<double>` is a `List ℚ`; an iterator into the particle vector is
  an index, `begin()` is `0` and `end()` is the length.
* `std::mt19937 rng` is a cursor `rng : Nat` into a fixed stream
  `draws : Nat → ℚ` of unit-interval samples; every call of
  `generate_canonical` or of the uniform distribution reads `draws rng` and
  advances the cursor by one.
* A C++ exception thrown by the objective, and a dereference of an iterator
  that does not point into the vector, is an `Except.error`.
* For particle.hpp, whose constructor makes two owners of one object, a
  `std::shared_ptr` is the address together with its control block, the store
  keeps the use count of every control block, the last owner deletes the
  object, and an operation that uses or deletes a deleted object ends in a
  `particle_hpp.fault`.
-/

namespace PSO

/-! ## The program -/

/-- Faults of a run: the `std::logic_error` thrown by the fixed-arity
objectives, the dereference of an iterator outside `[begin, end)` or of an
address that holds no object, and the dereference of a null pointer. -/
inductive Err where
  | logic_error (msg : String)
  | bad_iterator
  | null_pointer
  deriving DecidableEq, Repr

deriving instance DecidableEq for Except

/-- `particle::solution`, a pair of a cost and a position snapshot. -/
abbrev solution := WithTop ℚ × List ℚ

/-- `class particle`: the base-class vector is the position. -/
structure particle where
  super : List ℚ
  velocity : List ℚ
  local_best : solution
  deriving DecidableEq

/-- `particle(unsigned n)`: zero position, zero velocity, best cost `+infinity`
with a snapshot of the zero position. -/
def particle.ofDim (n : Nat) : particle :=
  { super := List.replicate n 0,
    velocity := List.replicate n 0,
    local_best := (⊤, List.replicate n 0) }

/-- `struct objective`: the cost `operator()`, the per-dimension domain
`(low, high)` and the known extremum. -/
structure objective where
  call : List ℚ → Except Err ℚ
  domain : Nat → ℚ × ℚ
  extremum : Nat → ℚ

/-- `class sphere` (pso.cpp lines 61-71): `std::inner_product(a, b, a, 0.0)`,
domain `(-5.12, 5.12)`, extremum `0`. -/
def sphere : objective :=
  { call := fun x => .ok (x.foldl (fun acc a => acc + a * a) 0),
    domain := fun _ => (-128 / 25, 128 / 25),
    extremum := fun _ => 0 }

/-- `swarm::param_type`. -/
structure param_type where
  n : ℚ
  c1 : ℚ
  c2 : ℚ
  w : ℚ
  w0 : ℚ
  wd : ℚ
  k : ℚ
  vd : ℚ
  d : Int

/-- The default parameters of the constructor (pso.cpp line 317):
`{20, 2.0, 2.0, 1.0, 1.0, 0.95, 0.5, 0.95, 200}`. -/
def param_type.default : param_type :=
  { n := 20, c1 := 2, c2 := 2, w := 1, w0 := 1, wd := 19 / 20, k := 1 / 2, vd := 19 / 20, d := 200 }

/-- `class swarm`: the particle vector (base class), the parameters, the
objective, the leader iterator, the velocity caps and the generator cursor. -/
structure swarm where
  super : List particle
  param : param_type
  f : objective
  leader : Nat
  vmax : List ℚ
  rng : Nat

/-- Dereference of a particle iterator. -/
def swarm.deref (s : swarm) (i : Nat) : Except Err particle :=
  match s.super[i]? with
  | some p => .ok p
  | none => .error Err.bad_iterator

/-- `best_solution()`: the leader's personal best. -/
def swarm.best_solution (s : swarm) : Except Err solution :=
  match s.deref s.leader with
  | .ok p => .ok p.local_best
  | .error e => .error e

/-- The velocity `std::transform` of `update` (pso.cpp lines 373-388).  The
list being mapped is the old velocity; `xi`, `vm`, `p`, `g` are the four
iterators the lambda advances on every element (position, caps, personal best,
leader's best).  Returns the new velocity and the generator cursor. -/
def swarm.velocity_transform (draws : Nat → ℚ) (pr : param_type) :
    Nat → List ℚ → List ℚ → List ℚ → List ℚ → List ℚ → List ℚ × Nat
  | rng, [], _, _, _, _ => ([], rng)
  | rng, vprev :: vs, xi, vm, p, g =>
    let r1 := draws rng
    let r2 := draws (rng + 1)
    let x := xi.headD 0
    let vmax := vm.headD 0
    let v := vprev * pr.w + r1 * pr.c1 * (p.headD 0 - x) + r2 * pr.c2 * (g.headD 0 - x)
    let rest := swarm.velocity_transform draws pr (rng + 2) vs xi.tail vm.tail p.tail g.tail
    (max (min v vmax) (-vmax) :: rest.1, rest.2)

/-- The velocity written by `update` for a particle `pi` when the leader is
`pl`: first component of the velocity transform. -/
def swarm.new_velocity (draws : Nat → ℚ) (s : swarm) (pi pl : particle) : List ℚ :=
  (swarm.velocity_transform draws s.param s.rng pi.velocity pi.super s.vmax
    pi.local_best.2 pl.local_best.2).1

/-- The position written by `update` (pso.cpp lines 392-393):
`std::transform` of the old position and the new velocity under `std::plus`. -/
def swarm.new_position (draws : Nat → ℚ) (s : swarm) (pi pl : particle) : List ℚ :=
  List.zipWith (· + ·) pi.super (s.new_velocity draws pi pl)

/-- `swarm::update(i)` (pso.cpp lines 369-407).  The comparisons
`cost < i->local_best` and `cost < leader->local_best` are the friend
`operator<(double, solution const&)`, which compares with the cost field. -/
def swarm.update (draws : Nat → ℚ) (s : swarm) (i : Nat) : Except Err (Bool × swarm) := do
  let pi ← s.deref i
  let pl ← s.deref s.leader
  -- compute velocity
  let tr := swarm.velocity_transform draws s.param s.rng pi.velocity pi.super s.vmax
    pi.local_best.2 pl.local_best.2
  let pi1 : particle := { pi with velocity := s.new_velocity draws pi pl }
  -- update position
  let pi2 : particle := { pi1 with super := s.new_position draws pi pl }
  let s1 : swarm := { s with super := s.super.set i pi2, rng := tr.2 }
  -- compute cost
  let cost ← s1.f.call pi2.super
  -- update personal best
  if (cost : WithTop ℚ) < pi2.local_best.1 then
    let pi3 : particle := { pi2 with local_best := (cost, pi2.super) }
    let s2 : swarm := { s1 with super := s1.super.set i pi3 }
    -- update global best
    let pl2 ← s2.deref s2.leader
    let s3 : swarm :=
      if (cost : WithTop ℚ) < pl2.local_best.1 then { s2 with leader := i } else s2
    if s3.leader = i then return (true, s3)
    return (false, s3)
  else
    return (false, s1)

/-- One sample of `std::uniform_real_distribution` with parameters `(a, b)`:
the unit-interval draw scaled to `[a, b)`. -/
def uniform_real (draws : Nat → ℚ) (rng : Nat) (a b : ℚ) : ℚ × Nat :=
  (draws rng * (b - a) + a, rng + 1)

/-- The first `std::generate` of `randomize` (pso.cpp lines 429-436) on one
particle: component `i` is drawn from `domain(i)`; `i` counts from the argument. -/
def swarm.randomize_position (draws : Nat → ℚ) (f : objective) :
    Nat → Nat → List ℚ → List ℚ × Nat
  | rng, _, [] => ([], rng)
  | rng, i, _ :: xs =>
    let r := uniform_real draws rng (f.domain i).1 (f.domain i).2
    let rest := swarm.randomize_position draws f r.2 (i + 1) xs
    (r.1 :: rest.1, rest.2)

/-- The second `std::generate` of `randomize` (pso.cpp lines 440-445) on one
particle: each component is drawn from `(-*vm, *vm)`, `vm` advancing through
the caps. -/
def swarm.randomize_velocity (draws : Nat → ℚ) :
    Nat → List ℚ → List ℚ → List ℚ × Nat
  | rng, _, [] => ([], rng)
  | rng, vm, _ :: vs =>
    let r := uniform_real draws rng (-(vm.headD 0)) (vm.headD 0)
    let rest := swarm.randomize_velocity draws r.2 vm.tail vs
    (r.1 :: rest.1, rest.2)

/-- First loop of `randomize` over the particles (pso.cpp lines 427-437). -/
def swarm.randomize_positions (draws : Nat → ℚ) (f : objective) :
    Nat → List particle → List particle × Nat
  | rng, [] => ([], rng)
  | rng, p :: ps =>
    let r := swarm.randomize_position draws f rng 0 p.super
    let rest := swarm.randomize_positions draws f r.2 ps
    ({ p with super := r.1 } :: rest.1, rest.2)

/-- Second loop of `randomize` over the particles (pso.cpp lines 438-446). -/
def swarm.randomize_velocities (draws : Nat → ℚ) (vmax : List ℚ) :
    Nat → List particle → List particle × Nat
  | rng, [] => ([], rng)
  | rng, p :: ps =>
    let r := swarm.randomize_velocity draws rng vmax p.velocity
    let rest := swarm.randomize_velocities draws vmax r.2 ps
    ({ p with velocity := r.1 } :: rest.1, rest.2)

/-- `swarm::randomize()` (pso.cpp lines 424-447). -/
def swarm.randomize (draws : Nat → ℚ) (s : swarm) : swarm :=
  let r1 := swarm.randomize_positions draws s.f s.rng s.super
  let r2 := swarm.randomize_velocities draws s.vmax r1.2 r1.1
  { s with super := r2.1, rng := r2.2 }

/-- Body of the loop of `initialize` for the particle at `i`
(pso.cpp lines 413-420). -/
def swarm.initialise_body (s : swarm) (i : Nat) : Except Err swarm := do
  let pi ← s.deref i
  -- compute cost
  let cost ← s.f.call pi.super
  -- update personal best
  let s1 : swarm := { s with super := s.super.set i { pi with local_best := (cost, pi.super) } }
  let pl ← s1.deref s1.leader
  if (cost : WithTop ℚ) < pl.local_best.1 then
    return { s1 with leader := i }
  else
    return s1

/-- `swarm::initialize()` (pso.cpp lines 409-422): `randomize`, then the loop
body for every particle from `begin()` to `end()`. -/
def swarm.initialise (draws : Nat → ℚ) (s : swarm) : Except Err swarm :=
  (List.range (s.randomize draws).super.length).foldlM swarm.initialise_body (s.randomize draws)

/-- The caps computed by the constructor's `std::generate` (pso.cpp lines
321-326): `vmax[i] = (domain(i).second - domain(i).first) * k`. -/
def swarm.vmax_init (f : objective) (k : ℚ) (d : Nat) : List ℚ :=
  (List.range d).map (fun i => ((f.domain i).2 - (f.domain i).1) * k)

/-- `swarm::swarm(d, f, p)` (pso.cpp lines 316-327): `p.n` particles
`particle(d)` (the `double` count truncated to a size), the leader at
`begin()`, the caps and a seeded generator. -/
def swarm.construct (d : Nat) (f : objective) (p : param_type) : swarm :=
  { super := List.replicate (Int.toNat ⌊p.n⌋) (particle.ofDim d),
    param := p,
    f := f,
    leader := 0,
    vmax := swarm.vmax_init f p.k d,
    rng := 0 }

/-- Control points of `operator()`: at the head of the `for` loop (line 346),
after the `update` branch (line 352), after the decay branch (line 360) and
after `return`. -/
inductive pc_type where
  | for_head
  | updated
  | decayed
  | returned
  deriving DecidableEq, Repr

/-- The swarm together with the locals `i`, `k`, `t` of `operator()` and the
control point. -/
structure loop_state where
  s : swarm
  i : Nat
  k : Int
  t : Int
  pc : pc_type

/-- The decay branch of `operator()` (pso.cpp lines 352-358). -/
def swarm.decay (s : swarm) : swarm :=
  { s with
    param := { s.param with w := s.param.w * s.param.wd },
    vmax := s.vmax.map (fun vm => vm * s.param.vd) }

/-- The exit test of `operator()` (pso.cpp line 360). -/
def swarm.stop_test (best : solution) (k : Int) : Bool :=
  decide (best.1 < ((1 / 10 : ℚ) : WithTop ℚ)) || decide (k > 640000)

/-- One transition of `operator()` between control points
(pso.cpp lines 345-365). -/
def swarm.step (draws : Nat → ℚ) (L : loop_state) : Except Err loop_state :=
  match L.pc with
  | .for_head =>
    if L.i ≠ L.s.super.length then do
      let r ← L.s.update draws L.i
      return { L with s := r.2, t := if r.1 then 0 else L.t + 1, pc := .updated }
    else
      -- the `for` loop is exhausted and `do ... while (true)` enters it again
      return { L with i := 0 }
  | .updated =>
    if L.t = L.s.param.d then
      return { L with t := 0, s := L.s.decay, pc := .decayed }
    else
      return { L with pc := .decayed }
  | .decayed => do
    let best ← L.s.best_solution
    if swarm.stop_test best L.k then
      return { L with pc := .returned }
    else
      return { L with i := L.i + 1, k := L.k + 1, pc := .for_head }
  | .returned => return L

/-- The loop of `operator()` run for at most `fuel` transitions; `none` when
the fuel is used up before `return`. -/
def swarm.loop (draws : Nat → ℚ) : Nat → loop_state → Except Err (Option loop_state)
  | 0, L => if L.pc = .returned then return some L else return none
  | fuel + 1, L =>
    if L.pc = .returned then return some L
    else do
      let L1 ← swarm.step draws L
      swarm.loop draws fuel L1

/-- The state in which `operator()` enters its loop (pso.cpp line 344). -/
def swarm.loop_entry (s : swarm) : loop_state :=
  { s := s, i := 0, k := 0, t := 0, pc := .for_head }

/-- `swarm::operator()()` (pso.cpp lines 331-366), without the printing. -/
def swarm.run (draws : Nat → ℚ) (fuel : Nat) (s : swarm) : Except Err (Option loop_state) := do
  let s1 ← s.initialise draws
  swarm.loop draws fuel s1.loop_entry

/-- `class beale` (pso.cpp lines 162-180): throws unless the position has
exactly two components. -/
def beale : objective :=
  { call := fun x =>
      if x.length ≠ 2 then .error (.logic_error "must have exactly 2 dimensions")
      else
        let x1 := x.getD 0 0
        let x2 := x.getD 1 0
        let t1 := 3 / 2 - x1 * (1 - x2)
        let t2 := 9 / 4 - x1 * (1 - x2 * x2)
        let t3 := 21 / 8 - x1 * (1 - x2 * x2 * x2)
        .ok (t1 * t1 + t2 * t2 + t3 * t3),
    domain := fun _ => (-9 / 2, 9 / 2),
    extremum := fun i => if i = 0 then 0 else if i = 1 then 3 else 1 / 2 }

/-- `class booth` (pso.cpp lines 203-220). -/
def booth : objective :=
  { call := fun x =>
      if x.length ≠ 2 then .error (.logic_error "must have exactly 2 dimensions")
      else
        let x1 := x.getD 0 0
        let x2 := x.getD 1 0
        let t1 := x1 + 2 * x2 - 7
        let t2 := 2 * x1 + x2 - 5
        .ok (t1 * t1 + t2 * t2),
    domain := fun _ => (-10, 10),
    extremum := fun i => if i = 0 then 0 else if i = 1 then 1 else 3 }

/-- `class branin` (pso.cpp lines 222-241): the cost is computed by the same
statements as in `beale`. -/
def branin : objective :=
  { call := fun x =>
      if x.length ≠ 2 then .error (.logic_error "must have exactly 2 dimensions")
      else
        let x1 := x.getD 0 0
        let x2 := x.getD 1 0
        let t1 := 3 / 2 - x1 * (1 - x2)
        let t2 := 9 / 4 - x1 * (1 - x2 * x2)
        let t3 := 21 / 8 - x1 * (1 - x2 * x2 * x2)
        .ok (t1 * t1 + t2 * t2 + t3 * t3),
    domain := fun i => if i = 1 then (-5, 10) else (-0, 15),
    extremum := fun i =>
      if i = 0 then 397887 / 1000000 else if i = 1 then 942478 / 100000 else 2475 / 1000 }

/-- `class colville` (pso.cpp lines 243-266): throws unless the position has
exactly four components. -/
def colville : objective :=
  { call := fun x =>
      if x.length ≠ 4 then .error (.logic_error "must have exactly 4 dimensions")
      else
        let x1 := x.getD 0 0
        let x2 := x.getD 1 0
        let x3 := x.getD 2 0
        let x4 := x.getD 3 0
        let t1 := x1 * x1 - x2
        let t2 := x1 - 1
        let t3 := x3 - 1
        let t4 := x3 * x3 - x4
        let t5 := x4 - 1
        let t6 := x2 - 1
        .ok (100 * t1 * t1 + t2 * t2 + t3 * t3 + 90 * t4 * t4
          + 101 / 10 * (t3 * t3 + t5 * t5) + 198 / 10 * t6 * t5),
    domain := fun _ => (-10, 10),
    extremum := fun i => if i = 0 then 0 else 1 }

/-- `class swarmer` of the concurrent variant (newswarmer.cpp lines 285-433;
swarmer.cpp lines 54-165 has the same members and constructors).  A
`std::shared_ptr<swarmer>` is the address of the object: the constructors give
every object one control block, made by `leader(std::shared_ptr<swarmer>(this))`
or by the `push_front` of the copy constructor and shared by every
`shared_from_this()`, and the neighbor list, which is moved and never
destroyed, keeps every object owned.  `neighbors` is the `std::unique_ptr` to the list of addresses, null when
`none`.  The objective `cost_function` is shared by all the swarmers of a swarm
and is passed to the operations.  The `swarmer` of particle.hpp, whose
constructor makes two control blocks for one object, is
`particle_hpp.swarmer`. -/
structure swarmer where
  super : List ℚ
  velocity : List ℚ
  leader : Nat
  neighbors : Option (List Nat)
  local_best : solution
  rng : Nat
  deriving DecidableEq

/-- The static members `INERTIA`, `P_AFFINITY`, `G_AFFINITY` of `swarmer`. -/
structure swarmer.statics where
  INERTIA : ℚ
  P_AFFINITY : ℚ
  G_AFFINITY : ℚ

/-- The initial values of the static members (newswarmer.cpp lines 435-437). -/
def swarmer.statics.default : swarmer.statics :=
  { INERTIA := 4 / 5, P_AFFINITY := 2, G_AFFINITY := 2 }

/-- Dereference of an address in the list of the swarmers created so far; the
address of a swarmer is its rank of creation. -/
def swarmer.deref (h : List swarmer) (a : Nat) : Except Err swarmer :=
  match h[a]? with
  | some s => .ok s
  | none => .error Err.bad_iterator

/-- The first `std::generate` of the constructors (newswarmer.cpp lines
303-309): component `i` of the position is drawn from `domain(i)`. -/
def swarmer.generate_position (draws : Nat → ℚ) (f : objective) :
    Nat → Nat → List ℚ → List ℚ × Nat
  | rng, _, [] => ([], rng)
  | rng, i, _ :: xs =>
    let r := uniform_real draws rng (f.domain i).1 (f.domain i).2
    let rest := swarmer.generate_position draws f r.2 (i + 1) xs
    (r.1 :: rest.1, rest.2)

/-- The second `std::generate` of the constructors (newswarmer.cpp lines
310-316): a velocity component is drawn from `(-range, range)` with `range` the
width of `domain(i)`, for the running value of the counter `i`. -/
def swarmer.generate_velocity (draws : Nat → ℚ) (f : objective) :
    Nat → Nat → List ℚ → List ℚ × Nat
  | rng, _, [] => ([], rng)
  | rng, i, _ :: vs =>
    let range := |(f.domain i).2 - (f.domain i).1|
    let r := uniform_real draws rng (-range) range
    let rest := swarmer.generate_velocity draws f r.2 (i + 1) vs
    (r.1 :: rest.1, rest.2)

/-- The body shared by the two constructors (newswarmer.cpp lines 301-317 and
327-340) on a particle of `n` components: the counter `i` declared before the
first `std::generate` is captured by reference by both lambdas and is not reset
in between, so the second one starts at `i = n`.  Returns position, velocity
and generator cursor. -/
def swarmer.generate (draws : Nat → ℚ) (f : objective) (n : Nat) : List ℚ × List ℚ × Nat :=
  let pos := swarmer.generate_position draws f 0 0 (List.replicate n 0)
  let vel := swarmer.generate_velocity draws f pos.2 n (List.replicate n 0)
  (pos.1, vel.1, vel.2)

/-- `swarmer::swarmer(int n, objective* f)` (newswarmer.cpp lines 293-318) for an
object at address `this`: its own leader, a neighbor list holding itself, best
cost `+infinity` with the zero position as snapshot. -/
def swarmer.construct (draws : Nat → ℚ) (n : Nat) (f : objective) (this : Nat) : swarmer :=
  let g := swarmer.generate draws f n
  { super := g.1, velocity := g.2.1, leader := this, neighbors := some [this],
    local_best := (⊤, List.replicate n 0), rng := g.2.2 }

/-- `swarmer::swarmer(swarmer& s)` (newswarmer.cpp lines 320-342), creating a new
object after the existing ones: the leader is `s` itself, there is no neighbor
list, and the new address is pushed at the front of the leader's neighbor list.
Every swarmer has a generator of its own, with the stream `draws this`. -/
def swarmer.copy (draws : Nat → Nat → ℚ) (f : objective) (h : List swarmer) (s : Nat) :
    Except Err (List swarmer) := do
  let proto ← swarmer.deref h s
  let this := h.length
  let g := swarmer.generate (draws this) f proto.super.length
  let fresh : swarmer :=
    { super := g.1, velocity := g.2.1, leader := s, neighbors := none,
      local_best := (⊤, List.replicate proto.super.length 0), rng := g.2.2 }
  -- leader->neighbors->push_front(std::shared_ptr<swarmer>(this))
  match proto.neighbors with
  | none => throw Err.null_pointer
  | some nb => return h.set s { proto with neighbors := some (this :: nb) } ++ [fresh]

/-- `follow(s)` on the swarmer at `p` (newswarmer.cpp line 415):
`leader = s.shared_from_this()`. -/
def swarmer.follow (h : List swarmer) (p s : Nat) : List swarmer :=
  match h[p]? with
  | some sp => h.set p { sp with leader := s }
  | none => h

/-- `lead()` on the swarmer at `p` (newswarmer.cpp lines 402-413, swarmer.cpp
lines 142-151), executed as one step under `leader_mutex`. -/
def swarmer.lead (h : List swarmer) (p : Nat) : Except Err (List swarmer) := do
  let sp ← swarmer.deref h p
  let sl ← swarmer.deref h sp.leader
  -- neighbors = std::move(leader->neighbors)
  let h1 := h.set sp.leader { sl with neighbors := none }
  let sp1 ← swarmer.deref h1 p
  let h2 := h1.set p { sp1 with neighbors := sl.neighbors }
  -- for ( auto s : *neighbors ) { if (s.get() != this) { s->follow(*this); } }
  match sl.neighbors with
  | none => throw Err.null_pointer
  | some nb =>
    let h3 := nb.foldl (fun acc s => if s ≠ p then swarmer.follow acc s p else acc) h2
    -- follow(*this)
    return swarmer.follow h3 p p

/-- `best_solution()` called on the swarmer at `s` (newswarmer.cpp line 352):
`leader->local_best`. -/
def swarmer.best_solution (h : List swarmer) (s : Nat) : Except Err solution := do
  let ss ← swarmer.deref h s
  let sl ← swarmer.deref h ss.leader
  return sl.local_best

/-- The velocity `std::transform` of `swarmer::update` (newswarmer.cpp lines
371-381): no clamp; `pcurr`, `pbest`, `gbest` are the three iterators, read from
left to right. -/
def swarmer.velocity_transform (draws : Nat → ℚ) (st : swarmer.statics) :
    Nat → List ℚ → List ℚ → List ℚ → List ℚ → List ℚ × Nat
  | rng, [], _, _, _ => ([], rng)
  | rng, v :: vs, pcurr, pbest, gbest =>
    let prand := draws rng
    let grand := draws (rng + 1)
    let newv := v * st.INERTIA
      + prand * st.P_AFFINITY * (pbest.headD 0 - pcurr.headD 0)
      + grand * st.G_AFFINITY * (gbest.headD 0 - pcurr.headD 0)
    let rest := swarmer.velocity_transform draws st (rng + 2) vs pcurr.tail pbest.tail gbest.tail
    (newv :: rest.1, rest.2)

/-- The part of `swarmer::update` that precedes the test for promotion
(newswarmer.cpp lines 363-394) on the swarmer at `p`: velocity, position, cost
and personal best. -/
def swarmer.move (draws : Nat → Nat → ℚ) (f : objective) (st : swarmer.statics)
    (h : List swarmer) (p : Nat) : Except Err (List swarmer) := do
  let sp ← swarmer.deref h p
  let sl ← swarmer.deref h sp.leader
  -- compute velocity
  let tr := swarmer.velocity_transform (draws p) st sp.rng sp.velocity sp.super
    sp.local_best.2 sl.local_best.2
  -- update position
  let pos := List.zipWith (· + ·) sp.super tr.1
  -- compute cost
  let cost ← f.call pos
  -- update personal best
  let best : solution :=
    if (cost : WithTop ℚ) < sp.local_best.1 then ((cost : WithTop ℚ), pos) else sp.local_best
  return h.set p { sp with super := pos, velocity := tr.1, rng := tr.2, local_best := best }

/-- The test for promotion of `swarmer::update` (newswarmer.cpp line 396),
made without `leader_mutex`: `local_best < leader->local_best`. -/
def swarmer.test (h : List swarmer) (p : Nat) : Except Err Bool := do
  let sp ← swarmer.deref h p
  let sl ← swarmer.deref h sp.leader
  return decide (sp.local_best.1 < sl.local_best.1)

/-- Control points of the thread of a swarmer: not started, at the `while` test
of `operator()` (newswarmer.cpp line 359), inside `update` before the
computations, at the test for promotion, about to call `lead()`, and finished. -/
inductive worker_pc where
  | idle
  | loop_head
  | moving
  | testing
  | leading
  | stopped
  deriving DecidableEq, Repr

/-- The swarmers together with the control point of the thread of each and the
static counter `update_count`. -/
structure swarming where
  heap : List swarmer
  pcs : List worker_pc
  update_count : Int
  deriving DecidableEq

/-- `start()` called on the swarmer at `s` (newswarmer.cpp lines 344-348): the
thread of every swarmer in the leader's neighbor list is started. -/
def swarmer.start (h : List swarmer) (s : Nat) : Except Err swarming := do
  let ss ← swarmer.deref h s
  let sl ← swarmer.deref h ss.leader
  match sl.neighbors with
  | none => throw Err.null_pointer
  | some nb =>
    return { heap := h,
             pcs := (List.range h.length).map
               (fun a => if a ∈ nb then worker_pc.loop_head else worker_pc.idle),
             update_count := 0 }

/-- One atomic step of the thread of the swarmer at `p` (newswarmer.cpp lines
357-400): the `while` test of `operator()`, the computations of `update`, the
test for promotion, or `lead()`. -/
def swarmer.worker_step (draws : Nat → Nat → ℚ) (f : objective) (st : swarmer.statics)
    (c : swarming) (p : Nat) : Except Err swarming :=
  match c.pcs[p]? with
  | none => .error Err.bad_iterator
  | some .idle => .ok c
  | some .stopped => .ok c
  | some .loop_head => do
    -- while (leader->local_best.first > 0.1) { ++update_count; update(); }
    let sp ← swarmer.deref c.heap p
    let sl ← swarmer.deref c.heap sp.leader
    if ((1 / 10 : ℚ) : WithTop ℚ) < sl.local_best.1 then
      return { c with pcs := c.pcs.set p .moving, update_count := c.update_count + 1 }
    else
      return { c with pcs := c.pcs.set p .stopped }
  | some .moving => do
    let h ← swarmer.move draws f st c.heap p
    return { c with heap := h, pcs := c.pcs.set p .testing }
  | some .testing => do
    let b ← swarmer.test c.heap p
    if b then return { c with pcs := c.pcs.set p .leading }
    else return { c with pcs := c.pcs.set p .loop_head }
  | some .leading => do
    let h ← swarmer.lead c.heap p
    return { c with heap := h, pcs := c.pcs.set p .loop_head }

/-- The steps of a schedule, a list of the swarmers whose thread takes the next
step, from the state `c`. -/
def swarmer.run_schedule (draws : Nat → Nat → ℚ) (f : objective) (st : swarmer.statics)
    (c : swarming) (schedule : List Nat) : Except Err swarming :=
  schedule.foldlM (swarmer.worker_step draws f st) c

/-- `class rosenbrock` (pso.cpp lines 73-90):
`std::inner_product(a+1, b, a, 0.0, plus, op)` where `op(x2, x1)` receives an
element of the range that starts at `a+1` and the element before it.  On the
empty vector `a+1` is past the end. -/
def rosenbrock : objective :=
  { call := fun x =>
      if x.length = 0 then .error Err.bad_iterator
      else .ok ((List.zip x.tail x).foldl
        (fun acc (pr : ℚ × ℚ) =>
          acc + (100 * (pr.2 * pr.2 - pr.1) * (pr.2 * pr.2 - pr.1)
            + (pr.2 - 1) * (pr.2 - 1))) 0),
    domain := fun _ => (-5, 10),
    extremum := fun i => if i = 0 then 0 else 1 }

/-- `class dixon_price` (pso.cpp lines 268-288): `(*a - 1)^2` plus the
`std::inner_product` whose operation multiplies `t * t`, `t = 2*x2*x2 - x1`, by
the counter `++i`, which starts at `1`.  The accumulator of the fold is the sum
together with the counter.  On the empty vector `*a` is past the end. -/
def dixon_price : objective :=
  { call := fun x =>
      if x.length = 0 then .error Err.bad_iterator
      else .ok ((x.getD 0 0 - 1) * (x.getD 0 0 - 1)
        + ((List.zip x.tail x).foldl
          (fun (st : ℚ × Nat) (pr : ℚ × ℚ) =>
            (st.1 + ((st.2 + 1 : Nat) : ℚ) * (2 * pr.1 * pr.1 - pr.2) * (2 * pr.1 * pr.1 - pr.2),
              st.2 + 1)) (0, 1)).1),
    domain := fun _ => (-10, 10),
    extremum := fun _ => 0 }

/-- `swarmer::update()` (newswarmer.cpp lines 363-400) run to completion as one
step on the swarmer at `p`: the computations, the test for promotion and, when
the test succeeds, `lead()`. -/
def swarmer.update (draws : Nat → Nat → ℚ) (f : objective) (st : swarmer.statics)
    (h : List swarmer) (p : Nat) : Except Err (List swarmer) := do
  let h1 ← swarmer.move draws f st h p
  -- if ( local_best < leader->local_best ) { lead(); }
  let b ← swarmer.test h1 p
  if b then swarmer.lead h1 p else return h1

/-- The globals of simplepso2.cpp (lines 9-30) that `initialize` and `optimize`
read and write.  The population size `P` and the dimension `N`, globals that are
never written, are parameters of `batch.initialise`; the cost function (lines
107-122), which is built on `std::cos` and `std::sqrt`, is a parameter `cost` of
the operations, and its side effect `++k` is part of them. -/
structure batch where
  kmax : Int
  c1 : ℚ
  c2 : ℚ
  vmax : ℚ
  w : ℚ
  vd : ℚ
  wd : ℚ
  k : Int
  t : Int
  d : Int
  rng : Nat
  x : List (List ℚ)
  v : List (List ℚ)
  p : List (List ℚ)
  f : List ℚ
  g : List ℚ
  fg : ℚ
  deriving DecidableEq

/-- `std::generate_n(std::back_inserter(xk), N, [](){ return dis(rng); })` with
the distribution set to `(lo, hi)` (simplepso2.cpp lines 74-76 and 84-86). -/
def batch.generate_n (draws : Nat → ℚ) (lo hi : ℚ) : Nat → Nat → List ℚ × Nat
  | rng, 0 => ([], rng)
  | rng, n + 1 =>
    let r := uniform_real draws rng lo hi
    let rest := batch.generate_n draws lo hi r.2 n
    (r.1 :: rest.1, rest.2)

/-- The loops `for ( auto& xk : x )` of `initialize` over the `P` vectors made by
`resize(P)` (simplepso2.cpp lines 70-87). -/
def batch.generate_all (draws : Nat → ℚ) (lo hi : ℚ) (N : Nat) : Nat → Nat → List (List ℚ) × Nat
  | rng, 0 => ([], rng)
  | rng, P + 1 =>
    let r := batch.generate_n draws lo hi rng N
    let rest := batch.generate_all draws lo hi N r.2 P
    (r.1 :: rest.1, rest.2)

/-- `std::min_element`: the index of the first smallest element, `none` (the end
iterator) on an empty range. -/
def min_element : List ℚ → Option Nat
  | [] => none
  | a :: l =>
    match min_element l with
    | none => some 0
    | some j => if l.getD j 0 < a then some (j + 1) else some 0

/-- `initialize()` of simplepso2.cpp (lines 51-105), without the printing; the
generator is seeded, its cursor is `0`. -/
def batch.initialise (P N : Nat) (draws : Nat → ℚ) (cost : List ℚ → ℚ) : Except Err batch :=
  let vmax : ℚ := (600 - -600) * (1 / 2)
  -- c. positions
  let xs := batch.generate_all draws (-600) 600 N 0 P
  -- d. velocities
  let vs := batch.generate_all draws (-vmax) vmax N xs.2 P
  -- e. costs, with `++k` in every call of `cost`
  let f := xs.1.map cost
  -- g. best
  match min_element f with
  | none => .error Err.bad_iterator
  | some b =>
    .ok { kmax := 640000, c1 := 2, c2 := 2, vmax := vmax, w := 1, vd := 1 - 1 / 20,
          wd := 1 - 1 / 20, k := xs.1.length, t := 0, d := 200, rng := vs.2,
          x := xs.1, v := vs.1, p := xs.1, f := f, g := xs.1.getD b [], fg := f.getD b 0 }

/-- The velocity `std::transform` of `optimize` for one particle (simplepso2.cpp
lines 139-146): `pk`, `xj`, `gk` are the three iterators, `r1` and `r2` two
samples of the distribution set to `(0, 1)`.  A read through an iterator that
has passed the end of its vector, which does not happen while the vectors have
equal sizes, gives 0. -/
def batch.velocity_transform (draws : Nat → ℚ) (s : batch) :
    Nat → List ℚ → List ℚ → List ℚ → List ℚ → List ℚ × Nat
  | rng, [], _, _, _ => ([], rng)
  | rng, vk :: vs, pk, xj, gk =>
    let r1 := uniform_real draws rng 0 1
    let r2 := uniform_real draws r1.2 0 1
    let xk := xj.headD 0
    let rest := batch.velocity_transform draws s r2.2 vs pk.tail xj.tail gk.tail
    (max (-s.vmax) (min s.vmax
        (s.w * vk + s.c1 * r1.1 * (pk.headD 0 - xk) + s.c2 * r2.1 * (gk.headD 0 - xk)))
      :: rest.1, rest.2)

/-- The loop `for ( auto i = 0U; i < x.size(); ++i )` of `optimize` (simplepso2.cpp
lines 130-150) over `x[i]`, `v[i]`, `p[i]`: new positions, new velocities and
generator cursor. -/
def batch.moves (draws : Nat → ℚ) (s : batch) :
    Nat → List (List ℚ) → List (List ℚ) → List (List ℚ) →
      Except Err (List (List ℚ) × List (List ℚ) × Nat)
  | rng, [], vs, _ => .ok ([], vs, rng)
  | rng, xi :: xs, vi :: vs, pi :: ps => do
    -- a. velocity
    let tr := batch.velocity_transform draws s rng vi pi xi s.g
    -- c. position
    let xi1 := List.zipWith (· + ·) xi tr.1
    let rest ← batch.moves draws s tr.2 xs vs ps
    return (xi1 :: rest.1, tr.1 :: rest.2.1, rest.2.2)
  | _, _ :: _, _, _ => .error Err.bad_iterator

/-- The evaluation `std::transform` of `optimize` over `x` and `f`, with `pk`
running through `p` (simplepso2.cpp lines 154-164): new `f` and new `p`.
`std::copy(xk.cbegin(), xk.cend(), pk->begin())` overwrites the first
`xk.size()` components of `*pk`, which has that many while the vectors have
equal sizes. -/
def batch.evaluate (cost : List ℚ → ℚ) :
    List (List ℚ) → List ℚ → List (List ℚ) → Except Err (List ℚ × List (List ℚ))
  | [], fs, ps => .ok (fs, ps)
  | xk :: xs, fj :: fs, pk :: ps => do
    let fk := cost xk
    let rest ← batch.evaluate cost xs fs ps
    if fk < fj then return (fk :: rest.1, (xk ++ pk.drop xk.length) :: rest.2)
    else return (fj :: rest.1, pk :: rest.2)
  | _ :: _, _, _ => .error Err.bad_iterator

/-- One turn of the `while (true)` loop of `optimize` (simplepso2.cpp lines
128-193), without the printing: the new globals, and whether the loop is left
by `break`. -/
def batch.sweep (draws : Nat → ℚ) (cost : List ℚ → ℚ) (s : batch) :
    Except Err (batch × Bool) := do
  let m ← batch.moves draws s s.rng s.x s.v s.p
  -- d., e. costs and personal bests, with `++k` in every call of `cost`
  let e ← batch.evaluate cost m.1 s.f s.p
  let s1 : batch :=
    { s with x := m.1, v := m.2.1, rng := m.2.2, f := e.1, p := e.2, k := s.k + m.1.length }
  -- f. best
  match min_element s1.f with
  | none => throw Err.bad_iterator
  | some b =>
    let best := s1.f.getD b 0
    let s2 : batch :=
      if best < s1.fg then { s1 with fg := best, g := s1.x.getD b [], t := 0 }
      else { s1 with t := s1.t + 1 }
    -- h.
    if s2.k > s2.kmax ∨ s2.fg < 1 / 10 then return (s2, true)
    -- i.
    else if s2.t = s2.d then
      return ({ s2 with w := s2.w * s2.wd, vmax := s2.vmax * s2.vd }, false)
    else return (s2, false)

/-- `optimize()` of simplepso2.cpp (lines 124-194) run for at most `fuel` turns
of its loop: the globals, and whether the loop has been left. -/
def batch.optimize (draws : Nat → ℚ) (cost : List ℚ → ℚ) : Nat → batch → Except Err (batch × Bool)
  | 0, s => .ok (s, false)
  | fuel + 1, s => do
    let r ← batch.sweep draws cost s
    if r.2 then return r else batch.optimize draws cost fuel r.1

/-- What the operations on the objects of particle.hpp can end in instead of a
result: the dereference of a null `std::unique_ptr`, `shared_from_this()` on an
object that no `std::shared_ptr` owns, the use of the object at an address after
its `delete`, and a second `delete` of the object at an address. -/
inductive particle_hpp.fault where
  | null_pointer
  | bad_weak_ptr
  | destroyed (a : Nat)
  | double_delete (a : Nat)
  deriving DecidableEq

/-- A `std::shared_ptr<swarmer>` of particle.hpp: the address of the object and
the control block that counts the owners.  Two pointers made from the raw
pointer `this` have the same address and different control blocks. -/
structure particle_hpp.shared_ptr where
  get : Nat
  block : Nat
  deriving DecidableEq

/-- `class swarmer` of particle.hpp (lines 39-124): the position (the base
`particle`) and its `velocity`, `leader`, `neighbors` (the `std::unique_ptr` to
the list, null when `none`), `local_best`, and the control block recorded by the
base `std::enable_shared_from_this<swarmer>`, which `shared_from_this()`
shares.  The member `objective`, the cost function, is an argument of
`update`. -/
structure particle_hpp.swarmer where
  weak_this : Option Nat
  super : List ℚ
  velocity : List ℚ
  leader : particle_hpp.shared_ptr
  neighbors : Option (List particle_hpp.shared_ptr)
  local_best : solution
  deriving DecidableEq

/-- The objects made by `new swarmer`, by address, `none` once the object has
been deleted, and the use count of every control block. -/
structure particle_hpp.store where
  objects : List (Option particle_hpp.swarmer)
  use_count : List Nat
  deriving DecidableEq

/-- Access to the object at the address `a`. -/
def particle_hpp.store.deref (m : particle_hpp.store) (a : Nat) :
    Except particle_hpp.fault particle_hpp.swarmer :=
  match m.objects[a]? with
  | some (some s) => .ok s
  | _ => .error (particle_hpp.fault.destroyed a)

/-- A copy of the shared pointer `p` is made: its control block has one more
owner. -/
def particle_hpp.store.acquire (m : particle_hpp.store) (p : particle_hpp.shared_ptr) :
    particle_hpp.store :=
  { m with use_count := m.use_count.set p.block (m.use_count.getD p.block 0 + 1) }

/-- The shared pointer `p` is destroyed or overwritten: its control block has
one owner fewer, and the last owner deletes the object.  `~swarmer()` destroys
the members in the reverse order of their declaration (particle.hpp lines
115-119), the list `neighbors` with its entries and then `leader`, and each of
these pointers is released in turn.  The first argument bounds the depth of the
nested destructors; `particle_hpp.store.release` gives it the number of objects
plus one, which they cannot reach, as each of them destroys another object. -/
def particle_hpp.store.release_aux :
    Nat → particle_hpp.store → particle_hpp.shared_ptr →
      Except particle_hpp.fault particle_hpp.store
  | 0, m, _ => .ok m
  | fuel + 1, m, p =>
    let c := m.use_count.getD p.block 0
    let m1 : particle_hpp.store := { m with use_count := m.use_count.set p.block (c - 1) }
    if c = 1 then
      -- delete
      match m1.objects[p.get]? with
      | some (some q) => do
        let m2 : particle_hpp.store := { m1 with objects := m1.objects.set p.get none }
        let m3 ← (q.neighbors.getD []).foldlM
          (fun acc e => particle_hpp.store.release_aux fuel acc e) m2
        particle_hpp.store.release_aux fuel m3 q.leader
      | _ => .error (particle_hpp.fault.double_delete p.get)
    else .ok m1

/-- The shared pointer `p` is destroyed or overwritten. -/
def particle_hpp.store.release (m : particle_hpp.store) (p : particle_hpp.shared_ptr) :
    Except particle_hpp.fault particle_hpp.store :=
  particle_hpp.store.release_aux (m.objects.length + 1) m p

/-- `std::shared_ptr<swarmer> s {a}` for the object at `a`, as in particle.cpp
lines 11-12: a new control block with one owner, the variable `s` of the
caller.  `latest` tells which control block `std::enable_shared_from_this`
records when several pointers are made from the raw pointer: the first one (as
specified since C++17) when `false`, the last one when `true`. -/
def particle_hpp.store.adopt (latest : Bool) (m : particle_hpp.store) (a : Nat) :
    Except particle_hpp.fault particle_hpp.store := do
  let s ← m.deref a
  let b := m.use_count.length
  let expired : Bool :=
    match s.weak_this with
    | none => true
    | some b0 => decide (m.use_count.getD b0 0 = 0)
  let s1 : particle_hpp.swarmer :=
    if latest || expired then { s with weak_this := some b } else s
  return { objects := m.objects.set a (some s1), use_count := m.use_count ++ [1] }

/-- `shared_from_this()` on the object at `this`: a pointer that shares the
recorded control block. -/
def particle_hpp.swarmer.shared_from_this (m : particle_hpp.store) (this : Nat) :
    Except particle_hpp.fault (particle_hpp.store × particle_hpp.shared_ptr) := do
  let s ← m.deref this
  match s.weak_this with
  | none => throw particle_hpp.fault.bad_weak_ptr
  | some b =>
    if m.use_count.getD b 0 = 0 then throw particle_hpp.fault.bad_weak_ptr
    else return (m.acquire { get := this, block := b }, { get := this, block := b })

/-- `new swarmer` (particle.hpp lines 48-61): `leader(this)` makes one control
block for the new object and
`neighbors(new swarm(1,std::shared_ptr<swarmer>(this)))` another one; the
position is empty and the best cost is `+infinity`. -/
def particle_hpp.swarmer.construct (latest : Bool) (m : particle_hpp.store) :
    particle_hpp.store :=
  let this := m.objects.length
  let b1 := m.use_count.length
  let b2 := b1 + 1
  { objects := m.objects ++ [some
      { weak_this := some (if latest then b2 else b1), super := [], velocity := [],
        leader := { get := this, block := b1 },
        neighbors := some [{ get := this, block := b2 }],
        local_best := (⊤, []) }],
    use_count := m.use_count ++ [1, 1] }

/-- `new swarmer(p)` for the object at `p` (particle.hpp lines 63-67):
`leader(p.shared_from_this())`, no neighbor list, and
`leader->neighbors->push_front(std::shared_ptr<swarmer>(this))`, which makes the
control block of the new object. -/
def particle_hpp.swarmer.copy (m : particle_hpp.store) (p : Nat) :
    Except particle_hpp.fault particle_hpp.store := do
  let r ← particle_hpp.swarmer.shared_from_this m p
  let this := r.1.objects.length
  let b := r.1.use_count.length
  let fresh : particle_hpp.swarmer :=
    { weak_this := some b, super := [], velocity := [], leader := r.2, neighbors := none,
      local_best := (⊤, []) }
  let sl ← r.1.deref p
  match sl.neighbors with
  | none => throw particle_hpp.fault.null_pointer
  | some nb =>
    return { objects :=
               r.1.objects.set p (some { sl with neighbors := some ({ get := this, block := b } :: nb) })
                 ++ [some fresh],
             use_count := r.1.use_count ++ [1] }

/-- The statement `s->leader = shared_from_this();` of `promote()` on the object
at `this` (particle.hpp line 91): the pointer that `s->leader` held is released
when it has been replaced. -/
def particle_hpp.swarmer.repoint (m : particle_hpp.store) (this : Nat)
    (s : particle_hpp.shared_ptr) : Except particle_hpp.fault particle_hpp.store := do
  let r ← particle_hpp.swarmer.shared_from_this m this
  let q ← r.1.deref s.get
  let m1 : particle_hpp.store :=
    { r.1 with objects := r.1.objects.set s.get (some { q with leader := r.2 }) }
  m1.release q.leader

/-- The loop `for ( auto s : *(former_leader.neighbors) )` of `promote()`
(particle.hpp lines 90-91), from the entry of rank `i` on, for at most `n`
entries: the iterator runs through the list that the former leader owns, `s` is
a copy of the entry, and it is destroyed at the end of the body. -/
def particle_hpp.swarmer.promote_loop (this former_leader : Nat) :
    Nat → Nat → particle_hpp.store → Except particle_hpp.fault particle_hpp.store
  | 0, _, m => .ok m
  | n + 1, i, m => do
    let fl ← m.deref former_leader
    match fl.neighbors with
    | none => throw particle_hpp.fault.null_pointer
    | some nb =>
      match nb[i]? with
      | none => return m
      | some s =>
        let m1 := m.acquire s
        let m2 ← particle_hpp.swarmer.repoint m1 this s
        let m3 ← m2.release s
        particle_hpp.swarmer.promote_loop this former_leader n (i + 1) m3

/-- `promote()` on the object at `this` (particle.hpp lines 86-94). -/
def particle_hpp.swarmer.promote (m : particle_hpp.store) (this : Nat) :
    Except particle_hpp.fault particle_hpp.store := do
  let sp ← m.deref this
  -- leader->lock(); swarmer& former_leader = *leader;
  let former_leader := sp.leader.get
  let fl ← m.deref former_leader
  match fl.neighbors with
  | none => throw particle_hpp.fault.null_pointer
  | some nb =>
    let m1 ← particle_hpp.swarmer.promote_loop this former_leader nb.length 0 m
    -- neighbors = std::move(former_leader.neighbors)
    let fl1 ← m1.deref former_leader
    let m2 : particle_hpp.store :=
      { m1 with objects := m1.objects.set former_leader (some { fl1 with neighbors := none }) }
    let sp1 ← m2.deref this
    let m3 : particle_hpp.store :=
      { m2 with objects := m2.objects.set this (some { sp1 with neighbors := fl1.neighbors }) }
    -- the list that `neighbors` held before is destroyed with its entries
    (sp1.neighbors.getD []).foldlM (fun acc e => acc.release e) m3

/-- The default argument of the constructor of the `swarmer` of particle.hpp
(lines 48-56), the cost function `std::accumulate` with `std::plus<double>` from
`0`. -/
def particle_hpp.accumulate (x : List ℚ) : ℚ :=
  x.foldl (· + ·) 0

/-- `update()` on the object at `this` (particle.hpp lines 76-84), without the
printing, for the cost function `objective`. -/
def particle_hpp.swarmer.update (objective : List ℚ → ℚ) (m : particle_hpp.store)
    (this : Nat) : Except particle_hpp.fault particle_hpp.store := do
  let s ← m.deref this
  let cost := objective s.super
  let s1 : particle_hpp.swarmer :=
    if ((cost : ℚ) : WithTop ℚ) < s.local_best.1 then { s with local_best := (cost, s.super) }
    else s
  let m1 : particle_hpp.store := { m with objects := m.objects.set this (some s1) }
  -- if ( local_best < leader->local_best ) { promote(); }
  let l ← m1.deref s1.leader.get
  if s1.local_best.1 < l.local_best.1 then particle_hpp.swarmer.promote m1 this
  else return m1

/-! ## Runs, closed forms and predicates of the specification -/

/-- States of `operator()` at its control points, from a swarm `s0`. -/
inductive swarm.Reachable (draws : Nat → ℚ) (s0 : swarm) : loop_state → Prop where
  | entry {s : swarm} : s0.initialise draws = .ok s → swarm.Reachable draws s0 s.loop_entry
  | step {L L1 : loop_state} : swarm.Reachable draws s0 L → L.pc ≠ .returned →
      swarm.step draws L = .ok L1 → swarm.Reachable draws s0 L1

/-- Finite runs of transitions of `operator()`: the reflexive-transitive closure
of `swarm.step`. -/
def swarm.Steps (draws : Nat → ℚ) (L L1 : loop_state) : Prop :=
  Relation.ReflTransGen (fun a b => swarm.step draws a = .ok b) L L1

/-- The closed form of what `update` returns for particle `i`, read off the
source: `pi` is the particle at `i`, `pl` the leader, `cost` the evaluated cost
of the new position. -/
def swarm.update_result (draws : Nat → ℚ) (s : swarm) (i : Nat) (pi pl : particle) (cost : ℚ) :
    Bool × swarm :=
  if (cost : WithTop ℚ) < pi.local_best.1 then
    (decide (s.leader = i ∨ (cost : WithTop ℚ) < pl.local_best.1),
      { s with
        super := s.super.set i
          { super := s.new_position draws pi pl, velocity := s.new_velocity draws pi pl,
            local_best := (cost, s.new_position draws pi pl) },
        rng := s.rng + 2 * pi.velocity.length,
        leader := if (cost : WithTop ℚ) < pl.local_best.1 then i else s.leader })
  else
    (false,
      { s with
        super := s.super.set i
          { super := s.new_position draws pi pl, velocity := s.new_velocity draws pi pl,
            local_best := pi.local_best },
        rng := s.rng + 2 * pi.velocity.length })

/-- The clamp of the specification's velocity rule: `v` limited to `[lo, hi]`. -/
def spec_clamp (v lo hi : ℚ) : ℚ :=
  if v < lo then lo else if hi < v then hi else v

/-- The global best is at least as good as every personal best: the leader
iterator is valid and its cost is at most the cost held by any particle. -/
def swarm.best_le_all (s : swarm) : Prop :=
  ∀ q ∈ s.super, ∃ pl, s.super[s.leader]? = some pl ∧ pl.local_best.1 ≤ q.local_best.1

/-- Loop invariant of `initialize` before the particle at `m` is treated, in a
swarm of `n` particles whose leader started at `begin()`: the leader is among
the particles already treated and has the least cost among them. -/
def swarm.init_inv (n m : Nat) (s : swarm) : Prop :=
  s.super.length = n ∧ s.leader < max m 1 ∧
    ∀ j < m, ∃ pl q, s.super[s.leader]? = some pl ∧ s.super[j]? = some q ∧
      pl.local_best.1 ≤ q.local_best.1

/-- Every velocity component of the particle lies within the cap of its
dimension, for a list `caps` of caps. -/
def particle.velocity_within (caps : List ℚ) (q : particle) : Prop :=
  ∀ (j : Nat) (v vm : ℚ), q.velocity[j]? = some v → caps[j]? = some vm → -vm ≤ v ∧ v ≤ vm

/-- Every velocity component of every particle lies within `[-vmax[i], vmax[i]]`
for the current caps of the swarm. -/
def swarm.velocity_within (s : swarm) : Prop :=
  ∀ q ∈ s.super, q.velocity_within s.vmax

/-- A stretch of `operator()` from `L` in which no particle update resets the
stagnation counter: `StagnantRun draws L m dcs L1` holds when `L1` is reached
from `L` by transitions containing exactly `m` particle updates, all of which
return `false`, and exactly `dcs` executions of the decay branch. -/
inductive swarm.StagnantRun (draws : Nat → ℚ) (L : loop_state) :
    Nat → Nat → loop_state → Prop where
  | start : swarm.StagnantRun draws L 0 0 L
  | update {m dcs : Nat} {L1 L2 : loop_state} {r : Bool × swarm} :
      swarm.StagnantRun draws L m dcs L1 → L1.pc = .for_head → L1.i ≠ L1.s.super.length →
      L1.s.update draws L1.i = .ok r → r.1 = false → swarm.step draws L1 = .ok L2 →
      swarm.StagnantRun draws L (m + 1) dcs L2
  | decay {m dcs : Nat} {L1 L2 : loop_state} :
      swarm.StagnantRun draws L m dcs L1 → L1.pc = .updated → L1.t = L1.s.param.d →
      swarm.step draws L1 = .ok L2 → swarm.StagnantRun draws L m (dcs + 1) L2
  | no_decay {m dcs : Nat} {L1 L2 : loop_state} :
      swarm.StagnantRun draws L m dcs L1 → L1.pc = .updated → L1.t ≠ L1.s.param.d →
      swarm.step draws L1 = .ok L2 → swarm.StagnantRun draws L m dcs L2
  | test {m dcs : Nat} {L1 L2 : loop_state} :
      swarm.StagnantRun draws L m dcs L1 → L1.pc = .decayed →
      swarm.step draws L1 = .ok L2 → swarm.StagnantRun draws L m dcs L2
  | wrap {m dcs : Nat} {L1 L2 : loop_state} :
      swarm.StagnantRun draws L m dcs L1 → L1.pc = .for_head → L1.i = L1.s.super.length →
      swarm.step draws L1 = .ok L2 → swarm.StagnantRun draws L m dcs L2

/-- States of `operator()` from a swarm `s0`, together with a record `hist` of
the costs evaluated so far for each particle, newest first.  `initialize`
evaluates the objective once per particle, at the position the particle holds
when `initialize` is over (pso.cpp line 414), and every `update` evaluates it
once, at the position the updated particle holds when `update` is over
(pso.cpp line 395); the record is the cost of the objective at these
positions.  Particles that do not exist have an empty record. -/
inductive swarm.ReachableH (draws : Nat → ℚ) (s0 : swarm) :
    loop_state → (Nat → List ℚ) → Prop where
  | entry {s : swarm} {hist : Nat → List ℚ} :
      s0.initialise draws = .ok s →
      (∀ (i : Nat) (q : particle), s.super[i]? = some q →
        ∃ c, s.f.call q.super = .ok c ∧ hist i = [c]) →
      (∀ (i : Nat), s.super[i]? = none → hist i = []) →
      swarm.ReachableH draws s0 s.loop_entry hist
  | update {L L1 : loop_state} {hist : Nat → List ℚ} {q : particle} {c : ℚ} :
      swarm.ReachableH draws s0 L hist → L.pc = .for_head → L.i ≠ L.s.super.length →
      swarm.step draws L = .ok L1 → L1.s.super[L.i]? = some q → L1.s.f.call q.super = .ok c →
      swarm.ReachableH draws s0 L1 (Function.update hist L.i (c :: hist L.i))
  | other {L L1 : loop_state} {hist : Nat → List ℚ} :
      swarm.ReachableH draws s0 L hist → L.pc ≠ .for_head ∨ L.i = L.s.super.length →
      L.pc ≠ .returned → swarm.step draws L = .ok L1 →
      swarm.ReachableH draws s0 L1 hist

/-- The record of the costs evaluated by `initialize` in a swarm `s`: the cost
of the position of each particle. -/
def swarm.init_hist (s : swarm) : Nat → List ℚ := fun i =>
  match s.super[i]? with
  | some q =>
    match s.f.call q.super with
    | .ok c => [c]
    | .error _ => []
  | none => []

/-- The number of particle updates (`update` calls) executed by `swarm.loop`
within `fuel` transitions from `L`. -/
def swarm.loop_updates (draws : Nat → ℚ) : Nat → loop_state → Nat
  | 0, _ => 0
  | fuel + 1, L =>
    if L.pc = .returned then 0
    else
      match swarm.step draws L with
      | .ok L1 =>
        (if L.pc = .for_head ∧ L.i ≠ L.s.super.length then 1 else 0)
          + swarm.loop_updates draws fuel L1
      | .error _ => 0

/-- Well-formed states of the loop of `operator()` over `n` particles with a
total objective: valid leader and loop iterator, counter `k` within the budget. -/
def swarm.loop_wf (n : Nat) (L : loop_state) : Prop :=
  L.s.super.length = n ∧ L.s.leader < n ∧ (∀ x, ∃ c, L.s.f.call x = .ok c) ∧
    0 ≤ L.k ∧ L.k ≤ 640001 ∧ L.i ≤ n ∧ (L.pc ≠ .for_head → L.i < n)

/-- An upper bound on the number of transitions left before `return`. -/
def swarm.loop_measure (n : Nat) (L : loop_state) : Nat :=
  match L.pc with
  | .returned => 0
  | .decayed => 4 * (640001 - L.k).toNat + 1
  | .updated => 4 * (640001 - L.k).toNat + 2
  | .for_head => if L.i = n then 4 * (640001 - L.k).toNat + 4 else 4 * (640001 - L.k).toNat + 3

/-- The number of particle updates completed when `operator()` is at `L`. -/
def swarm.updates_done (L : loop_state) : Int :=
  if L.pc = .for_head then L.k else L.k + 1

/-- What a completed promotion by `p`, whose former leader `l` held the
neighbor list `nb`, makes of the swarmer `q` at address `i`: `follow_self` tells
whether `p` repoints itself even when it is not in the list, as `lead()` does
with its final `follow(*this)`. -/
def swarmer.promoted (follow_self : Bool) (p l : Nat) (nb : List Nat) (i : Nat) (q : swarmer) :
    swarmer :=
  { q with
    leader := if (follow_self = true ∧ i = p) ∨ i ∈ nb then p else q.leader,
    neighbors := if i = p then some nb else if i = l then none else q.neighbors }

/-- Swarms built by the constructor `swarmer(int n, objective* f)` followed by
copy constructions from that prototype, which is at address 0. -/
inductive swarmer.Built (draws : Nat → Nat → ℚ) (f : objective) (n : Nat) : List swarmer → Prop where
  | proto : swarmer.Built draws f n [swarmer.construct (draws 0) n f 0]
  | copy {h h1 : List swarmer} : swarmer.Built draws f n h →
      swarmer.copy draws f h 0 = .ok h1 → swarmer.Built draws f n h1

/-- States reached from a built swarm by completed promotions, each `lead()`
being one step. -/
inductive swarmer.Led (draws : Nat → Nat → ℚ) (f : objective) (n : Nat) : List swarmer → Prop where
  | built {h : List swarmer} : swarmer.Built draws f n h → swarmer.Led draws f n h
  | lead {h h1 : List swarmer} {p : Nat} : swarmer.Led draws f n h →
      swarmer.lead h p = .ok h1 → swarmer.Led draws f n h1

/-- Every leader reference is the address `L`, the swarmer at `L` is its own
leader and holds the neighbor list `nb`, no other swarmer holds a list, and `nb`
lists every address of the swarm exactly once. -/
def swarmer.well_led (h : List swarmer) (L : Nat) (nb : List Nat) : Prop :=
  (∀ (i : Nat) (q : swarmer), h[i]? = some q → q.leader = L) ∧
  (∃ q : swarmer, h[L]? = some q ∧ q.leader = L ∧ q.neighbors = some nb) ∧
  (∀ (i : Nat) (q : swarmer), h[i]? = some q → i ≠ L → q.neighbors = none) ∧
  nb.Perm (List.range h.length)

/-- The personal-best cost of the swarmer that the swarmer at `s` designates as
leader: the cost of `best_solution()`. -/
def swarming.leader_cost (c : swarming) (s : Nat) : Except Err (WithTop ℚ) :=
  (swarmer.best_solution c.heap s).map (fun b => b.1)

/-- All the threads have finished, so that `watch()` returns. -/
def swarming.joined (c : swarming) : Prop :=
  ∀ pc ∈ c.pcs, pc = worker_pc.stopped

instance (c : swarming) : Decidable c.joined := by
  unfold swarming.joined; infer_instance

/-- The state of `operator()` after `initialize` and `n` transitions from the
swarm `s0`. -/
def swarm.trace (draws : Nat → ℚ) (s0 : swarm) : Nat → Except Err loop_state
  | 0 => (s0.initialise draws).map swarm.loop_entry
  | n + 1 => (swarm.trace draws s0 n).bind (swarm.step draws)

/-- The number of evaluations of the objective in a run of `operator()` of at
most `fuel` transitions: `initialize` evaluates it once for every particle
(pso.cpp line 414) and every `update` evaluates it once (pso.cpp line 395). -/
def swarm.run_evaluations (draws : Nat → ℚ) (fuel : Nat) (s : swarm) : Nat :=
  match s.initialise draws with
  | .ok s1 => s1.super.length + swarm.loop_updates draws fuel s1.loop_entry
  | .error _ => 0

/-- The point of `D` coordinates whose `i`-th coordinate is `extremum(i)`,
`i = 0..D-1`. -/
def objective.extremum_point (f : objective) (D : Nat) : List ℚ :=
  (List.range D).map f.extremum

/-- The point of `D` coordinates whose `i`-th coordinate is `extremum(i+1)`,
`i = 0..D-1`: the coordinates are read from index 1 on. -/
def objective.extremum_point1 (f : objective) (D : Nat) : List ℚ :=
  (List.range D).map (fun i => f.extremum (i + 1))

/-- The objective has cost `m` at `pt`, and no point with as many coordinates
has a smaller cost. -/
def objective.minimised_at (f : objective) (pt : List ℚ) (m : ℚ) : Prop :=
  f.call pt = .ok m ∧ ∀ (x : List ℚ) (c : ℚ), x.length = pt.length → f.call x = .ok c → m ≤ c

/-- The sum of the specification for the rosenbrock objective: over
`i = 0..n-2`, of `100*(x_i^2 - x_{i+1})^2 + (x_i - 1)^2`, for a vector `x` of `n`
entries. -/
def rosenbrock_sum (x : List ℚ) : ℚ :=
  ((List.range (x.length - 1)).map
    (fun i => 100 * ((x.getD i 0) ^ 2 - x.getD (i + 1) 0) ^ 2 + (x.getD i 0 - 1) ^ 2)).sum

/-- The swarm is well led by `L` and the personal-best cost of `L` is the least
of the personal-best costs of the swarm. -/
def swarmer.led_by_best (h : List swarmer) (L : Nat) (nb : List Nat) : Prop :=
  swarmer.well_led h L nb ∧
  ∀ (sl q : swarmer) (i : Nat), h[L]? = some sl → h[i]? = some q →
    sl.local_best.1 ≤ q.local_best.1

/-- States reached from the swarm `h0` by updates that execute one at a time,
each `swarmer::update` running to completion before the next starts. -/
inductive swarmer.AtomicRun (draws : Nat → Nat → ℚ) (f : objective) (st : swarmer.statics)
    (h0 : List swarmer) : List swarmer → Prop where
  | start : swarmer.AtomicRun draws f st h0 h0
  | update {h h1 : List swarmer} {p : Nat} : swarmer.AtomicRun draws f st h0 h →
      swarmer.update draws f st h p = .ok h1 → swarmer.AtomicRun draws f st h0 h1

/-- The closed form of one turn of the loop of `optimize`, read off the source:
`m` is what the loop over the particles leaves (positions, velocities, cursor),
`e` what the evaluation leaves (`f` and `p`), `b` the index found by
`std::min_element`. -/
def batch.sweep_result (s : batch) (m : List (List ℚ) × List (List ℚ) × Nat)
    (e : List ℚ × List (List ℚ)) (b : Nat) : batch × Bool :=
  let improved : Bool := decide (e.1.getD b 0 < s.fg)
  let t1 : Int := if improved then 0 else s.t + 1
  let fg1 : ℚ := if improved then e.1.getD b 0 else s.fg
  let left : Bool := decide (s.k + m.1.length > s.kmax ∨ fg1 < 1 / 10)
  let decay : Bool := !left && decide (t1 = s.d)
  ({ s with
      x := m.1, v := m.2.1, rng := m.2.2, f := e.1, p := e.2, k := s.k + m.1.length,
      fg := fg1, g := if improved then m.1.getD b [] else s.g, t := t1,
      w := if decay then s.w * s.wd else s.w,
      vmax := if decay then s.vmax * s.vd else s.vmax }, left)

/-- The vectors of the globals have matching sizes: as many positions,
velocities and personal bests as costs, and for each particle as many velocity
and personal-best components as position components. -/
def batch.sized (s : batch) : Prop :=
  s.x.length = s.f.length ∧ s.v.length = s.f.length ∧ s.p.length = s.f.length ∧
  ∀ (j : Nat) (xj vj pj : List ℚ), s.x[j]? = some xj → s.v[j]? = some vj → s.p[j]? = some pj →
    vj.length = xj.length ∧ pj.length = xj.length

/-- The invariant of the global best of simplepso2.cpp: every `f[j]` is the cost
of `p[j]`, `fg` is the least of the `f[j]`, and `g` is `p[b]` for a particle `b`
with `f[b] = fg`. -/
def batch.best_inv (cost : List ℚ → ℚ) (s : batch) : Prop :=
  (∀ (j : Nat) (pj : List ℚ) (fj : ℚ), s.p[j]? = some pj → s.f[j]? = some fj → cost pj = fj) ∧
  (∀ (j : Nat) (fj : ℚ), s.f[j]? = some fj → s.fg ≤ fj) ∧
  ∃ b : Nat, s.f[b]? = some s.fg ∧ s.p[b]? = some s.g

/-- States of simplepso2.cpp after `initialize` and after every turn of the loop
of `optimize`, for a population of `P` particles of `N` components. -/
inductive batch.Swept (P N : Nat) (draws : Nat → ℚ) (cost : List ℚ → ℚ) : batch → Prop where
  | init {s : batch} : batch.initialise P N draws cost = .ok s → batch.Swept P N draws cost s
  | sweep {s s1 : batch} {left : Bool} : batch.Swept P N draws cost s →
      batch.sweep draws cost s = .ok (s1, left) → batch.Swept P N draws cost s1

/-- A stagnant swarm of simplepso2.cpp: every particle rests at the point whose
components are all `a`, which is also every personal best and the global best,
and the velocity bound and its decay factor are not negative, so that a turn of
the loop of `optimize` moves nothing and improves nothing. -/
def batch.frozen (P N : Nat) (a : ℚ) (cost : List ℚ → ℚ) (s : batch) : Prop :=
  s.x = List.replicate P (List.replicate N a) ∧
  s.v = List.replicate P (List.replicate N 0) ∧
  s.p = List.replicate P (List.replicate N a) ∧
  s.f = List.replicate P (cost (List.replicate N a)) ∧
  s.g = List.replicate N a ∧ s.fg = cost (List.replicate N a) ∧ 0 ≤ s.vmax ∧ 0 ≤ s.vd

/-- The fault in which an operation on the objects of particle.hpp ends, `none`
when it returns. -/
def particle_hpp.fault_of {α : Type} : Except particle_hpp.fault α → Option particle_hpp.fault
  | .error e => some e
  | .ok _ => none

/-- The objects of a store that have not been deleted: address, address of the
leader, addresses of the neighbor list. -/
def particle_hpp.store.links (m : particle_hpp.store) : List (Nat × Nat × Option (List Nat)) :=
  m.objects.enum.filterMap (fun ao => ao.2.map (fun q =>
    (ao.1, q.leader.get, q.neighbors.map (fun l => l.map (fun e => e.get)))))

/-! ## Example inputs -/

/-- A stream of draws that are all `1/2`. -/
def half_draws : Nat → ℚ := fun _ => 1 / 2

/-- Particle 0 of `demo_swarm`. -/
def demo_p0 : particle := { super := [1], velocity := [1 / 2], local_best := ((1 : ℚ), [1]) }

/-- Particle 1 of `demo_swarm`. -/
def demo_p1 : particle := { super := [2], velocity := [-1], local_best := ((4 : ℚ), [2]) }

/-- A two-particle, one-dimensional swarm on the sphere objective in a state as
left by `initialize`: particle 0 at `1` is the leader, particle 1 is at `2`. -/
def demo_swarm : swarm :=
  { super := [{ super := [1], velocity := [1 / 2], local_best := ((1 : ℚ), [1]) },
              { super := [2], velocity := [-1], local_best := ((4 : ℚ), [2]) }],
    param := { param_type.default with n := 2 },
    f := sphere,
    leader := 0,
    vmax := [128 / 25],
    rng := 0 }

/-- `operator()` on `demo_swarm` at the head of the `for` loop, about to update
particle 1. -/
def demo_loop : loop_state :=
  { s := demo_swarm, i := 1, k := 1, t := 1, pc := .for_head }

/-- The state after the update of particle 1 from `demo_loop`; the evaluated
cost of the new position `[0]` is `0`. -/
def demo_loop_updated : loop_state :=
  { demo_loop with
    s := (demo_swarm.update_result half_draws 1 demo_p1 demo_p0 0).2,
    t := if (demo_swarm.update_result half_draws 1 demo_p1 demo_p0 0).1 then 0
      else demo_loop.t + 1,
    pc := .updated }

/-- A stream of draws cycling through `0, 1/4, 1/2, 3/4`. -/
def demo_draws : Nat → ℚ := fun n => ((n % 4 : Nat) : ℚ) / 4

/-- A freshly constructed swarm: two particles in one dimension on the sphere
objective, default parameters. -/
def demo_fresh : swarm :=
  swarm.construct 1 sphere { param_type.default with n := 2 }

/-- The swarm `demo_fresh` after `initialize` under `demo_draws`. -/
def demo_init : swarm :=
  (demo_fresh.initialise demo_draws).toOption.getD demo_fresh

/-- The state after the first transition of `operator()` on `demo_init`: the
update of particle 0. -/
def demo_first : loop_state :=
  (swarm.step demo_draws demo_init.loop_entry).toOption.getD demo_init.loop_entry

/-- A stream of draws that are all `0`. -/
def zero_draws : Nat → ℚ := fun _ => 0

/-- A freshly constructed swarm with one particle in one dimension on the sphere
objective, default parameters except for a stagnation window `d = 1`. -/
def stall_fresh : swarm :=
  swarm.construct 1 sphere { param_type.default with n := 1, d := 1 }

/-- The swarm `stall_fresh` after `initialize` under `zero_draws`: the particle
is at `-5.12` with velocity `-5.12`. -/
def stall_init : swarm :=
  (stall_fresh.initialise zero_draws).toOption.getD stall_fresh

/-- What `update` returns for the particle of `stall_init`: it moves to `-10.24`
and does not improve. -/
def stall_update : Bool × swarm :=
  (stall_init.update zero_draws 0).toOption.getD (false, stall_init)

/-- The state of `operator()` after the first particle update on `stall_init`. -/
def stall_updated : loop_state :=
  (swarm.step zero_draws stall_init.loop_entry).toOption.getD stall_init.loop_entry

/-- The state of `operator()` after the decay that follows that update. -/
def stall_decayed : loop_state :=
  (swarm.step zero_draws stall_updated).toOption.getD stall_updated

/-- An objective a caller of `swarm` can supply, a subclass of `objective` whose
`operator()` is `return 0.1;`: the cost is the constant of the exit test of
`operator()` at every point, whatever the arithmetic that led to the point.
Domain `(-1, 1)` in every dimension. -/
def flat : objective :=
  { call := fun _ => .ok (1 / 10),
    domain := fun _ => (-1, 1),
    extremum := fun i => if i = 0 then 1 / 10 else 0 }

/-- A freshly constructed swarm with one particle in one dimension on the
objective `flat`, default parameters. -/
def flat_fresh : swarm :=
  swarm.construct 1 flat { param_type.default with n := 1 }

/-- The swarm `flat_fresh` after `initialize` under `zero_draws`: the particle is
at `-1` with velocity `-1`, and its cost is `0.1`. -/
def flat_init : swarm :=
  (flat_fresh.initialise zero_draws).toOption.getD flat_fresh

/-- The state of `operator()` after the first particle update on `flat_init`. -/
def flat_updated : loop_state :=
  (swarm.step zero_draws flat_init.loop_entry).toOption.getD flat_init.loop_entry

/-- The state of `operator()` after the decay test that follows that update. -/
def flat_decayed : loop_state :=
  (swarm.step zero_draws flat_updated).toOption.getD flat_updated

/-- The default parameters with two particles and negative cognitive and social
coefficients. -/
def negative_param : param_type := { param_type.default with n := 2, c1 := -2, c2 := -2 }

/-- The default parameters with a population size of zero. -/
def empty_param : param_type := { param_type.default with n := 0 }

/-- Draws for a swarm of two swarmers on the 1-dimensional sphere: both start at
position 0, swarmer 0 with velocity 1/4 and swarmer 1 with velocity 3/8; the draws
of the updates are 0. -/
def race_draws : Nat → Nat → ℚ := fun a n =>
  if n = 0 then 1 / 2
  else if n = 1 then (if a = 0 then 1049 / 2048 else 2123 / 4096)
  else 0

/-- The prototype of the race example. -/
def race_proto : List swarmer := [swarmer.construct (race_draws 0) 1 sphere 0]

/-- The prototype and one copy of it. -/
def race_heap : List swarmer :=
  (swarmer.copy race_draws sphere race_proto 0).toOption.getD []

/-- The threads of the race example, started. -/
def race_start : swarming :=
  (swarmer.start race_heap 0).toOption.getD { heap := [], pcs := [], update_count := 0 }

/-- The race example after the steps of `schedule`. -/
def race_after (schedule : List Nat) : swarming :=
  (swarmer.run_schedule race_draws sphere swarmer.statics.default race_start schedule).toOption.getD
    { heap := [], pcs := [], update_count := 0 }

/-- Swarmer 1 of `race_heap`. -/
def race_s1 : swarmer :=
  { super := [0], velocity := [3 / 8], leader := 0, neighbors := none,
    local_best := (⊤, [0]), rng := 2 }

/-- Swarmer 0 of `race_heap`, the prototype. -/
def race_s0 : swarmer :=
  { super := [0], velocity := [1 / 4], leader := 0, neighbors := some [1, 0],
    local_best := (⊤, [0]), rng := 2 }

/-- The swarm `race_heap` after a promotion of swarmer 1. -/
def race_led : List swarmer := (swarmer.lead race_heap 1).toOption.getD []

/-- Draws that place two particles of a one-dimensional swarm at `1` and `2`,
with velocities `0` and `-1`; the draws of the updates are `0`. -/
def improve_draws : Nat → ℚ := fun n =>
  if n = 0 then 153 / 256 else if n = 1 then 89 / 128 else if n = 2 then 1 / 2
  else if n = 3 then 103 / 256 else 0

/-- The state of `operator()` on `demo_fresh` under `draws` after `n`
transitions. -/
def demo_at (draws : Nat → ℚ) (n : Nat) : loop_state :=
  (swarm.trace draws demo_fresh n).toOption.getD demo_fresh.loop_entry

/-- Draws that place two particles of a one-dimensional swarm at `1` and `2`,
with velocities `-1/2` and `-1`; the draws of the updates are `1/2`. -/
def live_draws : Nat → ℚ := fun n =>
  if n = 0 then 153 / 256 else if n = 1 then 89 / 128 else if n = 2 then 231 / 512
  else if n = 3 then 103 / 256 else 1 / 2

/-- A freshly constructed swarm with one particle in one dimension on the sphere
objective, default parameters. -/
def solo_fresh : swarm :=
  swarm.construct 1 sphere { param_type.default with n := 1 }

/-- The state in which `operator()` returns on `solo_fresh` under `half_draws`
when run for at most `fuel` transitions. -/
def solo_final (fuel : Nat) : loop_state :=
  ((solo_fresh.run half_draws fuel).toOption.bind id).getD solo_fresh.loop_entry

/-- A one-particle swarm on the sphere objective, in one dimension: the particle
is at `5` with velocity `1`, its personal best is its position, the cap is
`5.12`. -/
def inside_swarm : swarm :=
  { super := [{ super := [5], velocity := [1], local_best := ((25 : ℚ), [5]) }],
    param := { param_type.default with n := 1 },
    f := sphere,
    leader := 0,
    vmax := [128 / 25],
    rng := 0 }

/-- An objective whose domain widens with the dimension: `domain(i)` is
`(0, i+1)`; the cost is that of the sphere. -/
def ramp : objective :=
  { call := sphere.call,
    domain := fun i => (0, (i : ℚ) + 1),
    extremum := fun _ => 0 }

/-- Draws of a generator: `1/2` twice, then `15/16`. -/
def ramp_draws : Nat → ℚ := fun n => if n < 2 then 1 / 2 else 15 / 16

/-- Draws of the generator of a swarmer: `253/256` and `0` for the constructor,
which on the 1-dimensional sphere give the position `5` and the velocity
`-10.24`, then `3/4`. -/
def lone_draws : Nat → Nat → ℚ := fun _ n =>
  if n = 0 then 253 / 256 else if n = 1 then 0 else 3 / 4

/-- A swarm of one swarmer on the 1-dimensional sphere. -/
def lone_heap : List swarmer := [swarmer.construct (lone_draws 0) 1 sphere 0]

/-- The only swarmer of `lone_heap`. -/
def lone_s0 : swarmer :=
  { super := [5], velocity := [-256 / 25], leader := 0, neighbors := some [0],
    local_best := (⊤, [0]), rng := 2 }

/-- The swarm `race_heap` after a complete update of swarmer 1. -/
def race_atomic1 : List swarmer :=
  (swarmer.update race_draws sphere swarmer.statics.default race_heap 1).toOption.getD []

/-- The swarm `race_atomic1` after a complete update of swarmer 0. -/
def race_atomic2 : List swarmer :=
  (swarmer.update race_draws sphere swarmer.statics.default race_atomic1 0).toOption.getD []

/-- A cost on rational numbers for examples of simplepso2.cpp: the cost of lines
107-122 with the product of cosines left out, `1 + Σ x_i² / 4000`. -/
def quadratic_cost (x : List ℚ) : ℚ :=
  x.foldl (fun sum a => sum + a * a / 4000) 1

/-- A generator for simplepso2.cpp with `P = 20` and `N = 64`: the first 1280
draws are 3/4, which puts every particle at (300, ..., 300), the later ones 1/2,
which gives every velocity component the value 0. -/
def stagnant_draws (i : Nat) : ℚ :=
  if i < 1280 then 3 / 4 else 1 / 2

/-- What `initialize` of simplepso2.cpp leaves for two particles of one component
with the generator `demo_draws` and the cost `quadratic_cost`: positions -600 and
-300, velocities 0 and 300. -/
def duo_init : batch :=
  { kmax := 640000, c1 := 2, c2 := 2, vmax := 600, w := 1, vd := 19 / 20, wd := 19 / 20,
    k := 2, t := 0, d := 200, rng := 4, x := [[-600], [-300]], v := [[0], [300]],
    p := [[-600], [-300]], f := [91, 47 / 2], g := [-300], fg := 47 / 2 }

/-- The globals after the first turn of the loop of `optimize` from `duo_init`:
particle 1 has moved to 0, where the cost is 1. -/
def duo_swept : batch :=
  { kmax := 640000, c1 := 2, c2 := 2, vmax := 600, w := 1, vd := 19 / 20, wd := 19 / 20,
    k := 4, t := 0, d := 200, rng := 8, x := [[-450], [0]], v := [[150], [300]],
    p := [[-450], [0]], f := [413 / 8, 1], g := [0], fg := 1 }

/-- The two objects of `main` of particle.cpp (lines 11-12):
`std::shared_ptr<swarmer> s1 {new swarmer};` at address 0 and
`std::shared_ptr<swarmer> s2 {new swarmer(*s1)};` at address 1. -/
def particle_hpp.pair (latest : Bool) : Except particle_hpp.fault particle_hpp.store := do
  let m0 := particle_hpp.swarmer.construct latest { objects := [], use_count := [] }
  let m1 ← m0.adopt latest 0
  let m2 ← particle_hpp.swarmer.copy m1 0
  m2.adopt latest 1

/-- A prototype at address 0 and two copies of it, at addresses 1 and 2:
`new swarmer`, `new swarmer(*s1)`, `new swarmer(*s1)`. -/
def particle_hpp.trio (latest : Bool) : Except particle_hpp.fault particle_hpp.store := do
  let m0 := particle_hpp.swarmer.construct latest { objects := [], use_count := [] }
  let m1 ← particle_hpp.swarmer.copy m0 0
  particle_hpp.swarmer.copy m1 0

/-- The trio at the point where `promote()` on the object at 1 has run two turns
of its loop and, in the third turn, `auto s` has copied the entry of the former
leader and `s->leader = shared_from_this();` has been executed for it. -/
def particle_hpp.trio_repointed (latest : Bool) :
    Except particle_hpp.fault particle_hpp.store := do
  let m ← particle_hpp.trio latest
  let m2 ← particle_hpp.swarmer.promote_loop 1 0 2 0 m
  particle_hpp.swarmer.repoint (m2.acquire { get := 0, block := 1 }) 1 { get := 0, block := 1 }

/-! ## Auxiliary lemmas -/

theorem tail_getD_zero (l : List ℚ) (j : Nat) : l.tail.getD j 0 = l.getD (j + 1) 0 := by
  cases l <;> simp

theorem headD_eq_getD (l : List ℚ) : l.headD 0 = l.getD 0 0 := by
  cases l <;> simp

theorem getD_of_getElem? {l : List ℚ} {j : Nat} {a : ℚ} (h : l[j]? = some a) :
    l.getD j 0 = a := by
  simp [List.getD, h]

theorem velocity_transform_length (draws : Nat → ℚ) (pr : param_type) (vs : List ℚ) :
    ∀ (rng : Nat) (xi vm p g : List ℚ),
      (swarm.velocity_transform draws pr rng vs xi vm p g).1.length = vs.length := by
  induction vs with
  | nil => intros; rfl
  | cons v vs ih => intro rng xi vm p g; simp [swarm.velocity_transform, ih]

theorem velocity_transform_rng (draws : Nat → ℚ) (pr : param_type) (vs : List ℚ) :
    ∀ (rng : Nat) (xi vm p g : List ℚ),
      (swarm.velocity_transform draws pr rng vs xi vm p g).2 = rng + 2 * vs.length := by
  induction vs with
  | nil => intros; rfl
  | cons v vs ih =>
    intro rng xi vm p g
    simp [swarm.velocity_transform, ih]
    ring

theorem velocity_transform_getElem? (draws : Nat → ℚ) (pr : param_type) (vs : List ℚ) :
    ∀ (rng : Nat) (xi vm p g : List ℚ) (j : Nat) (v : ℚ), vs[j]? = some v →
      (swarm.velocity_transform draws pr rng vs xi vm p g).1[j]? =
        some (max (min (v * pr.w + draws (rng + 2 * j) * pr.c1 * (p.getD j 0 - xi.getD j 0)
          + draws (rng + 2 * j + 1) * pr.c2 * (g.getD j 0 - xi.getD j 0)) (vm.getD j 0))
          (-(vm.getD j 0))) := by
  induction vs with
  | nil => intro rng xi vm p g j v h; simp at h
  | cons v0 vs ih =>
    intro rng xi vm p g j v h
    cases j with
    | zero =>
      simp at h
      subst h
      simp only [swarm.velocity_transform, headD_eq_getD, List.getElem?_cons_zero, Nat.mul_zero,
        Nat.add_zero]
    | succ j =>
      simp at h
      have := ih (rng + 2) xi.tail vm.tail p.tail g.tail j v h
      simp only [tail_getD_zero] at this
      simp only [swarm.velocity_transform, List.getElem?_cons_succ, this]
      have e : rng + 2 + 2 * j = rng + 2 * (j + 1) := by ring
      rw [e]

theorem clamp_eq_spec_clamp (v vm : ℚ) (h : 0 ≤ vm) :
    max (min v vm) (-vm) = spec_clamp v (-vm) vm := by
  unfold spec_clamp
  by_cases h1 : v < -vm
  · rw [if_pos h1, max_eq_right]
    exact le_trans (min_le_left _ _) h1.le
  · rw [if_neg h1]
    by_cases h2 : vm < v
    · rw [if_pos h2, min_eq_right h2.le, max_eq_left]; linarith
    · rw [if_neg h2, min_eq_left (not_lt.mp h2), max_eq_left (not_lt.mp h1)]

theorem deref_of_getElem? {s : swarm} {i : Nat} {p : particle} (h : s.super[i]? = some p) :
    s.deref i = .ok p := by
  simp [swarm.deref, h]

theorem deref_eq_ok {s : swarm} {i : Nat} {p : particle} (h : s.deref i = .ok p) :
    s.super[i]? = some p := by
  unfold swarm.deref at h
  split at h
  · rename_i q hq; injection h with h; rw [hq, h]
  · cases h

theorem update_ok (draws : Nat → ℚ) (s : swarm) (i : Nat) (pi pl : particle) (cost : ℚ)
    (hi : s.super[i]? = some pi) (hl : s.super[s.leader]? = some pl)
    (hc : s.f.call (s.new_position draws pi pl) = .ok cost) :
    s.update draws i = .ok (s.update_result draws i pi pl cost) := by
  have hlt : i < s.super.length := (List.getElem?_eq_some_iff.mp hi).1
  unfold swarm.update swarm.update_result
  simp only [deref_of_getElem? hi, deref_of_getElem? hl, bind, Except.bind, hc,
    velocity_transform_rng, pure, Except.pure]
  by_cases h1 : (cost : WithTop ℚ) < pi.local_best.1
  · simp only [h1, if_true, swarm.deref, List.set_set]
    by_cases hli : s.leader = i
    · subst hli
      rw [hi] at hl
      injection hl with hl
      subst hl
      simp [hlt, h1]
    · have : (s.super.set i
          { super := s.new_position draws pi pl, velocity := s.new_velocity draws pi pl,
            local_best := (↑cost, s.new_position draws pi pl) })[s.leader]? = some pl := by
        rw [List.getElem?_set_ne (Ne.symm hli)]; exact hl
      simp only [this]
      by_cases h2 : (cost : WithTop ℚ) < pl.local_best.1
      · simp [h2]
      · simp [h2, hli]
  · simp [h1]

theorem update_result_getElem? (draws : Nat → ℚ) (s : swarm) (i : Nat) (pi pl : particle)
    (cost : ℚ) (hi : s.super[i]? = some pi) :
    (s.update_result draws i pi pl cost).2.super[i]? =
      some { super := s.new_position draws pi pl, velocity := s.new_velocity draws pi pl,
             local_best := if (cost : WithTop ℚ) < pi.local_best.1
               then (cost, s.new_position draws pi pl) else pi.local_best } := by
  have hlt : i < s.super.length := (List.getElem?_eq_some_iff.mp hi).1
  unfold swarm.update_result
  split <;> simp [hlt]

theorem update_inv {draws : Nat → ℚ} {s : swarm} {i : Nat} {r : Bool × swarm}
    (h : s.update draws i = .ok r) :
    ∃ pi pl cost, s.super[i]? = some pi ∧ s.super[s.leader]? = some pl ∧
      s.f.call (s.new_position draws pi pl) = .ok cost ∧
      r = s.update_result draws i pi pl cost := by
  cases hi : s.deref i with
  | error e => simp [swarm.update, hi, bind, Except.bind] at h
  | ok pi =>
    cases hl : s.deref s.leader with
    | error e => simp [swarm.update, hi, hl, bind, Except.bind] at h
    | ok pl =>
      cases hc : s.f.call (s.new_position draws pi pl) with
      | error e => simp [swarm.update, hi, hl, hc, bind, Except.bind] at h
      | ok cost =>
        refine ⟨pi, pl, cost, deref_eq_ok hi, deref_eq_ok hl, hc, ?_⟩
        rw [update_ok draws s i pi pl cost (deref_eq_ok hi) (deref_eq_ok hl) hc] at h
        injection h with h
        exact h.symm

theorem best_solution_eq_ok {s : swarm} {g : solution} :
    s.best_solution = .ok g ↔ ∃ pl, s.super[s.leader]? = some pl ∧ pl.local_best = g := by
  unfold swarm.best_solution swarm.deref
  cases h : s.super[s.leader]? with
  | none => simp
  | some p => simp

theorem update_result_length (draws : Nat → ℚ) (s : swarm) (i : Nat) (pi pl : particle)
    (cost : ℚ) : (s.update_result draws i pi pl cost).2.super.length = s.super.length := by
  unfold swarm.update_result
  split <;> simp

theorem update_result_getElem?_ne (draws : Nat → ℚ) (s : swarm) (i j : Nat) (pi pl : particle)
    (cost : ℚ) (hij : i ≠ j) :
    (s.update_result draws i pi pl cost).2.super[j]? = s.super[j]? := by
  unfold swarm.update_result
  split <;> simp [List.getElem?_set_ne hij]

theorem update_result_leader (draws : Nat → ℚ) (s : swarm) (i : Nat) (pi pl : particle)
    (cost : ℚ) :
    (s.update_result draws i pi pl cost).2.leader =
      if (cost : WithTop ℚ) < pi.local_best.1 ∧ (cost : WithTop ℚ) < pl.local_best.1
      then i else s.leader := by
  unfold swarm.update_result
  by_cases h1 : (cost : WithTop ℚ) < pi.local_best.1 <;>
    by_cases h2 : (cost : WithTop ℚ) < pl.local_best.1 <;> simp [h1, h2]

theorem update_result_frame (draws : Nat → ℚ) (s : swarm) (i : Nat) (pi pl : particle)
    (cost : ℚ) :
    (s.update_result draws i pi pl cost).2.param = s.param ∧
    (s.update_result draws i pi pl cost).2.vmax = s.vmax ∧
    (s.update_result draws i pi pl cost).2.f = s.f := by
  unfold swarm.update_result
  split <;> simp

/-- The leader's best cost after `update`, in terms of the state before. -/
theorem update_result_best (draws : Nat → ℚ) (s : swarm) (i : Nat) (pi pl : particle)
    (cost : ℚ) (hi : s.super[i]? = some pi) (hl : s.super[s.leader]? = some pl) :
    ∃ pl1, (s.update_result draws i pi pl cost).2.super[
        (s.update_result draws i pi pl cost).2.leader]? = some pl1 ∧
      pl1.local_best.1 =
        if (cost : WithTop ℚ) < pi.local_best.1 ∧ (cost : WithTop ℚ) < pl.local_best.1
        then (cost : WithTop ℚ) else pl.local_best.1 := by
  rw [update_result_leader]
  by_cases h : (cost : WithTop ℚ) < pi.local_best.1 ∧ (cost : WithTop ℚ) < pl.local_best.1
  · rw [if_pos h, if_pos h, update_result_getElem? draws s i pi pl cost hi]
    exact ⟨_, rfl, by simp [h.1]⟩
  · rw [if_neg h, if_neg h]
    by_cases hli : s.leader = i
    · rw [hli, update_result_getElem? draws s i pi pl cost hi]
      refine ⟨_, rfl, ?_⟩
      rw [hli, hi] at hl
      injection hl with hl
      subst hl
      have h1 : ¬ (cost : WithTop ℚ) < pi.local_best.1 := fun h1 => h ⟨h1, h1⟩
      simp [h1]
    · rw [update_result_getElem?_ne draws s i s.leader pi pl cost (Ne.symm hli)]
      exact ⟨pl, hl, rfl⟩

theorem step_for_head {draws : Nat → ℚ} {L L1 : loop_state} (hpc : L.pc = .for_head)
    (h : swarm.step draws L = .ok L1) :
    (L.i = L.s.super.length ∧ L1 = { L with i := 0 }) ∨
    (L.i ≠ L.s.super.length ∧ ∃ r, L.s.update draws L.i = .ok r ∧
      L1 = { L with s := r.2, t := if r.1 then 0 else L.t + 1, pc := .updated }) := by
  unfold swarm.step at h
  rw [hpc] at h
  by_cases hi : L.i = L.s.super.length
  · left
    simp only [hi, ne_eq, not_true_eq_false, if_false, pure, Except.pure] at h
    injection h with h
    exact ⟨hi, by rw [← h, hpc]⟩
  · right
    simp only [ne_eq, hi, not_false_eq_true, if_true] at h
    cases hu : L.s.update draws L.i with
    | error e => simp [hu, bind, Except.bind] at h
    | ok r =>
      simp only [hu, bind, Except.bind, pure, Except.pure] at h
      injection h with h
      exact ⟨hi, r, rfl, h.symm⟩

theorem step_updated {draws : Nat → ℚ} {L L1 : loop_state} (hpc : L.pc = .updated)
    (h : swarm.step draws L = .ok L1) :
    L1 = if L.t = L.s.param.d then { L with t := 0, s := L.s.decay, pc := .decayed }
      else { L with pc := .decayed } := by
  unfold swarm.step at h
  rw [hpc] at h
  by_cases ht : L.t = L.s.param.d
  · simp only [ht, if_true, pure, Except.pure] at h
    injection h with h
    simp [ht, ← h]
  · simp only [ht, if_false, pure, Except.pure] at h
    injection h with h
    simp [ht, ← h]

theorem step_decayed {draws : Nat → ℚ} {L L1 : loop_state} (hpc : L.pc = .decayed)
    (h : swarm.step draws L = .ok L1) :
    ∃ best, L.s.best_solution = .ok best ∧
      L1 = if swarm.stop_test best L.k then { L with pc := .returned }
        else { L with i := L.i + 1, k := L.k + 1, pc := .for_head } := by
  unfold swarm.step at h
  rw [hpc] at h
  cases hb : L.s.best_solution with
  | error e => simp [hb, bind, Except.bind] at h
  | ok best =>
    refine ⟨best, rfl, ?_⟩
    simp only [hb, bind, Except.bind, pure, Except.pure] at h
    by_cases hs : swarm.stop_test best L.k = true
    · simp only [hs, if_true] at h
      injection h with h
      simp [hs, ← h]
    · simp only [hs] at h
      injection h with h
      simp [hs, ← h]

theorem step_returned {draws : Nat → ℚ} {L L1 : loop_state} (hpc : L.pc = .returned)
    (h : swarm.step draws L = .ok L1) : L1 = L := by
  unfold swarm.step at h
  rw [hpc] at h
  simp only [pure, Except.pure] at h
  injection h with h
  exact h.symm

/-- Every transition either leaves the particles and the leader as they are, or
is an `update` of the particle at `L.i`. -/
theorem step_cases {draws : Nat → ℚ} {L L1 : loop_state} (h : swarm.step draws L = .ok L1) :
    (L1.s.super = L.s.super ∧ L1.s.leader = L.s.leader ∧ L1.s.f = L.s.f) ∨
    (L.pc = .for_head ∧ L1.pc = .updated ∧ L1.i = L.i ∧
      ∃ r, L.s.update draws L.i = .ok r ∧ L1.s = r.2) := by
  cases hpc : L.pc with
  | for_head =>
    rcases step_for_head hpc h with ⟨_, h1⟩ | ⟨_, r, hr, h1⟩
    · left; subst h1; exact ⟨rfl, rfl, rfl⟩
    · right; subst h1; exact ⟨rfl, rfl, rfl, r, hr, rfl⟩
  | updated =>
    left
    have h1 := step_updated hpc h
    subst h1
    split <;> exact ⟨rfl, rfl, rfl⟩
  | decayed =>
    left
    obtain ⟨best, _, h1⟩ := step_decayed hpc h
    subst h1
    split <;> exact ⟨rfl, rfl, rfl⟩
  | returned =>
    left
    rw [step_returned hpc h]
    exact ⟨rfl, rfl, rfl⟩

theorem update_best_le {draws : Nat → ℚ} {s : swarm} {i : Nat} {r : Bool × swarm}
    {g : solution} (h : s.update draws i = .ok r) (hg : s.best_solution = .ok g) :
    ∃ g1, r.2.best_solution = .ok g1 ∧ g1.1 ≤ g.1 := by
  obtain ⟨pi, pl, cost, hi, hl, _, hr⟩ := update_inv h
  obtain ⟨pl0, hl0, hg0⟩ := best_solution_eq_ok.mp hg
  rw [hl] at hl0
  injection hl0 with hl0
  subst hl0
  subst hg0
  obtain ⟨pl1, hpl1, hbest⟩ := update_result_best draws s i pi pl cost hi hl
  rw [← hr] at hpl1
  refine ⟨pl1.local_best, best_solution_eq_ok.mpr ⟨pl1, hpl1, rfl⟩, ?_⟩
  rw [hbest]
  split
  · rename_i hlt; exact hlt.2.le
  · exact le_refl _

theorem step_best_le {draws : Nat → ℚ} {L L1 : loop_state} {g : solution}
    (h : swarm.step draws L = .ok L1) (hg : L.s.best_solution = .ok g) :
    ∃ g1, L1.s.best_solution = .ok g1 ∧ g1.1 ≤ g.1 := by
  rcases step_cases h with ⟨hs, hl, _⟩ | ⟨_, _, _, r, hr, hs⟩
  · refine ⟨g, ?_, le_refl _⟩
    obtain ⟨pl, hpl, hg0⟩ := best_solution_eq_ok.mp hg
    exact best_solution_eq_ok.mpr ⟨pl, by rw [hs, hl]; exact hpl, hg0⟩
  · rw [hs]
    exact update_best_le hr hg

theorem step_update_ok {draws : Nat → ℚ} {L : loop_state} {r : Bool × swarm}
    (hpc : L.pc = .for_head) (hi : L.i ≠ L.s.super.length)
    (hu : L.s.update draws L.i = .ok r) :
    swarm.step draws L =
      .ok { L with s := r.2, t := if r.1 then 0 else L.t + 1, pc := .updated } := by
  unfold swarm.step
  rw [hpc]
  simp only [ne_eq, hi, not_false_eq_true, if_true, hu, bind, Except.bind, pure, Except.pure]

theorem demo_update :
    demo_swarm.update half_draws 1 =
      .ok (demo_swarm.update_result half_draws 1 demo_p1 demo_p0 0) :=
  update_ok half_draws demo_swarm 1 demo_p1 demo_p0 0 rfl rfl (by decide!)

theorem demo_step : swarm.step half_draws demo_loop = .ok demo_loop_updated :=
  step_update_ok rfl (by decide) demo_update

theorem initialise_body_inv {s s1 : swarm} {i : Nat} (h : s.initialise_body i = .ok s1) :
    ∃ pi cost pl, s.super[i]? = some pi ∧ s.f.call pi.super = .ok cost ∧
      (s.super.set i { pi with local_best := ((cost : WithTop ℚ), pi.super) })[s.leader]? = some pl ∧
      s1 = { s with
        super := s.super.set i { pi with local_best := ((cost : WithTop ℚ), pi.super) },
        leader := if (cost : WithTop ℚ) < pl.local_best.1 then i else s.leader } := by
  unfold swarm.initialise_body swarm.deref at h
  cases hi : s.super[i]? with
  | none => simp [hi, bind, Except.bind] at h
  | some pi =>
    cases hc : s.f.call pi.super with
    | error e => simp [hi, hc, bind, Except.bind] at h
    | ok cost =>
      cases hl : (s.super.set i { pi with local_best := ((cost : WithTop ℚ), pi.super) })[s.leader]? with
      | none => simp [hi, hc, hl, bind, Except.bind] at h
      | some pl =>
        refine ⟨pi, cost, pl, rfl, hc, hl, ?_⟩
        simp only [hi, hc, bind, Except.bind, hl, pure, Except.pure] at h
        split at h <;> rename_i hlt <;> injection h with h <;> simp [hlt, ← h]

theorem foldlM_range_inv (body : swarm → Nat → Except Err swarm) (Q : Nat → swarm → Prop)
    (n : Nat)
    (hstep : ∀ m s s1, m < n → Q m s → body s m = .ok s1 → Q (m + 1) s1) :
    ∀ s s1, Q 0 s → (List.range n).foldlM body s = .ok s1 → Q n s1 := by
  induction n with
  | zero =>
    intro s s1 h0 h
    simp only [List.range_zero, List.foldlM_nil, pure, Except.pure] at h
    injection h with h
    rw [← h]; exact h0
  | succ n ih =>
    intro s s1 h0 h
    rw [List.range_succ, List.foldlM_append] at h
    cases h2 : (List.range n).foldlM body s with
    | error e => simp [h2, bind, Except.bind] at h
    | ok s2 =>
      have hq : Q n s2 :=
        ih (fun m a b hm => hstep m a b (Nat.lt_succ_of_lt hm)) s s2 h0 h2
      simp only [h2, bind, Except.bind, List.foldlM_cons, List.foldlM_nil] at h
      cases h3 : body s2 n with
      | error e => simp [h3] at h
      | ok s3 =>
        simp only [h3, pure, Except.pure] at h
        injection h with h
        rw [← h]
        exact hstep n s2 s3 (Nat.lt_succ_self n) hq h3

theorem initialise_body_init_inv {n m : Nat} {s s1 : swarm} (hm : m < n)
    (hq : s.init_inv n m) (h : s.initialise_body m = .ok s1) : s1.init_inv n (m + 1) := by
  obtain ⟨pi, cost, pl, hi, _, hl, rfl⟩ := initialise_body_inv h
  obtain ⟨hlen, hlead, hall⟩ := hq
  have hmlt : m < s.super.length := by rw [hlen]; exact hm
  have hself : (s.super.set m { pi with local_best := ((cost : WithTop ℚ), pi.super) })[m]? =
      some { pi with local_best := ((cost : WithTop ℚ), pi.super) } := by
    simp [hmlt]
  refine ⟨by simp [hlen], ?_, ?_⟩
  · show (if (cost : WithTop ℚ) < pl.local_best.1 then m else s.leader) < max (m + 1) 1
    split
    · exact lt_max_of_lt_left (Nat.lt_succ_self m)
    · rcases lt_max_iff.mp hlead with h1 | h1
      · exact lt_max_of_lt_left (Nat.lt_succ_of_lt h1)
      · exact lt_max_of_lt_right h1
  · intro j hj
    show ∃ pl1 q, (s.super.set m _)[if (cost : WithTop ℚ) < pl.local_best.1 then m else s.leader]?
      = some pl1 ∧ (s.super.set m _)[j]? = some q ∧ pl1.local_best.1 ≤ q.local_best.1
    by_cases hlm : s.leader = m
    · -- the leader is the particle being treated: only possible for `m = 0`
      rw [hlm, hself] at hl
      injection hl with hl
      subst hl
      have hm0 : m = 0 := by
        rw [hlm] at hlead
        rcases lt_max_iff.mp hlead with h1 | h1
        · exact absurd h1 (lt_irrefl m)
        · omega
      have hj0 : j = m := by omega
      simp only [lt_self_iff_false, if_false, hlm, hj0]
      exact ⟨_, _, hself, hself, le_refl _⟩
    · rw [List.getElem?_set_ne (Ne.symm hlm)] at hl
      by_cases hlt : (cost : WithTop ℚ) < pl.local_best.1
      · rw [if_pos hlt]
        by_cases hjm : j = m
        · rw [hjm]; exact ⟨_, _, hself, hself, le_refl _⟩
        · have hj1 : j < m := by omega
          obtain ⟨pl0, q, hpl0, hq0, hle⟩ := hall j hj1
          rw [hl] at hpl0
          injection hpl0 with hpl0
          subst hpl0
          refine ⟨_, q, hself, ?_, ?_⟩
          · rw [List.getElem?_set_ne (Ne.symm hjm)]; exact hq0
          · exact le_trans hlt.le hle
      · rw [if_neg hlt]
        have hl1 : (s.super.set m { pi with local_best := ((cost : WithTop ℚ), pi.super) })[s.leader]?
            = some pl := by
          rw [List.getElem?_set_ne (Ne.symm hlm)]; exact hl
        by_cases hjm : j = m
        · rw [hjm]; exact ⟨pl, _, hl1, hself, not_lt.mp hlt⟩
        · have hj1 : j < m := by omega
          obtain ⟨pl0, q, hpl0, hq0, hle⟩ := hall j hj1
          rw [hl] at hpl0
          injection hpl0 with hpl0
          subst hpl0
          refine ⟨pl, q, hl1, ?_, hle⟩
          rw [List.getElem?_set_ne (Ne.symm hjm)]; exact hq0

theorem initialise_best_le_all {draws : Nat → ℚ} {s0 s : swarm} (h0 : s0.leader = 0)
    (h : s0.initialise draws = .ok s) : s.best_le_all := by
  unfold swarm.initialise at h
  have hq : s.init_inv (s0.randomize draws).super.length (s0.randomize draws).super.length :=
    foldlM_range_inv swarm.initialise_body
      (swarm.init_inv (s0.randomize draws).super.length) _
      (fun m a b hm hq hb => initialise_body_init_inv hm hq hb) _ _
      ⟨rfl, by show s0.leader < max 0 1; rw [h0]; decide, fun j hj => absurd hj (Nat.not_lt_zero j)⟩
      h
  obtain ⟨hlen, _, hall⟩ := hq
  intro q hqmem
  obtain ⟨j, hj⟩ := List.mem_iff_getElem?.mp hqmem
  have hjlt : j < s.super.length := (List.getElem?_eq_some_iff.mp hj).1
  obtain ⟨pl, q1, hpl, hq1, hle⟩ := hall j (by rw [← hlen]; exact hjlt)
  rw [hj] at hq1
  injection hq1 with hq1
  subst hq1
  exact ⟨pl, hpl, hle⟩

theorem update_result_best_le_all (draws : Nat → ℚ) (s : swarm) (i : Nat) (pi pl : particle)
    (cost : ℚ) (hi : s.super[i]? = some pi) (hl : s.super[s.leader]? = some pl)
    (hinv : s.best_le_all) : (s.update_result draws i pi pl cost).2.best_le_all := by
  obtain ⟨pl1, hpl1, hbest⟩ := update_result_best draws s i pi pl cost hi hl
  have hP : pl.local_best.1 ≤ pi.local_best.1 := by
    obtain ⟨pl0, hpl0, hle⟩ := hinv pi (List.getElem?_mem hi)
    rw [hl] at hpl0
    injection hpl0 with hpl0
    rw [hpl0]; exact hle
  intro q hq
  refine ⟨pl1, hpl1, ?_⟩
  obtain ⟨j, hj⟩ := List.mem_iff_getElem?.mp hq
  by_cases hij : i = j
  · subst hij
    rw [update_result_getElem? draws s i pi pl cost hi] at hj
    injection hj with hj
    subst hj
    rw [hbest]
    by_cases h1 : (cost : WithTop ℚ) < pi.local_best.1
    · by_cases h2 : (cost : WithTop ℚ) < pl.local_best.1
      · simp [h1, h2]
      · simp [h1, h2]; exact not_lt.mp h2
    · simp [h1]; exact hP
  · rw [update_result_getElem?_ne draws s i j pi pl cost hij] at hj
    obtain ⟨pl0, hpl0, hle⟩ := hinv q (List.getElem?_mem hj)
    rw [hl] at hpl0
    injection hpl0 with hpl0
    subst hpl0
    rw [hbest]
    split
    · rename_i hlt; exact le_trans hlt.2.le hle
    · exact hle

theorem best_le_all_congr {s s1 : swarm} (hs : s1.super = s.super) (hl : s1.leader = s.leader)
    (h : s.best_le_all) : s1.best_le_all := by
  unfold swarm.best_le_all at *
  rw [hs, hl]; exact h

theorem step_best_le_all {draws : Nat → ℚ} {L L1 : loop_state}
    (h : swarm.step draws L = .ok L1) (hinv : L.s.best_le_all) : L1.s.best_le_all := by
  rcases step_cases h with ⟨hs, hl, _⟩ | ⟨_, _, _, r, hr, hs⟩
  · exact best_le_all_congr hs hl hinv
  · obtain ⟨pi, pl, cost, hi, hl, _, hres⟩ := update_inv hr
    rw [hs, hres]
    exact update_result_best_le_all draws L.s L.i pi pl cost hi hl hinv

theorem reachable_best_le_all {draws : Nat → ℚ} {s0 : swarm} {L : loop_state}
    (h0 : s0.leader = 0) (h : swarm.Reachable draws s0 L) : L.s.best_le_all := by
  induction h with
  | entry hinit => exact initialise_best_le_all h0 hinit
  | step _ _ hstep ih => exact step_best_le_all hstep ih

theorem except_eq_ok_getD {α : Type} {x : Except Err α} (a : α)
    (h : x.toOption.isSome = true) : x = .ok (x.toOption.getD a) := by
  cases x with
  | error e => simp [Except.toOption] at h
  | ok b => simp [Except.toOption]

theorem demo_init_ok : demo_fresh.initialise demo_draws = .ok demo_init :=
  except_eq_ok_getD demo_fresh (by decide!)

/-- The leader's best (cost and snapshot) after `update`, in terms of the state
before. -/
theorem update_result_best_solution (draws : Nat → ℚ) (s : swarm) (i : Nat) (pi pl : particle)
    (cost : ℚ) (hi : s.super[i]? = some pi) (hl : s.super[s.leader]? = some pl) :
    ∃ pl1, (s.update_result draws i pi pl cost).2.super[
        (s.update_result draws i pi pl cost).2.leader]? = some pl1 ∧
      pl1.local_best =
        if (cost : WithTop ℚ) < pi.local_best.1 ∧ (cost : WithTop ℚ) < pl.local_best.1
        then ((cost : WithTop ℚ), s.new_position draws pi pl) else pl.local_best := by
  rw [update_result_leader]
  by_cases h : (cost : WithTop ℚ) < pi.local_best.1 ∧ (cost : WithTop ℚ) < pl.local_best.1
  · rw [if_pos h, if_pos h, update_result_getElem? draws s i pi pl cost hi]
    exact ⟨_, rfl, by simp [h.1]⟩
  · rw [if_neg h, if_neg h]
    by_cases hli : s.leader = i
    · rw [hli, update_result_getElem? draws s i pi pl cost hi]
      refine ⟨_, rfl, ?_⟩
      rw [hli, hi] at hl
      injection hl with hl
      subst hl
      have h1 : ¬ (cost : WithTop ℚ) < pi.local_best.1 := fun h1 => h ⟨h1, h1⟩
      simp [h1]
    · rw [update_result_getElem?_ne draws s i s.leader pi pl cost (Ne.symm hli)]
      exact ⟨pl, hl, rfl⟩

theorem demo_first_ok : swarm.step demo_draws demo_init.loop_entry = .ok demo_first :=
  except_eq_ok_getD demo_init.loop_entry (by decide!)

/-- Bookkeeping of a stagnant stretch: the parameters other than `w` are kept,
`w` and the caps have been decayed `dcs` times, and the counter `t` together
with the decays accounts for all `m` updates. -/
theorem stagnant_run_inv {draws : Nat → ℚ} {L L1 : loop_state} {m dcs : Nat}
    (h : swarm.StagnantRun draws L m dcs L1) (ht : L.t = 0) (hpc : L.pc = .for_head)
    (hd : 1 ≤ L.s.param.d) :
    L1.s.param.d = L.s.param.d ∧ L1.s.param.wd = L.s.param.wd ∧
    L1.s.param.vd = L.s.param.vd ∧
    L1.s.param.w = L.s.param.w * L.s.param.wd ^ dcs ∧
    L1.s.vmax = L.s.vmax.map (fun vm => vm * L.s.param.vd ^ dcs) ∧
    (dcs : Int) * L.s.param.d + L1.t = m ∧ 0 ≤ L1.t ∧
    (L1.pc = .updated → 1 ≤ L1.t ∧ L1.t ≤ L.s.param.d) ∧
    (L1.pc ≠ .updated → L1.t < L.s.param.d) := by
  induction h with
  | start =>
    refine ⟨rfl, rfl, rfl, by simp, by simp, by simp [ht], by simp [ht], ?_, ?_⟩
    · intro h; rw [hpc] at h; cases h
    · intro _; rw [ht]; omega
  | @update m1 dcs1 La Lb r _ hpc1 hi1 hu hfalse hstep ih =>
    obtain ⟨hd1, hwd, hvd, hw, hvm, hcount, hnn, _, hlt⟩ := ih
    have hLb : Lb = { La with s := r.2, t := if r.1 then 0 else La.t + 1, pc := .updated } := by
      rw [step_update_ok hpc1 hi1 hu] at hstep
      injection hstep with hstep
      exact hstep.symm
    obtain ⟨pi, pl, cost, _, _, _, hres⟩ := update_inv hu
    obtain ⟨hfp, hfv, _⟩ := update_result_frame draws La.s La.i pi pl cost
    rw [← hres] at hfp hfv
    have hlt1 := hlt (by rw [hpc1]; decide)
    have hs : Lb.s = r.2 := by rw [hLb]
    have htb : Lb.t = La.t + 1 := by rw [hLb]; simp [hfalse]
    have hpcb : Lb.pc = .updated := by rw [hLb]
    rw [hs, hfp, hfv, htb, hpcb]
    refine ⟨hd1, hwd, hvd, hw, hvm, ?_, ?_, ?_, ?_⟩
    · push_cast; omega
    · omega
    · intro _; omega
    · intro h; exact absurd rfl h
  | @decay m1 dcs1 La Lb _ hpc1 ht1 hstep ih =>
    obtain ⟨hd1, hwd, hvd, hw, hvm, hcount, hnn, hup, _⟩ := ih
    have hLb := step_updated hpc1 hstep
    rw [if_pos ht1] at hLb
    subst hLb
    have htd : La.t = L.s.param.d := by rw [ht1, hd1]
    refine ⟨hd1, hwd, hvd, ?_, ?_, ?_, le_refl _, ?_, ?_⟩
    · show La.s.param.w * La.s.param.wd = _
      rw [hw, hwd, pow_succ]; ring
    · show La.s.vmax.map (fun vm => vm * La.s.param.vd) = _
      rw [hvm, hvd, List.map_map]
      apply List.map_congr_left
      intro a _
      simp only [Function.comp, pow_succ]; ring
    · show ((dcs1 + 1 : Nat) : Int) * L.s.param.d + 0 = m1
      rw [← hcount, htd]; push_cast; ring
    · intro h; cases h
    · intro _; show (0 : Int) < L.s.param.d; omega
  | @no_decay m1 dcs1 La Lb _ hpc1 ht1 hstep ih =>
    obtain ⟨hd1, hwd, hvd, hw, hvm, hcount, hnn, hup, _⟩ := ih
    have hLb := step_updated hpc1 hstep
    rw [if_neg ht1] at hLb
    subst hLb
    refine ⟨hd1, hwd, hvd, hw, hvm, hcount, hnn, ?_, ?_⟩
    · intro h; cases h
    · intro _
      have := hup hpc1
      rw [hd1] at ht1
      show La.t < L.s.param.d
      omega
  | @test m1 dcs1 La Lb _ hpc1 hstep ih =>
    obtain ⟨hd1, hwd, hvd, hw, hvm, hcount, hnn, _, hlt⟩ := ih
    obtain ⟨best, _, hLb⟩ := step_decayed hpc1 hstep
    have hlt1 := hlt (by rw [hpc1]; decide)
    have hs : Lb.s = La.s := by rw [hLb]; split <;> rfl
    have htb : Lb.t = La.t := by rw [hLb]; split <;> rfl
    have hpcb : Lb.pc ≠ .updated := by rw [hLb]; split <;> simp
    rw [hs, htb]
    exact ⟨hd1, hwd, hvd, hw, hvm, hcount, hnn, fun h => absurd h hpcb, fun _ => hlt1⟩
  | @wrap m1 dcs1 La Lb _ hpc1 hi1 hstep ih =>
    obtain ⟨hd1, hwd, hvd, hw, hvm, hcount, hnn, _, hlt⟩ := ih
    have hlt1 := hlt (by rw [hpc1]; decide)
    rcases step_for_head hpc1 hstep with ⟨_, hLb⟩ | ⟨hne, _⟩
    · have hs : Lb.s = La.s := by rw [hLb]
      have htb : Lb.t = La.t := by rw [hLb]
      have hpcb : Lb.pc ≠ .updated := by rw [hLb]; show La.pc ≠ _; rw [hpc1]; decide
      rw [hs, htb]
      exact ⟨hd1, hwd, hvd, hw, hvm, hcount, hnn, fun h => absurd h hpcb, fun _ => hlt1⟩
    · exact absurd hi1 hne

theorem stall_init_ok : stall_fresh.initialise zero_draws = .ok stall_init :=
  except_eq_ok_getD stall_fresh (by decide!)

theorem stall_update_ok : stall_init.update zero_draws 0 = .ok stall_update :=
  except_eq_ok_getD (false, stall_init) (by decide!)

theorem stall_updated_ok : swarm.step zero_draws stall_init.loop_entry = .ok stall_updated :=
  except_eq_ok_getD stall_init.loop_entry (by decide!)

theorem stall_decayed_ok : swarm.step zero_draws stall_updated = .ok stall_decayed :=
  except_eq_ok_getD stall_updated (by decide!)

theorem flat_init_ok : flat_fresh.initialise zero_draws = .ok flat_init :=
  except_eq_ok_getD flat_fresh (by decide!)

theorem flat_updated_ok : swarm.step zero_draws flat_init.loop_entry = .ok flat_updated :=
  except_eq_ok_getD flat_init.loop_entry (by decide!)

theorem flat_decayed_ok : swarm.step zero_draws flat_updated = .ok flat_decayed :=
  except_eq_ok_getD flat_updated (by decide!)

theorem flat_reachable : swarm.Reachable zero_draws flat_fresh flat_decayed :=
  swarm.Reachable.step
    (swarm.Reachable.step (swarm.Reachable.entry flat_init_ok) (by decide!) flat_updated_ok)
    (by decide!) flat_decayed_ok

theorem loop_returned (draws : Nat → ℚ) (fuel : Nat) (L : loop_state) (h : L.pc = .returned) :
    swarm.loop draws fuel L = .ok (some L) := by
  cases fuel <;> simp [swarm.loop, h, pure, Except.pure]

theorem clamp_bounds (v vm : ℚ) (h : 0 ≤ vm) :
    -vm ≤ max (min v vm) (-vm) ∧ max (min v vm) (-vm) ≤ vm :=
  ⟨le_max_right _ _, max_le (min_le_right _ _) (by linarith)⟩

theorem new_velocity_within (draws : Nat → ℚ) (s : swarm) (pi pl : particle)
    (hcaps : ∀ (j : Nat) (vm : ℚ), s.vmax[j]? = some vm → 0 ≤ vm) :
    ∀ (j : Nat) (v vm : ℚ), (s.new_velocity draws pi pl)[j]? = some v →
      s.vmax[j]? = some vm → -vm ≤ v ∧ v ≤ vm := by
  intro j v vm hv hvm
  have hj : j < pi.velocity.length := by
    have := (List.getElem?_eq_some_iff.mp hv).1
    unfold swarm.new_velocity at this
    rwa [velocity_transform_length] at this
  have hv0 : pi.velocity[j]? = some pi.velocity[j] := List.getElem?_eq_getElem hj
  unfold swarm.new_velocity at hv
  rw [velocity_transform_getElem? draws s.param pi.velocity s.rng _ _ _ _ j _ hv0,
    getD_of_getElem? hvm] at hv
  injection hv with hv
  rw [← hv]
  exact clamp_bounds _ vm (hcaps j vm hvm)

theorem uniform_real_symm_bounds (draws : Nat → ℚ) (rng : Nat) (vm : ℚ)
    (hd : ∀ n, 0 ≤ draws n ∧ draws n < 1) (hvm : 0 ≤ vm) :
    -vm ≤ (uniform_real draws rng (-vm) vm).1 ∧ (uniform_real draws rng (-vm) vm).1 ≤ vm := by
  obtain ⟨h0, h1⟩ := hd rng
  have h2 := mul_nonneg h0 hvm
  have h3 := mul_nonneg (sub_nonneg.mpr h1.le) hvm
  show -vm ≤ draws rng * (vm - -vm) + -vm ∧ draws rng * (vm - -vm) + -vm ≤ vm
  constructor
  · linarith
  · linarith

theorem randomize_velocity_within (draws : Nat → ℚ) (hd : ∀ n, 0 ≤ draws n ∧ draws n < 1)
    (vs : List ℚ) :
    ∀ (rng : Nat) (caps : List ℚ), (∀ (j : Nat) (vm : ℚ), caps[j]? = some vm → 0 ≤ vm) →
      ∀ (j : Nat) (v vm : ℚ), (swarm.randomize_velocity draws rng caps vs).1[j]? = some v →
        caps[j]? = some vm → -vm ≤ v ∧ v ≤ vm := by
  induction vs with
  | nil => intro rng caps _ j v vm hv; simp [swarm.randomize_velocity] at hv
  | cons v0 vs ih =>
    intro rng caps hcaps j v vm hv hvm
    cases j with
    | zero =>
      simp only [swarm.randomize_velocity, List.getElem?_cons_zero] at hv
      injection hv with hv
      have hh : caps.headD 0 = vm := by
        rw [headD_eq_getD]; exact getD_of_getElem? hvm
      rw [← hv, hh]
      exact uniform_real_symm_bounds draws rng vm hd (hcaps 0 vm hvm)
    | succ j =>
      simp only [swarm.randomize_velocity, List.getElem?_cons_succ] at hv
      have htail : ∀ (i : Nat) (a : ℚ), caps.tail[i]? = some a → caps[i + 1]? = some a := by
        intro i a; cases caps <;> simp
      refine ih _ caps.tail (fun i a ha => hcaps (i + 1) a (htail i a ha)) j v vm hv ?_
      cases caps with
      | nil => simp at hvm
      | cons c cs => simpa using hvm

theorem randomize_velocities_within (draws : Nat → ℚ) (hd : ∀ n, 0 ≤ draws n ∧ draws n < 1)
    (caps : List ℚ) (hcaps : ∀ (j : Nat) (vm : ℚ), caps[j]? = some vm → 0 ≤ vm)
    (ps : List particle) :
    ∀ (rng : Nat), ∀ q ∈ (swarm.randomize_velocities draws caps rng ps).1,
      q.velocity_within caps := by
  induction ps with
  | nil => intro rng q hq; simp [swarm.randomize_velocities] at hq
  | cons p ps ih =>
    intro rng q hq
    simp only [swarm.randomize_velocities, List.mem_cons] at hq
    rcases hq with hq | hq
    · subst hq
      intro j v vm hv hvm
      exact randomize_velocity_within draws hd p.velocity rng caps hcaps j v vm hv hvm
    · exact ih _ q hq

theorem randomize_velocity_within_caps (draws : Nat → ℚ) (hd : ∀ n, 0 ≤ draws n ∧ draws n < 1)
    (s : swarm) (hcaps : ∀ (j : Nat) (vm : ℚ), s.vmax[j]? = some vm → 0 ≤ vm) :
    (s.randomize draws).velocity_within := by
  intro q hq
  exact randomize_velocities_within draws hd s.vmax hcaps _ _ q hq

theorem initialise_body_frame {s s1 : swarm} {i : Nat} (h : s.initialise_body i = .ok s1) :
    s1.vmax = s.vmax ∧ s1.param = s.param ∧ s1.f = s.f ∧
      ∀ q ∈ s1.super, ∃ q0 ∈ s.super, q.velocity = q0.velocity ∧ q.super = q0.super := by
  obtain ⟨pi, cost, pl, hi, _, _, rfl⟩ := initialise_body_inv h
  refine ⟨rfl, rfl, rfl, ?_⟩
  intro q hq
  rcases List.mem_or_eq_of_mem_set hq with hq | hq
  · exact ⟨q, hq, rfl, rfl⟩
  · subst hq
    exact ⟨pi, List.getElem?_mem hi, rfl, rfl⟩

theorem initialise_frame {draws : Nat → ℚ} {s0 s : swarm} (h : s0.initialise draws = .ok s) :
    s.vmax = s0.vmax ∧ s.param = s0.param ∧ s.f = s0.f ∧
      ∀ q ∈ s.super, ∃ q0 ∈ (s0.randomize draws).super,
        q.velocity = q0.velocity ∧ q.super = q0.super := by
  unfold swarm.initialise at h
  refine foldlM_range_inv swarm.initialise_body
    (fun _ s1 => s1.vmax = s0.vmax ∧ s1.param = s0.param ∧ s1.f = s0.f ∧
      ∀ q ∈ s1.super, ∃ q0 ∈ (s0.randomize draws).super,
        q.velocity = q0.velocity ∧ q.super = q0.super) _ ?_ (s0.randomize draws) s
    ⟨rfl, rfl, rfl, fun q hq => ⟨q, hq, rfl, rfl⟩⟩ h
  intro m a b _ ⟨hv, hp, hf, hall⟩ hb
  obtain ⟨hv1, hp1, hf1, hall1⟩ := initialise_body_frame hb
  refine ⟨hv1.trans hv, hp1.trans hp, hf1.trans hf, ?_⟩
  intro q hq
  obtain ⟨q1, hq1, e1, e2⟩ := hall1 q hq
  obtain ⟨q0, hq0, e3, e4⟩ := hall q1 hq1
  exact ⟨q0, hq0, e1.trans e3, e2.trans e4⟩

theorem initialise_velocity_within {draws : Nat → ℚ} {s0 s : swarm}
    (hd : ∀ n, 0 ≤ draws n ∧ draws n < 1)
    (hcaps : ∀ (j : Nat) (vm : ℚ), s0.vmax[j]? = some vm → 0 ≤ vm)
    (h : s0.initialise draws = .ok s) : s.velocity_within := by
  obtain ⟨hv, _, _, hall⟩ := initialise_frame h
  intro q hq
  obtain ⟨q0, hq0, e, _⟩ := hall q hq
  have := randomize_velocity_within_caps draws hd s0 hcaps q0 hq0
  unfold particle.velocity_within at *
  rw [e, hv]
  exact this

theorem vmax_init_getElem? (f : objective) (k : ℚ) (d j : Nat) (vm : ℚ)
    (h : (swarm.vmax_init f k d)[j]? = some vm) :
    vm = ((f.domain j).2 - (f.domain j).1) * k := by
  unfold swarm.vmax_init at h
  rw [List.getElem?_map] at h
  cases hr : (List.range d)[j]? with
  | none => simp [hr] at h
  | some i =>
    have hij : i = j := by
      have := List.getElem?_eq_some_iff.mp hr
      obtain ⟨hlt, he⟩ := this
      simpa using he.symm
    simp [hr, hij] at h
    exact h.symm

theorem vmax_init_nonneg (f : objective) (k : ℚ) (d : Nat) (hk : 0 ≤ k)
    (hdom : ∀ j, (f.domain j).1 ≤ (f.domain j).2) :
    ∀ (j : Nat) (vm : ℚ), (swarm.vmax_init f k d)[j]? = some vm → 0 ≤ vm := by
  intro j vm h
  rw [vmax_init_getElem? f k d j vm h]
  exact mul_nonneg (sub_nonneg.mpr (hdom j)) hk

/-- Invariant of `operator()` on a freshly constructed swarm, for a decay factor
`vd` in `[0, 1]`: the current caps are non-negative and at most the caps of the
constructor, every stored velocity is within the caps of the constructor, and
right after an update the updated particle is within the current caps. -/
theorem reachable_velocity_inv {draws : Nat → ℚ} {d : Nat} {f : objective} {p : param_type}
    {L : loop_state} (hd : ∀ n, 0 ≤ draws n ∧ draws n < 1) (hk : 0 ≤ p.k)
    (hdom : ∀ j, (f.domain j).1 ≤ (f.domain j).2) (hvd0 : 0 ≤ p.vd) (hvd1 : p.vd ≤ 1)
    (h : swarm.Reachable draws (swarm.construct d f p) L) :
    L.s.param.vd = p.vd ∧
    (∀ (j : Nat) (vm : ℚ), L.s.vmax[j]? = some vm → 0 ≤ vm) ∧
    (∀ (j : Nat) (vm0 : ℚ), (swarm.vmax_init f p.k d)[j]? = some vm0 →
      ∃ vm, L.s.vmax[j]? = some vm ∧ vm ≤ vm0) ∧
    (∀ q ∈ L.s.super, q.velocity_within (swarm.vmax_init f p.k d)) ∧
    (L.pc = .updated → ∀ q, L.s.super[L.i]? = some q → q.velocity_within L.s.vmax) := by
  induction h with
  | @entry s hinit =>
    obtain ⟨hv, hp, _, _⟩ := initialise_frame hinit
    have hcaps := vmax_init_nonneg f p.k d hk hdom
    have hv1 : s.vmax = swarm.vmax_init f p.k d := hv
    have hp1 : s.param = p := hp
    refine ⟨by show s.param.vd = _; rw [hp1], ?_, ?_, ?_, ?_⟩
    · show ∀ (j : Nat) (vm : ℚ), s.vmax[j]? = some vm → 0 ≤ vm
      rw [hv1]; exact hcaps
    · intro j vm0 hj
      exact ⟨vm0, by show s.vmax[j]? = _; rw [hv1]; exact hj, le_refl _⟩
    · have := @initialise_velocity_within draws (swarm.construct d f p) s hd hcaps hinit
      intro q hq
      have hq1 := this q hq
      rw [hv1] at hq1
      exact hq1
    · intro hpc; cases hpc
  | @step La Lb _ hnr hstep ih =>
    obtain ⟨ha, hb1, hb2, hc, _⟩ := ih
    cases hpc : La.pc with
    | for_head =>
      rcases step_for_head hpc hstep with ⟨_, hLb⟩ | ⟨_, r, hr, hLb⟩
      · subst hLb
        exact ⟨ha, hb1, hb2, hc, fun h => by rw [hpc] at h; cases h⟩
      · obtain ⟨pi, pl, cost, hpi, hpl, _, hres⟩ := update_inv hr
        obtain ⟨hfp, hfv, _⟩ := update_result_frame draws La.s La.i pi pl cost
        have hs : Lb.s = (La.s.update_result draws La.i pi pl cost).2 := by rw [hLb, hres]
        have hi : Lb.i = La.i := by rw [hLb]
        have hnew := new_velocity_within draws La.s pi pl hb1
        have hself := update_result_getElem? draws La.s La.i pi pl cost hpi
        rw [hs, hi, hfp, hfv]
        refine ⟨ha, hb1, hb2, ?_, ?_⟩
        · intro q hq
          obtain ⟨j, hj⟩ := List.mem_iff_getElem?.mp hq
          by_cases hij : La.i = j
          · rw [← hij, hself] at hj
            injection hj with hj
            subst hj
            intro c v vm0 hv hvm0
            obtain ⟨vm, hvm, hle⟩ := hb2 c vm0 hvm0
            have := hnew c v vm hv hvm
            exact ⟨by linarith [this.1], by linarith [this.2]⟩
          · rw [update_result_getElem?_ne draws La.s La.i j pi pl cost hij] at hj
            exact hc q (List.getElem?_mem hj)
        · intro _ q hq
          rw [hself] at hq
          injection hq with hq
          subst hq
          exact hnew
    | updated =>
      have hLb := step_updated hpc hstep
      by_cases ht : La.t = La.s.param.d
      · rw [if_pos ht] at hLb
        subst hLb
        refine ⟨ha, ?_, ?_, hc, fun h => by cases h⟩
        · intro j vm hj
          simp only [swarm.decay, List.getElem?_map] at hj
          cases hv : La.s.vmax[j]? with
          | none => simp [hv] at hj
          | some a =>
            simp [hv] at hj
            rw [← hj, ha]
            exact mul_nonneg (hb1 j a hv) hvd0
        · intro j vm0 hj
          obtain ⟨vm, hvm, hle⟩ := hb2 j vm0 hj
          refine ⟨vm * La.s.param.vd, by simp [swarm.decay, hvm], ?_⟩
          rw [ha]
          have := hb1 j vm hvm
          nlinarith
      · rw [if_neg ht] at hLb
        subst hLb
        exact ⟨ha, hb1, hb2, hc, fun h => by cases h⟩
    | decayed =>
      obtain ⟨best, _, hLb⟩ := step_decayed hpc hstep
      have hs : Lb.s = La.s := by rw [hLb]; split <;> rfl
      have hpcb : Lb.pc ≠ .updated := by rw [hLb]; split <;> simp
      rw [hs]
      exact ⟨ha, hb1, hb2, hc, fun h => absurd h hpcb⟩
    | returned => exact absurd hpc hnr

theorem stall_reachable : swarm.Reachable zero_draws stall_fresh stall_decayed :=
  swarm.Reachable.step
    (swarm.Reachable.step (swarm.Reachable.entry stall_init_ok) (by decide!) stall_updated_ok)
    (by decide!) stall_decayed_ok

theorem zero_draws_unit : ∀ n, 0 ≤ zero_draws n ∧ zero_draws n < 1 := by
  intro n; simp [zero_draws]

theorem initialise_body_length {s s1 : swarm} {i : Nat} (h : s.initialise_body i = .ok s1) :
    s1.super.length = s.super.length := by
  obtain ⟨pi, cost, pl, _, _, _, rfl⟩ := initialise_body_inv h
  simp

/-- After `initialize` every particle holds as personal best the cost of its
position, with that position as snapshot. -/
theorem initialise_local_best {draws : Nat → ℚ} {s0 s : swarm}
    (h : s0.initialise draws = .ok s) :
    ∀ (j : Nat) (q : particle), s.super[j]? = some q →
      ∃ c, s.f.call q.super = .ok c ∧ q.local_best = ((c : WithTop ℚ), q.super) := by
  unfold swarm.initialise at h
  have hq := foldlM_range_inv swarm.initialise_body
    (fun m s1 => s1.super.length = (s0.randomize draws).super.length ∧
      ∀ (j : Nat) (q : particle), j < m → s1.super[j]? = some q →
        ∃ c, s1.f.call q.super = .ok c ∧ q.local_best = ((c : WithTop ℚ), q.super)) _ ?_
    (s0.randomize draws) s ⟨rfl, fun j q hj => absurd hj (Nat.not_lt_zero j)⟩ h
  · intro j q hj
    exact hq.2 j q (by rw [← hq.1]; exact (List.getElem?_eq_some_iff.mp hj).1) hj
  · intro m a b hm ⟨hlen, hall⟩ hb
    refine ⟨(initialise_body_length hb).trans hlen, ?_⟩
    obtain ⟨pi, cost, pl, hi, hc, _, rfl⟩ := initialise_body_inv hb
    intro j q hj hq
    have hmlt : m < a.super.length := by rw [hlen]; exact hm
    by_cases hjm : m = j
    · subst hjm
      simp only [List.getElem?_set_self hmlt] at hq
      injection hq with hq
      subst hq
      exact ⟨cost, hc, rfl⟩
    · simp only [List.getElem?_set_ne hjm] at hq
      exact hall j q (by omega) hq

theorem step_f {draws : Nat → ℚ} {L L1 : loop_state} (h : swarm.step draws L = .ok L1) :
    L1.s.f = L.s.f := by
  rcases step_cases h with ⟨_, _, hf⟩ | ⟨_, _, _, r, hr, hs⟩
  · exact hf
  · obtain ⟨pi, pl, cost, _, _, _, hres⟩ := update_inv hr
    rw [hs, hres]
    exact (update_result_frame draws L.s L.i pi pl cost).2.2

/-- A transition never raises a personal-best cost. -/
theorem step_local_best_le {draws : Nat → ℚ} {L L1 : loop_state}
    (h : swarm.step draws L = .ok L1) :
    ∀ (i : Nat) (q q1 : particle), L.s.super[i]? = some q → L1.s.super[i]? = some q1 →
      q1.local_best.1 ≤ q.local_best.1 := by
  intro i q q1 hq hq1
  rcases step_cases h with ⟨hs, _, _⟩ | ⟨_, _, _, r, hr, hs⟩
  · rw [hs, hq] at hq1
    injection hq1 with hq1
    rw [hq1]
  · obtain ⟨pi, pl, cost, hpi, _, _, hres⟩ := update_inv hr
    rw [hs, hres] at hq1
    by_cases hij : L.i = i
    · subst hij
      rw [update_result_getElem? draws L.s L.i pi pl cost hpi] at hq1
      rw [hpi] at hq
      injection hq with hq
      injection hq1 with hq1
      subst hq hq1
      show (if (cost : WithTop ℚ) < pi.local_best.1 then _ else pi.local_best).1 ≤ _
      split
      · rename_i hlt; exact hlt.le
      · exact le_refl _
    · rw [update_result_getElem?_ne draws L.s L.i i pi pl cost hij, hq] at hq1
      injection hq1 with hq1
      rw [hq1]

/-- Invariant of the recorded runs: the personal-best cost of a particle is the
minimum of the costs recorded for it, and is the cost of its snapshot. -/
theorem reachableH_inv {draws : Nat → ℚ} {s0 : swarm} {L : loop_state}
    {hist : Nat → List ℚ} (h : swarm.ReachableH draws s0 L hist) :
    ∀ (i : Nat) (q : particle), L.s.super[i]? = some q →
      q.local_best.1 = (hist i).minimum ∧
      ∃ c, L.s.f.call q.local_best.2 = .ok c ∧ (c : WithTop ℚ) = q.local_best.1 := by
  induction h with
  | @entry s hist hinit hhist _ =>
    intro i q hq
    obtain ⟨c, hc, hlb⟩ := initialise_local_best hinit i q hq
    obtain ⟨c1, hc1, hh⟩ := hhist i q hq
    have hcc : c1 = c := by
      rw [hc] at hc1
      injection hc1 with hc1
      exact hc1.symm
    subst hcc
    refine ⟨by rw [hh, hlb, List.minimum_singleton], c1, ?_, ?_⟩
    · show s.f.call q.local_best.2 = _
      rw [hlb]; exact hc
    · rw [hlb]
  | @update La Lb hist q0 c _ hpc hi hstep hq0 hc ih =>
    intro i q hq
    rcases step_for_head hpc hstep with ⟨h0, _⟩ | ⟨_, r, hr, hLb⟩
    · exact absurd h0 hi
    · obtain ⟨pi, pl, cost, hpi, _, hcost, hres⟩ := update_inv hr
      have hs : Lb.s = (La.s.update_result draws La.i pi pl cost).2 := by rw [hLb, hres]
      have hf : Lb.s.f = La.s.f := step_f hstep
      have hself := update_result_getElem? draws La.s La.i pi pl cost hpi
      rw [hs] at hq hq0
      rw [hf]
      by_cases hij : La.i = i
      · subst hij
        rw [hself] at hq hq0
        injection hq with hq
        injection hq0 with hq0
        subst hq0
        have hcc : c = cost := by
          rw [hf] at hc
          have : La.s.f.call (La.s.new_position draws pi pl) = .ok c := hc
          rw [hcost] at this
          injection this with this
          exact this.symm
        subst hcc
        obtain ⟨hmin, c0, hc0, hc0e⟩ := ih La.i pi hpi
        rw [Function.update_same, List.minimum_cons, ← hmin, ← hq]
        by_cases hlt : (c : WithTop ℚ) < pi.local_best.1
        · simp only [hlt, if_true]
          exact ⟨(min_eq_left hlt.le).symm, c, hcost, rfl⟩
        · simp only [hlt, if_false]
          exact ⟨(min_eq_right (not_lt.mp hlt)).symm, c0, hc0, hc0e⟩
      · rw [update_result_getElem?_ne draws La.s La.i i pi pl cost hij] at hq
        rw [Function.update_noteq (Ne.symm hij)]
        exact ih i q hq
  | @other La Lb hist _ hcase hnr hstep ih =>
    intro i q hq
    have hf : Lb.s.f = La.s.f := step_f hstep
    rcases step_cases hstep with ⟨hs, _, _⟩ | ⟨hpc, _, _, r, hr, _⟩
    · rw [hs] at hq
      rw [hf]
      exact ih i q hq
    · rcases hcase with h1 | h1
      · exact absurd hpc h1
      · exfalso
        obtain ⟨pi, _, _, hpi, _, _, _⟩ := update_inv hr
        have := (List.getElem?_eq_some_iff.mp hpi).1
        omega

theorem init_hist_spec {draws : Nat → ℚ} {s0 s : swarm} (h : s0.initialise draws = .ok s) :
    (∀ (i : Nat) (q : particle), s.super[i]? = some q →
      ∃ c, s.f.call q.super = .ok c ∧ s.init_hist i = [c]) ∧
    (∀ (i : Nat), s.super[i]? = none → s.init_hist i = []) := by
  constructor
  · intro i q hq
    obtain ⟨c, hc, _⟩ := initialise_local_best h i q hq
    exact ⟨c, hc, by simp [swarm.init_hist, hq, hc]⟩
  · intro i hi
    simp [swarm.init_hist, hi]

/-- Every state of `operator()` is a recorded state for some record. -/
theorem reachable_has_history {draws : Nat → ℚ} {s0 : swarm} {L : loop_state}
    (h : swarm.Reachable draws s0 L) : ∃ hist, swarm.ReachableH draws s0 L hist := by
  induction h with
  | @entry s hinit =>
    exact ⟨s.init_hist, swarm.ReachableH.entry hinit (init_hist_spec hinit).1
      (init_hist_spec hinit).2⟩
  | @step La Lb _ hnr hstep ih =>
    obtain ⟨hist, hh⟩ := ih
    by_cases hup : La.pc = .for_head ∧ La.i ≠ La.s.super.length
    · rcases step_for_head hup.1 hstep with ⟨h0, _⟩ | ⟨_, r, hr, hLb⟩
      · exact absurd h0 hup.2
      · obtain ⟨pi, pl, cost, hpi, _, hcost, hres⟩ := update_inv hr
        have hs : Lb.s = (La.s.update_result draws La.i pi pl cost).2 := by rw [hLb, hres]
        have hself := update_result_getElem? draws La.s La.i pi pl cost hpi
        have hq : Lb.s.super[La.i]? = some
            { super := La.s.new_position draws pi pl, velocity := La.s.new_velocity draws pi pl,
              local_best := if (cost : WithTop ℚ) < pi.local_best.1
                then ((cost : WithTop ℚ), La.s.new_position draws pi pl)
                else pi.local_best } := by
          rw [hs]; exact hself
        have hc : Lb.s.f.call (La.s.new_position draws pi pl) = .ok cost := by
          rw [step_f hstep]; exact hcost
        exact ⟨Function.update hist La.i (cost :: hist La.i),
          swarm.ReachableH.update hh hup.1 hup.2 hstep hq hc⟩
    · refine ⟨hist, swarm.ReachableH.other hh ?_ hnr hstep⟩
      by_cases hpc : La.pc = .for_head
      · right
        by_contra hne
        exact hup ⟨hpc, hne⟩
      · left; exact hpc

theorem demo_reachableH :
    swarm.ReachableH demo_draws demo_fresh demo_first
      (Function.update demo_init.init_hist 0 (9216 / 625 :: demo_init.init_hist 0)) :=
  swarm.ReachableH.update
    (swarm.ReachableH.entry demo_init_ok (init_hist_spec demo_init_ok).1
      (init_hist_spec demo_init_ok).2)
    rfl (by decide!) demo_first_ok
    (by decide! : demo_first.s.super[0]? = some
      (particle.mk [-96 / 25] [32 / 25] (((9216 / 625 : ℚ) : WithTop ℚ), [-96 / 25])))
    (by decide!)

theorem randomize_position_length (draws : Nat → ℚ) (f : objective) (xs : List ℚ) :
    ∀ (rng i : Nat), (swarm.randomize_position draws f rng i xs).1.length = xs.length := by
  induction xs with
  | nil => intros; rfl
  | cons x xs ih => intro rng i; simp [swarm.randomize_position, ih]

theorem randomize_positions_spec (draws : Nat → ℚ) (f : objective) (ps : List particle) :
    ∀ (rng : Nat), (swarm.randomize_positions draws f rng ps).1.length = ps.length ∧
      ∀ (j : Nat) (q : particle), (swarm.randomize_positions draws f rng ps).1[j]? = some q →
        ∃ q0, ps[j]? = some q0 ∧ q.super.length = q0.super.length := by
  induction ps with
  | nil => intro rng; simp [swarm.randomize_positions]
  | cons p ps ih =>
    intro rng
    refine ⟨by simp [swarm.randomize_positions, (ih _).1], ?_⟩
    intro j q hq
    cases j with
    | zero =>
      simp only [swarm.randomize_positions, List.getElem?_cons_zero] at hq
      injection hq with hq
      exact ⟨p, by simp, by rw [← hq]; exact randomize_position_length draws f p.super rng 0⟩
    | succ j =>
      simp only [swarm.randomize_positions, List.getElem?_cons_succ] at hq
      obtain ⟨q0, hq0, hlen⟩ := (ih _).2 j q hq
      exact ⟨q0, by simpa using hq0, hlen⟩

theorem randomize_velocities_spec (draws : Nat → ℚ) (caps : List ℚ) (ps : List particle) :
    ∀ (rng : Nat), (swarm.randomize_velocities draws caps rng ps).1.length = ps.length ∧
      ∀ (j : Nat) (q : particle), (swarm.randomize_velocities draws caps rng ps).1[j]? = some q →
        ∃ q0, ps[j]? = some q0 ∧ q.super = q0.super := by
  induction ps with
  | nil => intro rng; simp [swarm.randomize_velocities]
  | cons p ps ih =>
    intro rng
    refine ⟨by simp [swarm.randomize_velocities, (ih _).1], ?_⟩
    intro j q hq
    cases j with
    | zero =>
      simp only [swarm.randomize_velocities, List.getElem?_cons_zero] at hq
      injection hq with hq
      exact ⟨p, by simp, by rw [← hq]⟩
    | succ j =>
      simp only [swarm.randomize_velocities, List.getElem?_cons_succ] at hq
      obtain ⟨q0, hq0, hlen⟩ := (ih _).2 j q hq
      exact ⟨q0, by simpa using hq0, hlen⟩

/-- `randomize` keeps the number of particles and the dimension of each. -/
theorem randomize_spec (draws : Nat → ℚ) (s : swarm) :
    (s.randomize draws).super.length = s.super.length ∧
    (s.randomize draws).leader = s.leader ∧ (s.randomize draws).f = s.f ∧
      ∀ (j : Nat) (q : particle), (s.randomize draws).super[j]? = some q →
        ∃ q0, s.super[j]? = some q0 ∧ q.super.length = q0.super.length := by
  refine ⟨?_, rfl, rfl, ?_⟩
  · show (swarm.randomize_velocities draws s.vmax _ _).1.length = _
    rw [(randomize_velocities_spec draws s.vmax _ _).1,
      (randomize_positions_spec draws s.f s.super s.rng).1]
  · intro j q hq
    obtain ⟨q1, hq1, h1⟩ := (randomize_velocities_spec draws s.vmax _ _).2 j q hq
    obtain ⟨q0, hq0, h0⟩ := (randomize_positions_spec draws s.f s.super s.rng).2 j q1 hq1
    exact ⟨q0, hq0, by rw [h1, h0]⟩

theorem construct_length (d : Nat) (f : objective) (p : param_type) (h : 1 ≤ p.n) :
    1 ≤ (swarm.construct d f p).super.length := by
  have h1 : (1 : ℤ) ≤ ⌊p.n⌋ := Int.le_floor.mpr (by exact_mod_cast h)
  simp only [swarm.construct, List.length_replicate]
  omega

theorem construct_getElem? (d : Nat) (f : objective) (p : param_type) (j : Nat) (q : particle)
    (h : (swarm.construct d f p).super[j]? = some q) : q = particle.ofDim d := by
  have := List.getElem?_mem h
  simp only [swarm.construct] at this
  exact List.eq_of_mem_replicate this

/-- The first evaluation of `initialize` decides when the objective throws at the
position of the first particle. -/
theorem initialise_error_first {draws : Nat → ℚ} {s : swarm} {q : particle} {e : Err}
    (hq : (s.randomize draws).super[0]? = some q)
    (he : s.f.call q.super = .error e) : s.initialise draws = .error e := by
  have hlen : 0 < (s.randomize draws).super.length := (List.getElem?_eq_some_iff.mp hq).1
  unfold swarm.initialise
  obtain ⟨m, hm⟩ : ∃ m, (s.randomize draws).super.length = m + 1 := ⟨_, (Nat.succ_pred_eq_of_pos hlen).symm⟩
  rw [hm, List.range_succ_eq_map, List.foldlM_cons]
  have hf : (s.randomize draws).f = s.f := rfl
  simp [swarm.initialise_body, swarm.deref, hq, hf, he, bind, Except.bind]

theorem beale_call_error (x : List ℚ) (h : x.length ≠ 2) :
    beale.call x = .error (.logic_error "must have exactly 2 dimensions") := by
  simp [beale, h]

/-- Under well-formedness every transition succeeds, keeps well-formedness,
lowers the measure and accounts for the updates. -/
theorem step_progress {draws : Nat → ℚ} {n : Nat} {L : loop_state} (hn : 1 ≤ n)
    (hwf : swarm.loop_wf n L) (hpc : L.pc ≠ .returned) :
    ∃ L1, swarm.step draws L = .ok L1 ∧ swarm.loop_wf n L1 ∧
      swarm.loop_measure n L1 < swarm.loop_measure n L ∧
      swarm.updates_done L1 = swarm.updates_done L
        + (if L.pc = .for_head ∧ L.i ≠ L.s.super.length then 1 else 0) := by
  obtain ⟨hlen, hlead, htot, hk0, hk1, hi, hi2⟩ := hwf
  cases hp : L.pc with
  | returned => exact absurd hp hpc
  | for_head =>
    by_cases hin : L.i = n
    · refine ⟨{ L with i := 0 }, ?_, ⟨hlen, hlead, htot, hk0, hk1, Nat.zero_le n, ?_⟩, ?_, ?_⟩
      · unfold swarm.step; rw [hp]; simp [hlen, hin, pure, Except.pure]
      · intro h; exact absurd hp h
      · simp only [swarm.loop_measure, hp, hin, if_true]
        have : (0 : Nat) ≠ n := by omega
        simp only [this, if_false]; omega
      · simp [swarm.updates_done, hp, hlen, hin]
    · have hilt : L.i < n := by omega
      have hine : L.i ≠ L.s.super.length := by rw [hlen]; exact hin
      obtain ⟨pi, hpi⟩ : ∃ x, L.s.super[L.i]? = some x :=
        ⟨_, List.getElem?_eq_getElem (by rw [hlen]; exact hilt)⟩
      obtain ⟨pl, hpl⟩ : ∃ x, L.s.super[L.s.leader]? = some x :=
        ⟨_, List.getElem?_eq_getElem (by rw [hlen]; exact hlead)⟩
      obtain ⟨cost, hc⟩ := htot (L.s.new_position draws pi pl)
      have hu := update_ok draws L.s L.i pi pl cost hpi hpl hc
      obtain ⟨hfp, hfv, hff⟩ := update_result_frame draws L.s L.i pi pl cost
      refine ⟨_, step_update_ok hp hine hu, ⟨?_, ?_, ?_, hk0, hk1, hi, fun _ => hilt⟩, ?_, ?_⟩
      · show (L.s.update_result draws L.i _ _ cost).2.super.length = n
        rw [update_result_length]; exact hlen
      · show (L.s.update_result draws L.i _ _ cost).2.leader < n
        rw [update_result_leader]; split
        · exact hilt
        · exact hlead
      · show ∀ x, ∃ c, (L.s.update_result draws L.i _ _ cost).2.f.call x = .ok c
        rw [hff]; exact htot
      · simp only [swarm.loop_measure, hp, hin, if_false]; omega
      · simp [swarm.updates_done, hp, hine]
  | updated =>
    have hilt := hi2 (by rw [hp]; decide)
    by_cases ht : L.t = L.s.param.d
    · refine ⟨{ L with t := 0, s := L.s.decay, pc := .decayed }, ?_,
        ⟨hlen, hlead, htot, hk0, hk1, hi, fun _ => hilt⟩, ?_, ?_⟩
      · unfold swarm.step; rw [hp]; simp [ht, pure, Except.pure]
      · simp only [swarm.loop_measure, hp]; omega
      · simp [swarm.updates_done, hp]
    · refine ⟨{ L with pc := .decayed }, ?_,
        ⟨hlen, hlead, htot, hk0, hk1, hi, fun _ => hilt⟩, ?_, ?_⟩
      · unfold swarm.step; rw [hp]; simp [ht, pure, Except.pure]
      · simp only [swarm.loop_measure, hp]; omega
      · simp [swarm.updates_done, hp]
  | decayed =>
    have hilt := hi2 (by rw [hp]; decide)
    obtain ⟨pl, hpl⟩ : ∃ x, L.s.super[L.s.leader]? = some x :=
      ⟨_, List.getElem?_eq_getElem (by rw [hlen]; exact hlead)⟩
    have hbest := best_solution_eq_ok.mpr ⟨_, hpl, rfl⟩
    by_cases hs : swarm.stop_test pl.local_best L.k = true
    · refine ⟨{ L with pc := .returned }, ?_,
        ⟨hlen, hlead, htot, hk0, hk1, hi, fun _ => hilt⟩, ?_, ?_⟩
      · unfold swarm.step; rw [hp]; simp [hbest, hs, bind, Except.bind, pure, Except.pure]
      · simp only [swarm.loop_measure, hp]; omega
      · simp [swarm.updates_done, hp]
    · have hk : L.k ≤ 640000 := by
        by_contra hk
        apply hs
        simp only [swarm.stop_test, Bool.or_eq_true, decide_eq_true_eq]
        right; omega
      refine ⟨{ L with i := L.i + 1, k := L.k + 1, pc := .for_head }, ?_,
        ⟨hlen, hlead, htot, by show 0 ≤ L.k + 1; omega, by show L.k + 1 ≤ 640001; omega,
          by show L.i + 1 ≤ n; omega, fun h => absurd rfl h⟩, ?_, ?_⟩
      · unfold swarm.step; rw [hp]; simp [hbest, hs, bind, Except.bind, pure, Except.pure]
      · simp only [swarm.loop_measure, hp]
        split <;> omega
      · simp [swarm.updates_done, hp]

/-- With fuel for the measure, the loop returns; the counter has stayed within
the budget and the updates executed are accounted for. -/
theorem loop_terminates {draws : Nat → ℚ} {n : Nat} (hn : 1 ≤ n) :
    ∀ (fuel : Nat) (L : loop_state), swarm.loop_wf n L → swarm.loop_measure n L ≤ fuel →
      ∃ Lf, swarm.loop draws fuel L = .ok (some Lf) ∧ Lf.pc = .returned ∧ Lf.k ≤ 640001 ∧
        (swarm.loop_updates draws fuel L : Int) + swarm.updates_done L
          = swarm.updates_done Lf := by
  intro fuel
  induction fuel with
  | zero =>
    intro L hwf hm
    have hpc : L.pc = .returned := by
      cases hp : L.pc with
      | returned => rfl
      | for_head => simp only [swarm.loop_measure, hp] at hm; split at hm <;> omega
      | updated => simp only [swarm.loop_measure, hp] at hm; omega
      | decayed => simp only [swarm.loop_measure, hp] at hm; omega
    exact ⟨L, loop_returned draws 0 L hpc, hpc, hwf.2.2.2.2.1, by simp [swarm.loop_updates]⟩
  | succ fuel ih =>
    intro L hwf hm
    by_cases hpc : L.pc = .returned
    · exact ⟨L, loop_returned draws _ L hpc, hpc, hwf.2.2.2.2.1,
        by simp [swarm.loop_updates, hpc]⟩
    · obtain ⟨L1, hstep, hwf1, hlt, hupd⟩ := @step_progress draws n L hn hwf hpc
      obtain ⟨Lf, hloop, hret, hk, hcount⟩ := ih L1 hwf1 (by omega)
      refine ⟨Lf, ?_, hret, hk, ?_⟩
      · rw [swarm.loop, if_neg hpc, hstep]
        exact hloop
      · rw [swarm.loop_updates, if_neg hpc, hstep]
        simp only []
        rw [← hcount, hupd]
        push_cast
        ring

theorem initialise_body_ok {s : swarm} {m : Nat} (hm : m < s.super.length)
    (hl : s.leader < s.super.length) (htot : ∀ x, ∃ c, s.f.call x = .ok c) :
    ∃ s1, s.initialise_body m = .ok s1 := by
  obtain ⟨c, hc⟩ := htot (s.super[m]).super
  have hlen : s.leader < (s.super.set m
      { s.super[m] with local_best := ((c : WithTop ℚ), (s.super[m]).super) }).length := by
    simp [hl]
  unfold swarm.initialise_body swarm.deref
  simp only [List.getElem?_eq_getElem hm, bind, Except.bind, hc, List.getElem?_eq_getElem hlen,
    pure, Except.pure]
  split <;> exact ⟨_, rfl⟩

theorem foldlM_range_ok (body : swarm → Nat → Except Err swarm) (Q : Nat → swarm → Prop)
    (n : Nat)
    (hstep : ∀ m s, m < n → Q m s → ∃ s1, body s m = .ok s1 ∧ Q (m + 1) s1) :
    ∀ s, Q 0 s → ∃ s1, (List.range n).foldlM body s = .ok s1 ∧ Q n s1 := by
  induction n with
  | zero => intro s h0; exact ⟨s, rfl, h0⟩
  | succ n ih =>
    intro s h0
    obtain ⟨s2, h2, hq2⟩ := ih (fun m a hm => hstep m a (Nat.lt_succ_of_lt hm)) s h0
    obtain ⟨s3, h3, hq3⟩ := hstep n s2 (Nat.lt_succ_self n) hq2
    refine ⟨s3, ?_, hq3⟩
    rw [List.range_succ, List.foldlM_append, h2]
    simp [bind, Except.bind, h3, pure, Except.pure]

/-- On a total objective and a swarm whose leader is at `begin()`, `initialize`
completes, with the leader at a particle when there is one. -/
theorem initialise_ok {draws : Nat → ℚ} {s0 : swarm} (h0 : s0.leader = 0)
    (htot : ∀ x, ∃ c, s0.f.call x = .ok c) :
    ∃ s, s0.initialise draws = .ok s ∧ s.super.length = s0.super.length ∧
      s.f = s0.f ∧ s.leader < max s0.super.length 1 := by
  obtain ⟨hrl, hrlead, hrf, _⟩ := randomize_spec draws s0
  obtain ⟨s, hs, hq, hf⟩ := foldlM_range_ok swarm.initialise_body
    (fun m s1 => s1.init_inv (s0.randomize draws).super.length m ∧ s1.f = s0.f)
    (s0.randomize draws).super.length
    (by
      intro m a hm ⟨hq, hf⟩
      obtain ⟨hlen, hlead, _⟩ := hq
      have hm1 : m < a.super.length := by rw [hlen]; exact hm
      have hl1 : a.leader < a.super.length := by
        rw [hlen]
        rcases lt_max_iff.mp hlead with h1 | h1
        · omega
        · omega
      obtain ⟨s1, hs1⟩ := initialise_body_ok hm1 hl1 (by rw [hf]; exact htot)
      exact ⟨s1, hs1, initialise_body_init_inv hm ⟨hlen, hlead, by assumption⟩ hs1,
        (initialise_body_frame hs1).2.2.1.trans hf⟩)
    (s0.randomize draws)
    ⟨⟨rfl, by rw [hrlead, h0]; decide, fun j hj => absurd hj (Nat.not_lt_zero j)⟩, hrf⟩
  refine ⟨s, hs, by rw [hq.1, hrl], hf, ?_⟩
  have := hq.2.1
  rw [hrl] at this
  exact this

/-- On an empty swarm the loop of `operator()` only re-enters its `for` loop. -/
theorem loop_empty (draws : Nat → ℚ) (L : loop_state) (hpc : L.pc = .for_head)
    (hi : L.i = 0) (hlen : L.s.super.length = 0) :
    ∀ fuel, swarm.loop draws fuel L = .ok none := by
  have hne : L.pc ≠ .returned := by rw [hpc]; decide
  have hstep : swarm.step draws L = .ok L := by
    unfold swarm.step
    rw [hpc]
    simp only [hi, hlen, ne_eq, not_true_eq_false, if_false, pure, Except.pure]
    congr 1
    cases L
    simp_all
  intro fuel
  induction fuel with
  | zero => simp [swarm.loop, hne, pure, Except.pure]
  | succ fuel ih => rw [swarm.loop, if_neg hne, hstep]; exact ih

theorem construct_empty (d : Nat) (f : objective) (p : param_type) (h0 : 0 ≤ p.n)
    (h1 : p.n < 1) : (swarm.construct d f p).super = [] := by
  have : ⌊p.n⌋ = 0 := Int.floor_eq_zero_iff.mpr ⟨h0, h1⟩
  simp [swarm.construct, this]

/-- `operator()` on a freshly constructed swarm with at least one particle and
a total objective returns within `2560007` transitions. -/
theorem run_terminates (draws : Nat → ℚ) (d : Nat) (f : objective) (p : param_type)
    (htot : ∀ x, ∃ c, f.call x = .ok c) (hn : 1 ≤ p.n) (fuel : Nat) (hfuel : 2560007 ≤ fuel) :
    ∃ s1 Lf, (swarm.construct d f p).initialise draws = .ok s1 ∧
      (swarm.construct d f p).run draws fuel = .ok (some Lf) ∧ Lf.pc = .returned ∧
      (swarm.loop_updates draws fuel s1.loop_entry : Int) = Lf.k + 1 ∧ Lf.k ≤ 640001 := by
  have hlen := construct_length d f p hn
  obtain ⟨s1, hinit, hl1, hf1, hlead1⟩ :=
    @initialise_ok draws (swarm.construct d f p) rfl htot
  have hwf : swarm.loop_wf (swarm.construct d f p).super.length s1.loop_entry := by
    refine ⟨hl1, ?_, by show ∀ x, ∃ c, s1.f.call x = .ok c; rw [hf1]; exact htot,
      le_refl _, by show (0 : Int) ≤ 640001; decide, Nat.zero_le _, fun h => absurd rfl h⟩
    show s1.leader < _
    rcases lt_max_iff.mp hlead1 with h | h
    · exact h
    · omega
  have hmeasure : swarm.loop_measure (swarm.construct d f p).super.length s1.loop_entry ≤ fuel := by
    have h0 : (0 : Nat) ≠ (swarm.construct d f p).super.length := by omega
    show (if (0 : Nat) = _ then _ else _) ≤ fuel
    rw [if_neg h0]
    show 4 * ((640001 : Int) - 0).toNat + 3 ≤ fuel
    simp only [sub_zero]
    have : ((640001 : Int)).toNat = 640001 := by decide
    omega
  obtain ⟨Lf, hloop, hret, hk, hcount⟩ := @loop_terminates draws _ hlen fuel s1.loop_entry hwf hmeasure
  have hdone0 : swarm.updates_done s1.loop_entry = 0 := by simp [swarm.updates_done, swarm.loop_entry]
  have hdone1 : swarm.updates_done Lf = Lf.k + 1 := by simp [swarm.updates_done, hret]
  rw [hdone0, hdone1, add_zero] at hcount
  refine ⟨s1, Lf, hinit, ?_, hret, hcount, hk⟩
  simp [swarm.run, hinit, bind, Except.bind, hloop]

theorem set_getElem?_map {h : List swarmer} {a : Nat} {x : swarmer} (g : swarmer → swarmer)
    (ha : h[a]? = some x) (i : Nat) :
    (h.set a (g x))[i]? = (h[i]?).map (fun q => if i = a then g q else q) := by
  have halt : a < h.length := (List.getElem?_eq_some_iff.mp ha).1
  by_cases hia : i = a
  · subst hia
    simp [ha, halt]
  · rw [List.getElem?_set_ne (Ne.symm hia)]
    cases h[i]? <;> simp [hia]

theorem follow_getElem? (h : List swarmer) (p s i : Nat) :
    (swarmer.follow h p s)[i]? =
      (h[i]?).map (fun q => if i = p then { q with leader := s } else q) := by
  unfold swarmer.follow
  cases hp : h[p]? with
  | none =>
    by_cases hip : i = p
    · subst hip; simp [hp]
    · cases h[i]? <;> simp [hip]
  | some sp => exact set_getElem?_map (fun q => { q with leader := s }) hp i

theorem foldl_follow_getElem? (c : Nat → Prop) [DecidablePred c] (p : Nat) (nb : List Nat) :
    ∀ (g : List swarmer) (i : Nat),
      (nb.foldl (fun acc s => if c s then swarmer.follow acc s p else acc) g)[i]? =
        (g[i]?).map (fun q => if i ∈ nb ∧ c i then { q with leader := p } else q) := by
  induction nb with
  | nil => intro g i; simp
  | cons a nb ih =>
    intro g i
    rw [List.foldl_cons, ih]
    by_cases hca : c a
    · rw [if_pos hca, follow_getElem?]
      cases hg : g[i]? with
      | none => simp
      | some q =>
        simp only [Option.map_some', List.mem_cons]
        by_cases hia : i = a
        · subst hia
          by_cases hin : i ∈ nb <;> simp [hin, hca]
        · by_cases hin : i ∈ nb <;> by_cases hci : c i <;> simp [hin, hia, hci]
    · rw [if_neg hca]
      cases hg : g[i]? with
      | none => simp
      | some q =>
        simp only [Option.map_some', List.mem_cons]
        by_cases hia : i = a
        · subst hia
          by_cases hin : i ∈ nb <;> simp [hin, hca]
        · by_cases hin : i ∈ nb <;> by_cases hci : c i <;> simp [hin, hia, hci]

/-- The effect of a completed `lead()`. -/
theorem lead_ok {h : List swarmer} {p : Nat} {sp sl : swarmer} {nb : List Nat}
    (hp : h[p]? = some sp) (hl : h[sp.leader]? = some sl) (hnb : sl.neighbors = some nb) :
    ∃ h1, swarmer.lead h p = .ok h1 ∧
      ∀ i, h1[i]? = (h[i]?).map (swarmer.promoted true p sp.leader nb i) := by
  have e1 := set_getElem?_map (fun q : swarmer => { q with neighbors := none }) hl
  have hp1 : (h.set sp.leader { sl with neighbors := none })[p]? =
      some (if p = sp.leader then { sp with neighbors := none } else sp) := by
    rw [e1 p, hp]; rfl
  have e2 := set_getElem?_map (fun q : swarmer => { q with neighbors := some nb }) hp1
  have hlead : swarmer.lead h p = .ok
      (swarmer.follow
        (nb.foldl (fun acc s => if s ≠ p then swarmer.follow acc s p else acc)
          ((h.set sp.leader { sl with neighbors := none }).set p
            { (if p = sp.leader then { sp with neighbors := none } else sp) with
              neighbors := some nb })) p p) := by
    unfold swarmer.lead swarmer.deref
    simp only [hp, hl, bind, Except.bind, hp1, hnb, pure, Except.pure]
  refine ⟨_, hlead, ?_⟩
  · intro i
    rw [follow_getElem?, foldl_follow_getElem? (fun s => s ≠ p), e2 i, e1 i]
    cases hi : h[i]? with
    | none => simp
    | some q =>
      simp only [Option.map_some', swarmer.promoted]
      by_cases hip : i = p <;> by_cases hil : i = sp.leader <;> by_cases hin : i ∈ nb <;>
        by_cases hpl : p = sp.leader <;> by_cases hpin : p ∈ nb <;>
        by_cases hlin : sp.leader ∈ nb <;> simp_all

theorem move_neighbors_getElem? (g : List swarmer) (p l : Nat) (nb : List Nat)
    (sp sl : swarmer) (hp : g[p]? = some sp) (hl : g[l]? = some sl) :
    ∃ sp1 : swarmer, (g.set l { sl with neighbors := none })[p]? = some sp1 ∧
      ∀ i, ((g.set l { sl with neighbors := none }).set p { sp1 with neighbors := some nb })[i]?
        = (g[i]?).map (fun q : swarmer =>
            { q with neighbors := if i = p then some nb else if i = l then none else q.neighbors }) := by
  have e1 := set_getElem?_map (fun q : swarmer => { q with neighbors := none }) hl
  have hp1 : (g.set l { sl with neighbors := none })[p]? =
      some (if p = l then { sp with neighbors := none } else sp) := by
    rw [e1 p, hp]; rfl
  have e2 := set_getElem?_map (fun q : swarmer => { q with neighbors := some nb }) hp1
  beta_reduce at e1 e2
  refine ⟨_, hp1, fun i => ?_⟩
  rw [e2 i, e1 i]
  cases hi : g[i]? with
  | none => simp
  | some q =>
    simp only [Option.map_some']
    by_cases hpl : p = l <;> by_cases hip : i = p <;> by_cases hil : i = l <;> simp_all

theorem length_eq_of_getElem?_map {h h1 : List swarmer} {F : Nat → swarmer → swarmer}
    (e : ∀ i, h1[i]? = (h[i]?).map (F i)) : h1.length = h.length := by
  apply le_antisymm
  · by_contra hlt
    push_neg at hlt
    have e1 := e h.length
    rw [List.getElem?_eq_none (le_refl _), List.getElem?_eq_getElem hlt] at e1
    simp at e1
  · by_contra hlt
    push_neg at hlt
    have e1 := e h1.length
    rw [List.getElem?_eq_none (le_refl _), List.getElem?_eq_getElem hlt] at e1
    simp at e1

/-- The effect of a completed copy construction from the swarmer at `s`. -/
theorem copy_ok {draws : Nat → Nat → ℚ} {f : objective} {h h1 : List swarmer} {s : Nat}
    {proto : swarmer} {nb : List Nat} (hs : h[s]? = some proto) (hnb : proto.neighbors = some nb)
    (hc : swarmer.copy draws f h s = .ok h1) :
    ∃ fresh : swarmer, fresh.leader = s ∧ fresh.neighbors = none ∧
      h1 = h.set s { proto with neighbors := some (h.length :: nb) } ++ [fresh] := by
  unfold swarmer.copy swarmer.deref at hc
  simp only [hs, hnb, bind, Except.bind, pure, Except.pure] at hc
  injection hc with hc
  exact ⟨_, rfl, rfl, hc.symm⟩

/-- A built swarm is led by its prototype. -/
theorem built_well_led {draws : Nat → Nat → ℚ} {f : objective} {n : Nat} {h : List swarmer}
    (hb : swarmer.Built draws f n h) : ∃ nb, swarmer.well_led h 0 nb := by
  induction hb with
  | proto =>
    refine ⟨[0], ?_, ⟨_, rfl, rfl, rfl⟩, ?_, ?_⟩
    · intro i q hq
      cases i with
      | zero => simp at hq; subst hq; rfl
      | succ i => simp at hq
    · intro i q hq hi
      cases i with
      | zero => exact absurd rfl hi
      | succ i => simp at hq
    · simp [List.range_succ]
  | @copy h h1 _ hc ih =>
    obtain ⟨nb, hall, ⟨q0, hq0, hq0l, hq0n⟩, hnone, hperm⟩ := ih
    obtain ⟨fresh, hfl, hfn, rfl⟩ := copy_ok hq0 hq0n hc
    have hlen : 0 < h.length := (List.getElem?_eq_some_iff.mp hq0).1
    have hget : ∀ i, (h.set 0 { q0 with neighbors := some (h.length :: nb) } ++ [fresh])[i]? =
        if i = 0 then some { q0 with neighbors := some (h.length :: nb) }
        else if i < h.length then h[i]?
        else if i = h.length then some fresh else none := by
      intro i
      by_cases hi0 : i = 0
      · subst hi0
        rw [List.getElem?_append_left (by simpa using hlen)]
        simp [List.getElem?_set, hlen]
      · by_cases hil : i < h.length
        · rw [List.getElem?_append_left (by simpa using hil), List.getElem?_set_ne (Ne.symm hi0)]
          simp [hi0, hil]
        · rw [List.getElem?_append_right (by simpa using hil)]
          simp only [List.length_set, hi0, hil, if_false]
          by_cases hie : i = h.length
          · simp [hie]
          · have : i - h.length ≠ 0 := by omega
            simp [hie]
            omega
    refine ⟨h.length :: nb, ?_,
      ⟨{ q0 with neighbors := some (h.length :: nb) }, ?_, hq0l, rfl⟩, ?_, ?_⟩
    · intro i q hq
      rw [hget i] at hq
      by_cases hi0 : i = 0
      · rw [if_pos hi0] at hq
        injection hq with hq
        subst hq; exact hq0l
      · rw [if_neg hi0] at hq
        by_cases hil : i < h.length
        · rw [if_pos hil] at hq
          exact hall i q hq
        · rw [if_neg hil] at hq
          by_cases hie : i = h.length
          · rw [if_pos hie] at hq
            injection hq with hq
            subst hq; exact hfl
          · rw [if_neg hie] at hq
            exact absurd hq (by simp)
    · rw [hget 0]; simp
    · intro i q hq hi0
      rw [hget i, if_neg hi0] at hq
      by_cases hil : i < h.length
      · rw [if_pos hil] at hq
        exact hnone i q hq hi0
      · rw [if_neg hil] at hq
        by_cases hie : i = h.length
        · rw [if_pos hie] at hq
          injection hq with hq
          subst hq; exact hfn
        · rw [if_neg hie] at hq
          exact absurd hq (by simp)
    · simp only [List.length_append, List.length_set, List.length_singleton, List.range_succ]
      exact (List.Perm.cons _ hperm).trans (List.perm_append_singleton _ _).symm

/-- A completed promotion keeps the swarm well led, with the promoted swarmer
as leader and the same neighbor list. -/
theorem lead_well_led {h h1 : List swarmer} {L p : Nat} {nb : List Nat}
    (hw : swarmer.well_led h L nb) (hlead : swarmer.lead h p = .ok h1) :
    swarmer.well_led h1 p nb := by
  obtain ⟨hall, ⟨sl, hsl, hsll, hsln⟩, hnone, hperm⟩ := hw
  cases hp : h[p]? with
  | none =>
    unfold swarmer.lead swarmer.deref at hlead
    simp [hp, bind, Except.bind] at hlead
  | some sp =>
    have hspl : sp.leader = L := hall p sp hp
    have hl : h[sp.leader]? = some sl := by rw [hspl]; exact hsl
    obtain ⟨h2, h2ok, hchar⟩ := lead_ok hp hl hsln
    rw [hlead] at h2ok
    injection h2ok with h2ok
    subst h2ok
    have hlen : h1.length = h.length := length_eq_of_getElem?_map hchar
    have hmem : ∀ i, i < h.length → i ∈ nb := fun i hi =>
      hperm.symm.subset (List.mem_range.mpr hi)
    refine ⟨?_, ⟨swarmer.promoted true p sp.leader nb p sp, ?_, ?_, ?_⟩, ?_, ?_⟩
    · intro i q hq
      rw [hchar i] at hq
      cases hi : h[i]? with
      | none => simp [hi] at hq
      | some q0 =>
        have hin : i ∈ nb := hmem i (List.getElem?_eq_some_iff.mp hi).1
        simp [hi] at hq
        subst hq
        simp [swarmer.promoted, hin]
    · rw [hchar p, hp]; rfl
    · simp [swarmer.promoted]
    · simp [swarmer.promoted]
    · intro i q hq hip
      rw [hchar i] at hq
      cases hi : h[i]? with
      | none => simp [hi] at hq
      | some q0 =>
        simp [hi] at hq
        subst hq
        by_cases hiL : i = L
        · have hLp : ¬ L = p := fun e => hip (hiL.trans e)
          simp [swarmer.promoted, hip, hspl, hiL, hLp]
        · simp [swarmer.promoted, hip, hspl, hiL, hnone i q0 hi hiL]
    · rw [hlen]; exact hperm

/-- Every state reached by completed promotions from a built swarm is well led. -/
theorem led_well_led {draws : Nat → Nat → ℚ} {f : objective} {n : Nat} {h : List swarmer}
    (hl : swarmer.Led draws f n h) : ∃ L nb, swarmer.well_led h L nb := by
  induction hl with
  | built hb =>
    obtain ⟨nb, hw⟩ := built_well_led hb
    exact ⟨0, nb, hw⟩
  | lead _ hlead ih =>
    obtain ⟨L, nb, hw⟩ := ih
    exact ⟨_, nb, lead_well_led hw hlead⟩

theorem race_heap_ok : swarmer.copy race_draws sphere race_proto 0 = .ok race_heap :=
  except_eq_ok_getD [] (by decide!)

theorem race_start_ok : swarmer.start race_heap 0 = .ok race_start :=
  except_eq_ok_getD _ (by decide!)

theorem race_after_ok (schedule : List Nat)
    (h : (swarmer.run_schedule race_draws sphere swarmer.statics.default race_start
      schedule).toOption.isSome = true) :
    swarmer.run_schedule race_draws sphere swarmer.statics.default race_start schedule
      = .ok (race_after schedule) :=
  except_eq_ok_getD _ h

theorem except_eq_ok_of_toOption {α : Type} {x : Except Err α} {a : α}
    (h : x.toOption = some a) : x = .ok a := by
  cases x with
  | error e => simp [Except.toOption] at h
  | ok b => simp [Except.toOption] at h; rw [h]

theorem uniform_real_bounds (draws : Nat → ℚ) (rng : Nat) (a b : ℚ)
    (hd : ∀ n, 0 ≤ draws n ∧ draws n < 1) (hab : a ≤ b) :
    a ≤ (uniform_real draws rng a b).1 ∧ (uniform_real draws rng a b).1 ≤ b := by
  obtain ⟨h0, h1⟩ := hd rng
  have h2 := mul_nonneg h0 (sub_nonneg.mpr hab)
  have h3 := mul_nonneg (sub_nonneg.mpr h1.le) (sub_nonneg.mpr hab)
  show a ≤ draws rng * (b - a) + a ∧ draws rng * (b - a) + a ≤ b
  constructor
  · linarith
  · linarith

theorem randomize_position_within (draws : Nat → ℚ) (hd : ∀ n, 0 ≤ draws n ∧ draws n < 1)
    (f : objective) (xs : List ℚ) :
    ∀ (rng i j : Nat) (x : ℚ), (swarm.randomize_position draws f rng i xs).1[j]? = some x →
      (f.domain (i + j)).1 ≤ (f.domain (i + j)).2 →
      (f.domain (i + j)).1 ≤ x ∧ x ≤ (f.domain (i + j)).2 := by
  induction xs with
  | nil => intro rng i j x hx; simp [swarm.randomize_position] at hx
  | cons x0 xs ih =>
    intro rng i j x hx hdom
    cases j with
    | zero =>
      simp only [swarm.randomize_position, List.getElem?_cons_zero] at hx
      injection hx with hx
      rw [← hx]
      exact uniform_real_bounds draws rng _ _ hd hdom
    | succ j =>
      simp only [swarm.randomize_position, List.getElem?_cons_succ] at hx
      have e : i + (j + 1) = i + 1 + j := by omega
      rw [e] at hdom ⊢
      exact ih _ (i + 1) j x hx hdom

theorem randomize_velocity_within_dim (draws : Nat → ℚ) (hd : ∀ n, 0 ≤ draws n ∧ draws n < 1)
    (vs : List ℚ) :
    ∀ (rng : Nat) (caps : List ℚ) (j : Nat) (v vm : ℚ),
      (swarm.randomize_velocity draws rng caps vs).1[j]? = some v →
        caps[j]? = some vm → 0 ≤ vm → -vm ≤ v ∧ v ≤ vm := by
  induction vs with
  | nil => intro rng caps j v vm hv; simp [swarm.randomize_velocity] at hv
  | cons v0 vs ih =>
    intro rng caps j v vm hv hvm h0
    cases j with
    | zero =>
      simp only [swarm.randomize_velocity, List.getElem?_cons_zero] at hv
      injection hv with hv
      have hh : caps.headD 0 = vm := by
        rw [headD_eq_getD]; exact getD_of_getElem? hvm
      rw [← hv, hh]
      exact uniform_real_symm_bounds draws rng vm hd h0
    | succ j =>
      simp only [swarm.randomize_velocity, List.getElem?_cons_succ] at hv
      refine ih _ caps.tail j v vm hv ?_ h0
      cases caps with
      | nil => simp at hvm
      | cons c cs => simpa using hvm

theorem randomize_positions_within (draws : Nat → ℚ) (hd : ∀ n, 0 ≤ draws n ∧ draws n < 1)
    (f : objective) (ps : List particle) :
    ∀ (rng : Nat), ∀ q ∈ (swarm.randomize_positions draws f rng ps).1,
      ∀ (j : Nat) (x : ℚ), q.super[j]? = some x → (f.domain j).1 ≤ (f.domain j).2 →
        (f.domain j).1 ≤ x ∧ x ≤ (f.domain j).2 := by
  induction ps with
  | nil => intro rng q hq; simp [swarm.randomize_positions] at hq
  | cons p ps ih =>
    intro rng q hq
    simp only [swarm.randomize_positions, List.mem_cons] at hq
    rcases hq with hq | hq
    · subst hq
      intro j x hx hdom
      have := randomize_position_within draws hd f p.super rng 0 j x hx
      simpa using this (by simpa using hdom)
    · exact ih _ q hq

theorem randomize_velocities_within_dim (draws : Nat → ℚ)
    (hd : ∀ n, 0 ≤ draws n ∧ draws n < 1) (caps : List ℚ) (ps : List particle) :
    ∀ (rng : Nat), ∀ q ∈ (swarm.randomize_velocities draws caps rng ps).1,
      (∃ q0 ∈ ps, q.super = q0.super) ∧
      ∀ (j : Nat) (v vm : ℚ), q.velocity[j]? = some v → caps[j]? = some vm → 0 ≤ vm →
        -vm ≤ v ∧ v ≤ vm := by
  induction ps with
  | nil => intro rng q hq; simp [swarm.randomize_velocities] at hq
  | cons p ps ih =>
    intro rng q hq
    simp only [swarm.randomize_velocities, List.mem_cons] at hq
    rcases hq with hq | hq
    · subst hq
      refine ⟨⟨p, List.mem_cons_self _ _, rfl⟩, ?_⟩
      intro j v vm hv hvm h0
      exact randomize_velocity_within_dim draws hd p.velocity rng caps j v vm hv hvm h0
    · obtain ⟨⟨q0, hq0, e⟩, hv⟩ := ih _ q hq
      exact ⟨⟨q0, List.mem_cons_of_mem _ hq0, e⟩, hv⟩

/-- Positions and velocities written by `randomize`, dimension by dimension. -/
theorem randomize_within (draws : Nat → ℚ) (hd : ∀ n, 0 ≤ draws n ∧ draws n < 1) (s : swarm) :
    ∀ q ∈ (s.randomize draws).super, ∀ (j : Nat),
      (∀ x : ℚ, q.super[j]? = some x → (s.f.domain j).1 ≤ (s.f.domain j).2 →
        (s.f.domain j).1 ≤ x ∧ x ≤ (s.f.domain j).2) ∧
      (∀ v vm : ℚ, q.velocity[j]? = some v → s.vmax[j]? = some vm → 0 ≤ vm →
        -vm ≤ v ∧ v ≤ vm) := by
  intro q hq j
  obtain ⟨⟨q0, hq0, e⟩, hv⟩ := randomize_velocities_within_dim draws hd s.vmax _ _ q hq
  refine ⟨?_, fun v vm => hv j v vm⟩
  intro x hx hdom
  rw [e] at hx
  exact randomize_positions_within draws hd s.f s.super s.rng q0 hq0 j x hx hdom

theorem demo_draws_unit : ∀ n, 0 ≤ demo_draws n ∧ demo_draws n < 1 := by
  intro n
  have h : n % 4 < 4 := Nat.mod_lt _ (by decide)
  have h4 : ((n % 4 : Nat) : ℚ) < 4 := by exact_mod_cast h
  have h0 : (0 : ℚ) ≤ ((n % 4 : Nat) : ℚ) := Nat.cast_nonneg _
  unfold demo_draws
  constructor
  · positivity
  · rw [div_lt_one (by norm_num)]; exact h4

theorem trace_reachable {draws : Nat → ℚ} {s0 : swarm} :
    ∀ (n : Nat) (L : loop_state), swarm.trace draws s0 n = .ok L → swarm.Reachable draws s0 L := by
  intro n
  induction n with
  | zero =>
    intro L h
    unfold swarm.trace at h
    cases hinit : s0.initialise draws with
    | error e => rw [hinit] at h; simp [Except.map] at h
    | ok s =>
      rw [hinit] at h
      simp only [Except.map] at h
      injection h with h
      subst h
      exact swarm.Reachable.entry hinit
  | succ n ih =>
    intro L1 h
    unfold swarm.trace at h
    cases hn : swarm.trace draws s0 n with
    | error e => rw [hn] at h; simp [Except.bind] at h
    | ok L =>
      rw [hn] at h
      simp only [Except.bind] at h
      by_cases hpc : L.pc = .returned
      · rw [step_returned hpc h]; exact ih L hn
      · exact swarm.Reachable.step (ih L hn) hpc h

theorem demo_at_ok (draws : Nat → ℚ) (n : Nat)
    (h : (swarm.trace draws demo_fresh n).toOption.isSome = true) :
    swarm.trace draws demo_fresh n = .ok (demo_at draws n) :=
  except_eq_ok_getD _ h

theorem trace_step {draws : Nat → ℚ} {s0 : swarm} {n : Nat} {L L1 : loop_state}
    (h : swarm.trace draws s0 n = .ok L) (h1 : swarm.trace draws s0 (n + 1) = .ok L1) :
    swarm.step draws L = .ok L1 := by
  unfold swarm.trace at h1
  rw [h] at h1
  exact h1

theorem demo_swarm_best_le_all : demo_swarm.best_le_all := by
  intro q hq
  refine ⟨demo_p0, rfl, ?_⟩
  simp only [demo_swarm, List.mem_cons, List.mem_singleton, List.not_mem_nil, or_false] at hq
  rcases hq with rfl | rfl
  · exact le_refl _
  · show ((1 : ℚ) : WithTop ℚ) ≤ ((4 : ℚ) : WithTop ℚ)
    exact_mod_cast (by norm_num : (1 : ℚ) ≤ 4)

/-- What a completed promotion transfers and what it leaves alone, from the
description of the resulting heap. -/
theorem promoted_frame {h h1 : List swarmer} {p : Nat} {sp : swarmer} {nb : List Nat}
    {b : Bool} (hp : h[p]? = some sp)
    (e : ∀ i, h1[i]? = (h[i]?).map (swarmer.promoted b p sp.leader nb i)) :
    h1.length = h.length ∧
    (h1[p]?).map swarmer.neighbors = some (some nb) ∧
    (sp.leader ≠ p → sp.leader < h.length →
      (h1[sp.leader]?).map swarmer.neighbors = some none) ∧
    (∀ (i : Nat) (q : swarmer), h[i]? = some q → i ≠ p → i ≠ sp.leader →
      (h1[i]?).map swarmer.neighbors = some q.neighbors) ∧
    (∀ (i : Nat) (q : swarmer), h[i]? = some q →
      ∃ q1, h1[i]? = some q1 ∧ q1.super = q.super ∧ q1.velocity = q.velocity ∧
        q1.local_best = q.local_best ∧ q1.rng = q.rng) := by
  refine ⟨length_eq_of_getElem?_map e, ?_, ?_, ?_, ?_⟩
  · rw [e p, hp]; simp [swarmer.promoted]
  · intro hne hlt
    rw [e sp.leader, List.getElem?_eq_getElem hlt]
    simp [swarmer.promoted, hne]
  · intro i q hq hip hil
    rw [e i, hq]
    simp [swarmer.promoted, hip, hil]
  · intro i q hq
    rw [e i, hq]
    exact ⟨_, rfl, rfl, rfl, rfl, rfl⟩

/-- The decay test and the exit test between two particle updates leave the
particles and the leader as they are. -/
theorem between_updates {draws : Nat → ℚ} {La Lb L : loop_state} (hpa : La.pc = .updated)
    (hab : swarm.step draws La = .ok Lb) (hbc : swarm.step draws Lb = .ok L)
    (hpc : L.pc = .for_head) :
    L.s.super = La.s.super ∧ L.s.leader = La.s.leader ∧ L.i = La.i + 1 := by
  have hb := step_updated hpa hab
  have hbpc : Lb.pc = .decayed := by rw [hb]; split <;> rfl
  have hbs : Lb.s.super = La.s.super ∧ Lb.s.leader = La.s.leader ∧ Lb.i = La.i := by
    rw [hb]; split <;> exact ⟨rfl, rfl, rfl⟩
  obtain ⟨best, _, hL⟩ := step_decayed hbpc hbc
  by_cases hs : swarm.stop_test best Lb.k = true
  · rw [hL, if_pos hs] at hpc
    cases hpc
  · rw [hL, if_neg hs]
    exact ⟨hbs.1, hbs.2.1, by rw [← hbs.2.2]⟩

theorem velocity_transform_congr (draws draws1 : Nat → ℚ) (pr : param_type) (vs : List ℚ) :
    ∀ (rng : Nat) (xi vm p g : List ℚ),
      (∀ m, rng ≤ m → m < rng + 2 * vs.length → draws1 m = draws m) →
      swarm.velocity_transform draws1 pr rng vs xi vm p g
        = swarm.velocity_transform draws pr rng vs xi vm p g := by
  induction vs with
  | nil => intros; rfl
  | cons v vs ih =>
    intro rng xi vm p g h
    have hlen : (v :: vs).length = vs.length + 1 := rfl
    have h0 := h rng (le_refl _) (by rw [hlen]; omega)
    have h1 := h (rng + 1) (by omega) (by rw [hlen]; omega)
    have ih1 := ih (rng + 2) xi.tail vm.tail p.tail g.tail
      (fun m hm1 hm2 => h m (by omega) (by rw [hlen]; omega))
    simp only [swarm.velocity_transform, h0, h1, ih1]

theorem update_congr {draws draws1 : Nat → ℚ} {s : swarm} {i : Nat} {pi pl : particle}
    {cost : ℚ} (hi : s.super[i]? = some pi) (hl : s.super[s.leader]? = some pl)
    (hc : s.f.call (s.new_position draws pi pl) = .ok cost)
    (h : ∀ m, s.rng ≤ m → m < s.rng + 2 * pi.velocity.length → draws1 m = draws m) :
    s.update draws1 i = .ok (s.update_result draws i pi pl cost) := by
  have ev : s.new_velocity draws1 pi pl = s.new_velocity draws pi pl := by
    unfold swarm.new_velocity
    rw [velocity_transform_congr draws draws1 s.param pi.velocity s.rng _ _ _ _ h]
  have ep : s.new_position draws1 pi pl = s.new_position draws pi pl := by
    unfold swarm.new_position
    rw [ev]
  have er : s.update_result draws1 i pi pl cost = s.update_result draws i pi pl cost := by
    unfold swarm.update_result
    rw [ev, ep]
  rw [← er]
  exact update_ok draws1 s i pi pl cost hi hl (by rw [ep]; exact hc)

theorem update_result_rng (draws : Nat → ℚ) (s : swarm) (i : Nat) (pi pl : particle)
    (cost : ℚ) : (s.update_result draws i pi pl cost).2.rng = s.rng + 2 * pi.velocity.length := by
  unfold swarm.update_result
  split <;> rfl

theorem swarmer_velocity_transform_rng (draws : Nat → ℚ) (st : swarmer.statics) (vs : List ℚ) :
    ∀ (rng : Nat) (pcurr pbest gbest : List ℚ),
      (swarmer.velocity_transform draws st rng vs pcurr pbest gbest).2 = rng + 2 * vs.length := by
  induction vs with
  | nil => intros; rfl
  | cons v vs ih =>
    intro rng pcurr pbest gbest
    simp [swarmer.velocity_transform, ih]
    ring

theorem swarmer_velocity_transform_getElem? (draws : Nat → ℚ) (st : swarmer.statics)
    (vs : List ℚ) :
    ∀ (rng : Nat) (pcurr pbest gbest : List ℚ) (j : Nat) (v : ℚ), vs[j]? = some v →
      (swarmer.velocity_transform draws st rng vs pcurr pbest gbest).1[j]? =
        some (v * st.INERTIA
          + draws (rng + 2 * j) * st.P_AFFINITY * (pbest.getD j 0 - pcurr.getD j 0)
          + draws (rng + 2 * j + 1) * st.G_AFFINITY * (gbest.getD j 0 - pcurr.getD j 0)) := by
  induction vs with
  | nil => intro rng pcurr pbest gbest j v h; simp at h
  | cons v0 vs ih =>
    intro rng pcurr pbest gbest j v h
    cases j with
    | zero =>
      simp at h
      subst h
      simp only [swarmer.velocity_transform, headD_eq_getD, List.getElem?_cons_zero, Nat.mul_zero,
        Nat.add_zero]
    | succ j =>
      simp at h
      have := ih (rng + 2) pcurr.tail pbest.tail gbest.tail j v h
      simp only [tail_getD_zero] at this
      simp only [swarmer.velocity_transform, List.getElem?_cons_succ, this]
      have e : rng + 2 + 2 * j = rng + 2 * (j + 1) := by ring
      rw [e]

/-- The computations of the concurrent `update` on the swarmer at `p`, in closed
form. -/
theorem move_ok {draws : Nat → Nat → ℚ} {f : objective} {st : swarmer.statics}
    {h : List swarmer} {p : Nat} {sp sl : swarmer} {cost : ℚ}
    (hp : h[p]? = some sp) (hl : h[sp.leader]? = some sl)
    (hc : f.call (List.zipWith (· + ·) sp.super
      (swarmer.velocity_transform (draws p) st sp.rng sp.velocity sp.super
        sp.local_best.2 sl.local_best.2).1) = .ok cost) :
    ∃ h1 sp1, swarmer.move draws f st h p = .ok h1 ∧ h1[p]? = some sp1 ∧
      (∀ i, i ≠ p → h1[i]? = h[i]?) ∧
      sp1.rng = sp.rng + 2 * sp.velocity.length ∧
      sp1.velocity = (swarmer.velocity_transform (draws p) st sp.rng sp.velocity sp.super
        sp.local_best.2 sl.local_best.2).1 := by
  have hlt : p < h.length := (List.getElem?_eq_some_iff.mp hp).1
  have hmove : swarmer.move draws f st h p = .ok (h.set p
      { sp with
        super := List.zipWith (· + ·) sp.super
          (swarmer.velocity_transform (draws p) st sp.rng sp.velocity sp.super
            sp.local_best.2 sl.local_best.2).1,
        velocity := (swarmer.velocity_transform (draws p) st sp.rng sp.velocity sp.super
          sp.local_best.2 sl.local_best.2).1,
        rng := (swarmer.velocity_transform (draws p) st sp.rng sp.velocity sp.super
          sp.local_best.2 sl.local_best.2).2,
        local_best :=
          if (cost : WithTop ℚ) < sp.local_best.1 then
            ((cost : WithTop ℚ), List.zipWith (· + ·) sp.super
              (swarmer.velocity_transform (draws p) st sp.rng sp.velocity sp.super
                sp.local_best.2 sl.local_best.2).1)
          else sp.local_best }) := by
    unfold swarmer.move swarmer.deref
    simp only [hp, hl, bind, Except.bind, hc, pure, Except.pure]
  refine ⟨_, _, hmove, List.getElem?_set_self hlt, ?_, ?_, rfl⟩
  · intro i hi
    rw [List.getElem?_set_ne (Ne.symm hi)]
  · exact swarmer_velocity_transform_rng _ _ _ _ _ _ _

theorem except_option_eq_getD {α : Type} {x : Except Err (Option α)} (a : α)
    (h : (x.toOption.bind id).isSome = true) :
    x = .ok (some ((x.toOption.bind id).getD a)) := by
  cases x with
  | error e => simp [Except.toOption] at h
  | ok b =>
    cases b with
    | none => simp [Except.toOption] at h
    | some c => simp [Except.toOption]

/-- Once `operator()` has returned within `fuel` transitions, more fuel gives
the same final state. -/
theorem loop_mono (draws : Nat → ℚ) :
    ∀ (fuel : Nat) (L Lf : loop_state), swarm.loop draws fuel L = .ok (some Lf) →
      ∀ fuel1, fuel ≤ fuel1 → swarm.loop draws fuel1 L = .ok (some Lf) := by
  intro fuel
  induction fuel with
  | zero =>
    intro L Lf h fuel1 _
    by_cases hpc : L.pc = .returned
    · rw [loop_returned draws 0 L hpc] at h
      rw [loop_returned draws fuel1 L hpc]
      exact h
    · simp [swarm.loop, hpc, pure, Except.pure] at h
  | succ fuel ih =>
    intro L Lf h fuel1 hle
    by_cases hpc : L.pc = .returned
    · rw [loop_returned draws _ L hpc] at h
      rw [loop_returned draws fuel1 L hpc]
      exact h
    · obtain ⟨fuel2, rfl⟩ : ∃ m, fuel1 = m + 1 := ⟨fuel1 - 1, by omega⟩
      rw [swarm.loop, if_neg hpc] at h ⊢
      cases hstep : swarm.step draws L with
      | error e => rw [hstep] at h; simp [bind, Except.bind] at h
      | ok L1 =>
        rw [hstep] at h
        exact ih L1 Lf h fuel2 (by omega)

theorem run_mono {draws : Nat → ℚ} {s : swarm} {fuel fuel1 : Nat} {Lf : loop_state}
    (h : s.run draws fuel = .ok (some Lf)) (hle : fuel ≤ fuel1) :
    s.run draws fuel1 = .ok (some Lf) := by
  unfold swarm.run at h ⊢
  cases hinit : s.initialise draws with
  | error e => rw [hinit] at h; simp [bind, Except.bind] at h
  | ok s1 =>
    rw [hinit] at h
    exact loop_mono draws fuel _ Lf h fuel1 hle

theorem solo_final_ok (fuel : Nat)
    (h : ((solo_fresh.run half_draws fuel).toOption.bind id).isSome = true) :
    solo_fresh.run half_draws fuel = .ok (some (solo_final fuel)) :=
  except_option_eq_getD _ h

/-- The evaluations of a run on a freshly constructed swarm: the population
size, plus the final value of `k`, plus one. -/
theorem run_evaluations_eq (draws : Nat → ℚ) (d : Nat) (f : objective) (p : param_type)
    (htot : ∀ x, ∃ c, f.call x = .ok c) (hn : 1 ≤ p.n) (fuel : Nat) (hfuel : 2560007 ≤ fuel) :
    ∃ Lf, (swarm.construct d f p).run draws fuel = .ok (some Lf) ∧ Lf.pc = .returned ∧
      ((swarm.construct d f p).run_evaluations draws fuel : Int)
        = (swarm.construct d f p).super.length + Lf.k + 1 ∧
      1 ≤ (swarm.construct d f p).super.length := by
  obtain ⟨s1, Lf, hinit, hrun, hret, hcount, _⟩ := run_terminates draws d f p htot hn fuel hfuel
  obtain ⟨s2, hinit2, hlen, _, _⟩ := @initialise_ok draws (swarm.construct d f p) rfl htot
  rw [hinit] at hinit2
  injection hinit2 with hinit2
  subst hinit2
  refine ⟨Lf, hrun, hret, ?_, construct_length d f p hn⟩
  unfold swarm.run_evaluations
  rw [hinit]
  simp only []
  push_cast
  rw [hcount, hlen]
  ring

theorem foldl_add_nonneg {α : Type} (g : α → ℚ) (hg : ∀ a, 0 ≤ g a) (l : List α) :
    ∀ acc : ℚ, acc ≤ l.foldl (fun acc a => acc + g a) acc := by
  induction l with
  | nil => intro acc; exact le_refl _
  | cons a l ih =>
    intro acc
    exact le_trans (by linarith [hg a]) (ih (acc + g a))

theorem foldl_add_zero {α : Type} (g : α → ℚ) (l : List α) (hg : ∀ a ∈ l, g a = 0) :
    ∀ acc : ℚ, l.foldl (fun acc a => acc + g a) acc = acc := by
  induction l with
  | nil => intro acc; rfl
  | cons a l ih =>
    intro acc
    simp only [List.foldl_cons]
    rw [hg a (List.mem_cons_self _ _), add_zero]
    exact ih (fun b hb => hg b (List.mem_cons_of_mem _ hb)) acc

theorem sphere_minimised (D : Nat) :
    sphere.minimised_at (sphere.extremum_point1 D) (sphere.extremum 0) := by
  constructor
  · show Except.ok _ = Except.ok _
    congr 1
    exact foldl_add_zero (fun a : ℚ => a * a) _
      (fun a ha => by
        simp only [objective.extremum_point1, sphere, List.mem_map] at ha
        obtain ⟨_, _, rfl⟩ := ha
        simp) 0
  · intro x c _ hc
    have hc1 : Except.ok (x.foldl (fun acc a => acc + a * a) 0) = Except.ok c := hc
    injection hc1 with hc1
    rw [← hc1]
    exact foldl_add_nonneg (fun a : ℚ => a * a) (fun a => mul_self_nonneg a) x 0

theorem rosenbrock_minimised (D : Nat) (hD : 1 ≤ D) :
    rosenbrock.minimised_at (rosenbrock.extremum_point1 D) (rosenbrock.extremum 0) := by
  have hpt : rosenbrock.extremum_point1 D = List.replicate D 1 := by
    simp [objective.extremum_point1, rosenbrock]
  constructor
  · rw [hpt]
    have hlen : ¬ (List.replicate D (1 : ℚ)).length = 0 := by simp; omega
    show (if (List.replicate D (1 : ℚ)).length = 0 then _ else _) = _
    rw [if_neg hlen]
    show Except.ok _ = Except.ok _
    congr 1
    refine foldl_add_zero (fun pr : ℚ × ℚ =>
      100 * (pr.2 * pr.2 - pr.1) * (pr.2 * pr.2 - pr.1) + (pr.2 - 1) * (pr.2 - 1)) _ ?_ 0
    rintro ⟨a, b⟩ hab
    obtain ⟨ha, hb⟩ := List.of_mem_zip hab
    have ha1 : a = 1 := List.eq_of_mem_replicate (List.mem_of_mem_tail ha)
    have hb1 : b = 1 := List.eq_of_mem_replicate hb
    subst ha1
    subst hb1
    norm_num
  · intro x c hx hc
    have hlen : ¬ x.length = 0 := by
      rw [hx, hpt]; simp; omega
    have hc1 : (if x.length = 0 then Except.error Err.bad_iterator
        else Except.ok ((List.zip x.tail x).foldl
          (fun acc (pr : ℚ × ℚ) =>
            acc + (100 * (pr.2 * pr.2 - pr.1) * (pr.2 * pr.2 - pr.1)
              + (pr.2 - 1) * (pr.2 - 1))) 0)) = Except.ok c := hc
    rw [if_neg hlen] at hc1
    injection hc1 with hc1
    rw [← hc1]
    refine foldl_add_nonneg (fun pr : ℚ × ℚ =>
      100 * (pr.2 * pr.2 - pr.1) * (pr.2 * pr.2 - pr.1) + (pr.2 - 1) * (pr.2 - 1)) ?_ _ 0
    intro pr
    show 0 ≤ 100 * (pr.2 * pr.2 - pr.1) * (pr.2 * pr.2 - pr.1) + (pr.2 - 1) * (pr.2 - 1)
    nlinarith [mul_self_nonneg (pr.2 * pr.2 - pr.1), mul_self_nonneg (pr.2 - 1)]

theorem length_two {x : List ℚ} (h : x.length = 2) : ∃ a b, x = [a, b] := by
  match x, h with
  | [a, b], _ => exact ⟨a, b, rfl⟩

theorem beale_minimised : beale.minimised_at (beale.extremum_point1 2) (beale.extremum 0) := by
  constructor
  · decide!
  · intro x c hx hc
    obtain ⟨a, b, rfl⟩ := length_two (by simpa [objective.extremum_point1] using hx)
    simp [beale] at hc
    rw [← hc]
    show (0 : ℚ) ≤ _
    nlinarith [mul_self_nonneg (3 / 2 - a * (1 - b)), mul_self_nonneg (9 / 4 - a * (1 - b * b)),
      mul_self_nonneg (21 / 8 - a * (1 - b * b * b))]

theorem booth_minimised : booth.minimised_at (booth.extremum_point1 2) (booth.extremum 0) := by
  constructor
  · decide!
  · intro x c hx hc
    obtain ⟨a, b, rfl⟩ := length_two (by simpa [objective.extremum_point1] using hx)
    simp [booth] at hc
    rw [← hc]
    show (0 : ℚ) ≤ _
    nlinarith [mul_self_nonneg (a + 2 * b - 7), mul_self_nonneg (2 * a + b - 5)]

theorem rosenbrock_fold_eq_sum (x : List ℚ) :
    ∀ acc : ℚ, (List.zip x.tail x).foldl
      (fun acc (pr : ℚ × ℚ) =>
        acc + (100 * (pr.2 * pr.2 - pr.1) * (pr.2 * pr.2 - pr.1) + (pr.2 - 1) * (pr.2 - 1))) acc
      = acc + rosenbrock_sum x := by
  induction x with
  | nil => intro acc; simp [rosenbrock_sum]
  | cons a t ih =>
    cases t with
    | nil => intro acc; simp [rosenbrock_sum]
    | cons b rest =>
      intro acc
      have ih1 := ih (acc + (100 * (a * a - b) * (a * a - b) + (a - 1) * (a - 1)))
      simp only [List.tail_cons] at ih1
      simp only [List.tail_cons, List.zip_cons_cons, List.foldl_cons]
      rw [ih1]
      unfold rosenbrock_sum
      simp only [List.length_cons, Nat.add_sub_cancel]
      rw [List.range_succ_eq_map, List.map_cons, List.sum_cons, List.map_map]
      have hmap : (List.range rest.length).map
          ((fun i => 100 * (((a :: b :: rest).getD i 0) ^ 2 - (a :: b :: rest).getD (i + 1) 0) ^ 2
            + ((a :: b :: rest).getD i 0 - 1) ^ 2) ∘ Nat.succ)
          = (List.range rest.length).map
            (fun i => 100 * (((b :: rest).getD i 0) ^ 2 - (b :: rest).getD (i + 1) 0) ^ 2
              + ((b :: rest).getD i 0 - 1) ^ 2) := by
        apply List.map_congr_left
        intro i _
        simp
      rw [hmap]
      simp
      ring

theorem rosenbrock_sum_replicate (n : Nat) (c : ℚ) :
    rosenbrock_sum (List.replicate n c)
      = ((n - 1 : Nat) : ℚ) * (100 * (c ^ 2 - c) ^ 2 + (c - 1) ^ 2) := by
  unfold rosenbrock_sum
  have hmap : (List.range ((List.replicate n c).length - 1)).map
      (fun i => 100 * (((List.replicate n c).getD i 0) ^ 2 - (List.replicate n c).getD (i + 1) 0) ^ 2
        + ((List.replicate n c).getD i 0 - 1) ^ 2)
      = (List.range (n - 1)).map (fun _ => 100 * (c ^ 2 - c) ^ 2 + (c - 1) ^ 2) := by
    rw [List.length_replicate]
    apply List.map_congr_left
    intro i hi
    have hi1 : i < n - 1 := List.mem_range.mp hi
    have e1 : (List.replicate n c).getD i 0 = c := by
      rw [List.getD_eq_getElem?_getD, List.getElem?_replicate, if_pos (by omega)]; rfl
    have e2 : (List.replicate n c).getD (i + 1) 0 = c := by
      rw [List.getD_eq_getElem?_getD, List.getElem?_replicate, if_pos (by omega)]; rfl
    rw [e1, e2]
  rw [hmap]
  simp
  ring

theorem generate_position_spec (draws : Nat → ℚ) (f : objective) (xs : List ℚ) :
    ∀ (rng i : Nat),
      (swarmer.generate_position draws f rng i xs).2 = rng + xs.length ∧
      ∀ j, j < xs.length →
        (swarmer.generate_position draws f rng i xs).1[j]? =
          some (uniform_real draws (rng + j) (f.domain (i + j)).1 (f.domain (i + j)).2).1 := by
  induction xs with
  | nil => intro rng i; exact ⟨rfl, fun j hj => absurd hj (by simp)⟩
  | cons x0 xs ih =>
    intro rng i
    obtain ⟨ih1, ih2⟩ := ih (rng + 1) (i + 1)
    constructor
    · show (swarmer.generate_position draws f (rng + 1) (i + 1) xs).2 = _
      rw [ih1, List.length_cons]; omega
    · intro j hj
      cases j with
      | zero =>
        simp only [swarmer.generate_position, List.getElem?_cons_zero, Nat.add_zero]
      | succ j =>
        have h2 := ih2 j (by simpa using hj)
        have e1 : rng + 1 + j = rng + (j + 1) := by omega
        have e2 : i + 1 + j = i + (j + 1) := by omega
        rw [e1, e2] at h2
        simp only [swarmer.generate_position, List.getElem?_cons_succ]
        exact h2

theorem generate_velocity_spec (draws : Nat → ℚ) (f : objective) (vs : List ℚ) :
    ∀ (rng i : Nat),
      (swarmer.generate_velocity draws f rng i vs).2 = rng + vs.length ∧
      ∀ j, j < vs.length →
        (swarmer.generate_velocity draws f rng i vs).1[j]? =
          some (uniform_real draws (rng + j)
            (-|(f.domain (i + j)).2 - (f.domain (i + j)).1|)
            |(f.domain (i + j)).2 - (f.domain (i + j)).1|).1 := by
  induction vs with
  | nil => intro rng i; exact ⟨rfl, fun j hj => absurd hj (by simp)⟩
  | cons v0 vs ih =>
    intro rng i
    obtain ⟨ih1, ih2⟩ := ih (rng + 1) (i + 1)
    constructor
    · show (swarmer.generate_velocity draws f (rng + 1) (i + 1) vs).2 = _
      rw [ih1, List.length_cons]; omega
    · intro j hj
      cases j with
      | zero =>
        simp only [swarmer.generate_velocity, List.getElem?_cons_zero, Nat.add_zero]
      | succ j =>
        have h2 := ih2 j (by simpa using hj)
        have e1 : rng + 1 + j = rng + (j + 1) := by omega
        have e2 : i + 1 + j = i + (j + 1) := by omega
        rw [e1, e2] at h2
        simp only [swarmer.generate_velocity, List.getElem?_cons_succ]
        exact h2

/-- What the body shared by the two constructors draws for component `j`. -/
theorem generate_spec (draws : Nat → ℚ) (f : objective) (n j : Nat) (hj : j < n) :
    (swarmer.generate draws f n).1[j]? =
      some (uniform_real draws j (f.domain j).1 (f.domain j).2).1 ∧
    (swarmer.generate draws f n).2.1[j]? =
      some (uniform_real draws (n + j)
        (-|(f.domain (n + j)).2 - (f.domain (n + j)).1|)
        |(f.domain (n + j)).2 - (f.domain (n + j)).1|).1 := by
  have hlen : j < (List.replicate n (0 : ℚ)).length := by simpa using hj
  obtain ⟨hp1, hp2⟩ := generate_position_spec draws f (List.replicate n 0) 0 0
  obtain ⟨_, hv2⟩ := generate_velocity_spec draws f (List.replicate n 0)
    (swarmer.generate_position draws f 0 0 (List.replicate n 0)).2 n
  constructor
  · show (swarmer.generate_position draws f 0 0 (List.replicate n 0)).1[j]? = _
    rw [hp2 j hlen]
    simp
  · show (swarmer.generate_velocity draws f
      (swarmer.generate_position draws f 0 0 (List.replicate n 0)).2 n
      (List.replicate n 0)).1[j]? = _
    rw [hv2 j hlen, hp1]
    simp

/-- The swarmer that a copy construction appends. -/
theorem copy_fresh {draws : Nat → Nat → ℚ} {f : objective} {h h1 : List swarmer} {s : Nat}
    {proto : swarmer} (hs : h[s]? = some proto)
    (hc : swarmer.copy draws f h s = .ok h1) :
    ∃ fresh : swarmer, h1[h.length]? = some fresh ∧
      fresh.super = (swarmer.generate (draws h.length) f proto.super.length).1 ∧
      fresh.velocity = (swarmer.generate (draws h.length) f proto.super.length).2.1 ∧
      fresh.local_best.1 = ⊤ := by
  unfold swarmer.copy swarmer.deref at hc
  simp only [hs, bind, Except.bind] at hc
  cases hnb : proto.neighbors with
  | none => rw [hnb] at hc; simp [throw, throwThe, MonadExceptOf.throw] at hc
  | some nb =>
    rw [hnb] at hc
    simp only [pure, Except.pure] at hc
    injection hc with hc
    subst hc
    have hget : (h.set s { proto with neighbors := some (h.length :: nb) } ++
        [({ super := (swarmer.generate (draws h.length) f proto.super.length).1,
            velocity := (swarmer.generate (draws h.length) f proto.super.length).2.1,
            leader := s, neighbors := none,
            local_best := (⊤, List.replicate proto.super.length 0),
            rng := (swarmer.generate (draws h.length) f proto.super.length).2.2 } : swarmer)])[
          h.length]? = some
        ({ super := (swarmer.generate (draws h.length) f proto.super.length).1,
           velocity := (swarmer.generate (draws h.length) f proto.super.length).2.1,
           leader := s, neighbors := none,
           local_best := (⊤, List.replicate proto.super.length 0),
           rng := (swarmer.generate (draws h.length) f proto.super.length).2.2 } : swarmer) := by
      rw [List.getElem?_append_right (by simp)]
      simp
    exact ⟨_, hget, rfl, rfl, rfl⟩

theorem move_inv {draws : Nat → Nat → ℚ} {f : objective} {st : swarmer.statics}
    {h h1 : List swarmer} {p : Nat} (hm : swarmer.move draws f st h p = .ok h1) :
    ∃ sp sl sp1 : swarmer, h[p]? = some sp ∧ h[sp.leader]? = some sl ∧ h1 = h.set p sp1 ∧
      sp1.leader = sp.leader ∧ sp1.neighbors = sp.neighbors ∧
      sp1.local_best.1 ≤ sp.local_best.1 := by
  unfold swarmer.move swarmer.deref at hm
  cases hp : h[p]? with
  | none => rw [hp] at hm; simp [bind, Except.bind] at hm
  | some sp =>
    rw [hp] at hm
    simp only [bind, Except.bind] at hm
    cases hl : h[sp.leader]? with
    | none => rw [hl] at hm; simp at hm
    | some sl =>
      rw [hl] at hm
      simp only at hm
      cases hc : f.call (List.zipWith (· + ·) sp.super
          (swarmer.velocity_transform (draws p) st sp.rng sp.velocity sp.super
            sp.local_best.2 sl.local_best.2).1) with
      | error e => rw [hc] at hm; simp at hm
      | ok cost =>
        rw [hc] at hm
        simp only [pure, Except.pure] at hm
        injection hm with hm
        refine ⟨sp, sl, _, rfl, hl, hm.symm, rfl, rfl, ?_⟩
        show (if (cost : WithTop ℚ) < sp.local_best.1 then _ else sp.local_best).1 ≤ _
        split
        · rename_i hlt; exact hlt.le
        · exact le_refl _

theorem set_getElem?_cases {h : List swarmer} {p : Nat} {sp : swarmer} (sp1 : swarmer)
    (hp : h[p]? = some sp) (i : Nat) :
    (h.set p sp1)[i]? = if i = p then some sp1 else h[i]? := by
  have hlt : p < h.length := (List.getElem?_eq_some_iff.mp hp).1
  by_cases hip : i = p
  · subst hip; simp [hlt]
  · rw [List.getElem?_set_ne (Ne.symm hip), if_neg hip]

/-- Rewriting position, velocity, personal best and generator of one swarmer
keeps the swarm well led. -/
theorem set_well_led {h : List swarmer} {L p : Nat} {nb : List Nat} {sp sp1 : swarmer}
    (hw : swarmer.well_led h L nb) (hp : h[p]? = some sp) (hlead : sp1.leader = sp.leader)
    (hnbs : sp1.neighbors = sp.neighbors) : swarmer.well_led (h.set p sp1) L nb := by
  obtain ⟨hall, ⟨sl, hsl, hsll, hsln⟩, hnone, hperm⟩ := hw
  have hget := set_getElem?_cases sp1 hp
  refine ⟨?_, ?_, ?_, ?_⟩
  · intro i q hq
    rw [hget i] at hq
    by_cases hip : i = p
    · rw [if_pos hip] at hq
      injection hq with hq
      rw [← hq, hlead]; exact hall p sp hp
    · rw [if_neg hip] at hq
      exact hall i q hq
  · by_cases hLp : L = p
    · refine ⟨sp1, by rw [hget L, if_pos hLp], ?_, ?_⟩
      · rw [hlead]; exact hall p sp hp
      · rw [hLp, hp] at hsl
        injection hsl with hsl
        rw [hnbs, hsl]; exact hsln
    · exact ⟨sl, by rw [hget L, if_neg hLp]; exact hsl, hsll, hsln⟩
  · intro i q hq hiL
    rw [hget i] at hq
    by_cases hip : i = p
    · rw [if_pos hip] at hq
      injection hq with hq
      rw [← hq, hnbs]
      exact hnone p sp hp (by rw [← hip]; exact hiL)
    · rw [if_neg hip] at hq
      exact hnone i q hq hiL
  · rw [List.length_set]; exact hperm

theorem test_eq {h : List swarmer} {p : Nat} {sp sl : swarmer} (hp : h[p]? = some sp)
    (hl : h[sp.leader]? = some sl) :
    swarmer.test h p = .ok (decide (sp.local_best.1 < sl.local_best.1)) := by
  unfold swarmer.test swarmer.deref
  simp only [hp, hl, bind, Except.bind, pure, Except.pure]

theorem swarmer_update_inv {draws : Nat → Nat → ℚ} {f : objective} {st : swarmer.statics}
    {h h2 : List swarmer} {p : Nat} (hu : swarmer.update draws f st h p = .ok h2) :
    ∃ h1 b, swarmer.move draws f st h p = .ok h1 ∧ swarmer.test h1 p = .ok b ∧
      (b = true → swarmer.lead h1 p = .ok h2) ∧ (b = false → h2 = h1) := by
  unfold swarmer.update at hu
  cases hm : swarmer.move draws f st h p with
  | error e => rw [hm] at hu; simp [bind, Except.bind] at hu
  | ok h1 =>
    rw [hm] at hu
    simp only [bind, Except.bind] at hu
    cases ht : swarmer.test h1 p with
    | error e => rw [ht] at hu; simp at hu
    | ok b =>
      rw [ht] at hu
      simp only at hu
      refine ⟨h1, b, rfl, ht, ?_, ?_⟩
      · intro hb; rw [hb] at hu; simpa using hu
      · intro hb
        rw [hb] at hu
        simp only [pure, Except.pure] at hu
        injection hu with hu
        exact hu.symm

/-- An update that runs to completion keeps the swarm led by a swarmer of least
personal-best cost. -/
theorem update_led_by_best {draws : Nat → Nat → ℚ} {f : objective} {st : swarmer.statics}
    {h h2 : List swarmer} {L p : Nat} {nb : List Nat}
    (hinv : swarmer.led_by_best h L nb) (hu : swarmer.update draws f st h p = .ok h2) :
    ∃ L2, swarmer.led_by_best h2 L2 nb := by
  obtain ⟨hw, hmin⟩ := hinv
  obtain ⟨h1, b, hm, ht, hb1, hb0⟩ := swarmer_update_inv hu
  obtain ⟨sp, sl, sp1, hp, hl, rfl, hlead1, hnbs1, hle1⟩ := move_inv hm
  have hspL : sp.leader = L := hw.1 p sp hp
  rw [hspL] at hl
  have hw1 : swarmer.well_led (h.set p sp1) L nb := set_well_led hw hp hlead1 hnbs1
  have hget := set_getElem?_cases sp1 hp
  have hp1 : (h.set p sp1)[p]? = some sp1 := by rw [hget p, if_pos rfl]
  by_cases hLp : L = p
  · -- the leader updates itself
    have hsl1 : (h.set p sp1)[sp1.leader]? = some sp1 := by
      rw [hlead1, hspL, hLp]; exact hp1
    rw [test_eq hp1 hsl1] at ht
    injection ht with ht
    have hbf : b = false := by rw [← ht]; simp
    rw [hb0 hbf]
    refine ⟨L, hw1, ?_⟩
    intro sl2 q i hsl2 hq
    rw [hLp] at hsl2
    rw [hp1] at hsl2
    injection hsl2 with hsl2
    subst hsl2
    rw [hget i] at hq
    by_cases hip : i = p
    · rw [if_pos hip] at hq
      injection hq with hq
      rw [hq]
    · rw [if_neg hip] at hq
      rw [hLp, hp] at hl
      injection hl with hl
      subst hl
      exact le_trans hle1 (hmin sp q i (by rw [hLp]; exact hp) hq)
  · have hsl1 : (h.set p sp1)[sp1.leader]? = some sl := by
      rw [hlead1, hspL, hget L, if_neg hLp]; exact hl
    rw [test_eq hp1 hsl1] at ht
    injection ht with ht
    by_cases hlt : sp1.local_best.1 < sl.local_best.1
    · -- promotion
      have hbt : b = true := by rw [← ht]; simp [hlt]
      have hld := hb1 hbt
      have hsln : sl.neighbors = some nb := by
        obtain ⟨_, ⟨q, hq, _, hqn⟩, _, _⟩ := hw
        rw [hl] at hq
        injection hq with hq
        rw [hq]; exact hqn
      obtain ⟨h3, h3ok, hchar⟩ := lead_ok hp1 hsl1 hsln
      rw [hld] at h3ok
      injection h3ok with h3ok
      subst h3ok
      refine ⟨p, lead_well_led hw1 hld, ?_⟩
      intro sl2 q i hsl2 hq
      rw [hchar p, hp1] at hsl2
      injection hsl2 with hsl2
      rw [hchar i] at hq
      have hsl2b : sl2.local_best = sp1.local_best := by rw [← hsl2]; rfl
      rw [hsl2b]
      rw [hget i] at hq
      by_cases hip : i = p
      · rw [if_pos hip] at hq
        simp only [Option.map_some'] at hq
        injection hq with hq
        rw [← hq]
        exact le_refl _
      · rw [if_neg hip] at hq
        cases hi : h[i]? with
        | none => rw [hi] at hq; simp at hq
        | some q0 =>
          rw [hi] at hq
          simp only [Option.map_some'] at hq
          injection hq with hq
          have hqb : q.local_best = q0.local_best := by rw [← hq]; rfl
          rw [hqb]
          exact le_trans hlt.le (hmin sl q0 i hl hi)
    · have hbf : b = false := by rw [← ht]; simp [hlt]
      rw [hb0 hbf]
      refine ⟨L, hw1, ?_⟩
      intro sl2 q i hsl2 hq
      rw [hget L, if_neg hLp, hl] at hsl2
      injection hsl2 with hsl2
      subst hsl2
      rw [hget i] at hq
      by_cases hip : i = p
      · rw [if_pos hip] at hq
        injection hq with hq
        rw [← hq]
        exact not_lt.mp hlt
      · rw [if_neg hip] at hq
        exact hmin sl q i hl hq

theorem atomic_run_led_by_best {draws : Nat → Nat → ℚ} {f : objective} {st : swarmer.statics}
    {h0 h : List swarmer} {L : Nat} {nb : List Nat}
    (hinv : swarmer.led_by_best h0 L nb) (hrun : swarmer.AtomicRun draws f st h0 h) :
    ∃ L2, swarmer.led_by_best h L2 nb := by
  induction hrun with
  | start => exact ⟨L, hinv⟩
  | update _ hu ih =>
    obtain ⟨L1, h1⟩ := ih
    exact update_led_by_best h1 hu

theorem built_costs_top {draws : Nat → Nat → ℚ} {f : objective} {n : Nat} {h : List swarmer}
    (hb : swarmer.Built draws f n h) : ∀ q ∈ h, q.local_best.1 = ⊤ := by
  induction hb with
  | proto =>
    intro q hq
    simp only [List.mem_singleton] at hq
    rw [hq]; rfl
  | @copy h h1 hb0 hc ih =>
    obtain ⟨nb, _, ⟨q0, hq0, _, hq0n⟩, _, _⟩ := built_well_led hb0
    obtain ⟨fresh, hf, _, _, htop⟩ := copy_fresh hq0 hc
    obtain ⟨fresh1, _, _, rfl⟩ := copy_ok hq0 hq0n hc
    have hlen : (h.set 0 { q0 with neighbors := some (h.length :: nb) }).length = h.length := by
      simp
    rw [List.getElem?_append_right (by rw [hlen]), hlen] at hf
    simp at hf
    subst hf
    intro q hq
    rcases List.mem_append.mp hq with hq | hq
    · rcases List.mem_or_eq_of_mem_set hq with hq | hq
      · exact ih q hq
      · rw [hq]
        exact ih q0 (List.getElem?_mem hq0)
    · simp only [List.mem_singleton] at hq
      rw [hq]; exact htop

theorem built_led_by_best {draws : Nat → Nat → ℚ} {f : objective} {n : Nat} {h : List swarmer}
    (hb : swarmer.Built draws f n h) : ∃ nb, swarmer.led_by_best h 0 nb := by
  obtain ⟨nb, hw⟩ := built_well_led hb
  refine ⟨nb, hw, ?_⟩
  intro sl q i hsl hq
  rw [built_costs_top hb sl (List.getElem?_mem hsl), built_costs_top hb q (List.getElem?_mem hq)]

theorem race_atomic1_ok :
    swarmer.update race_draws sphere swarmer.statics.default race_heap 1 = .ok race_atomic1 :=
  except_eq_ok_getD [] (by decide!)

theorem race_atomic2_ok :
    swarmer.update race_draws sphere swarmer.statics.default race_atomic1 0 = .ok race_atomic2 :=
  except_eq_ok_getD [] (by decide!)

theorem race_built : swarmer.Built race_draws sphere 1 race_heap :=
  swarmer.Built.copy swarmer.Built.proto race_heap_ok

theorem min_element_none {l : List ℚ} (h : min_element l = none) : l = [] := by
  cases l with
  | nil => rfl
  | cons a l =>
    unfold min_element at h
    cases hm : min_element l with
    | none => rw [hm] at h; simp at h
    | some j => rw [hm] at h; simp only at h; split at h <;> simp at h

theorem min_element_spec (l : List ℚ) :
    ∀ b, min_element l = some b →
      b < l.length ∧ ∀ (j : Nat) (fj : ℚ), l[j]? = some fj → l.getD b 0 ≤ fj := by
  induction l with
  | nil => intro b h; simp [min_element] at h
  | cons a l ih =>
    intro b h
    unfold min_element at h
    cases hm : min_element l with
    | none =>
      rw [hm] at h
      simp only [Option.some.injEq] at h
      subst h
      have hl := min_element_none hm
      subst hl
      refine ⟨by simp, ?_⟩
      intro j fj hj
      cases j with
      | zero => simp at hj; simp [hj]
      | succ j => simp at hj
    | some j0 =>
      rw [hm] at h
      simp only at h
      obtain ⟨hlt, hmin⟩ := ih j0 hm
      by_cases hc : l.getD j0 0 < a
      · rw [if_pos hc] at h
        simp only [Option.some.injEq] at h
        subst h
        refine ⟨by simp; omega, ?_⟩
        intro j fj hj
        have e : (a :: l).getD (j0 + 1) 0 = l.getD j0 0 := by simp
        rw [e]
        cases j with
        | zero => simp at hj; rw [← hj]; exact hc.le
        | succ j => simp at hj; exact hmin j fj hj
      · rw [if_neg hc] at h
        simp only [Option.some.injEq] at h
        subst h
        refine ⟨by simp, ?_⟩
        intro j fj hj
        have e : (a :: l).getD 0 0 = a := by simp
        rw [e]
        cases j with
        | zero => simp at hj; rw [hj]
        | succ j => simp at hj; exact le_trans (not_lt.mp hc) (hmin j fj hj)

theorem min_element_some {l : List ℚ} (h : l ≠ []) : ∃ b, min_element l = some b := by
  cases hm : min_element l with
  | none => exact absurd (min_element_none hm) h
  | some b => exact ⟨b, rfl⟩

theorem getD_eq_of_lt {l : List ℚ} {b : Nat} (h : b < l.length) : l[b]? = some (l.getD b 0) := by
  rw [List.getD_eq_getElem?_getD, List.getElem?_eq_getElem h]
  rfl

theorem batch_velocity_transform_length (draws : Nat → ℚ) (s : batch) (vs : List ℚ) :
    ∀ (rng : Nat) (pk xj gk : List ℚ),
      (batch.velocity_transform draws s rng vs pk xj gk).1.length = vs.length := by
  induction vs with
  | nil => intros; rfl
  | cons v vs ih => intro rng pk xj gk; simp [batch.velocity_transform, ih]

theorem moves_spec (draws : Nat → ℚ) (s : batch) (xs : List (List ℚ)) :
    ∀ (rng : Nat) (vs ps : List (List ℚ)), xs.length = vs.length → xs.length = ps.length →
      ∃ m, batch.moves draws s rng xs vs ps = .ok m ∧
        m.1.length = xs.length ∧ m.2.1.length = xs.length ∧
        ∀ (j : Nat) (xj vj : List ℚ), xs[j]? = some xj → vs[j]? = some vj →
          vj.length = xj.length →
          ∃ xj1 vj1, m.1[j]? = some xj1 ∧ m.2.1[j]? = some vj1 ∧
            xj1.length = xj.length ∧ vj1.length = xj.length := by
  induction xs with
  | nil =>
    intro rng vs ps hv _
    have hvs : vs = [] := List.length_eq_zero.mp hv.symm
    subst hvs
    exact ⟨_, rfl, rfl, rfl, fun j xj vj hx => by simp at hx⟩
  | cons xi xs ih =>
    intro rng vs ps hv hp
    cases vs with
    | nil => simp at hv
    | cons vi vs =>
      cases ps with
      | nil => simp at hp
      | cons pi ps =>
        obtain ⟨m, hm, hm1, hm2, hall⟩ := ih
          (batch.velocity_transform draws s rng vi pi xi s.g).2 vs ps
          (by simpa using hv) (by simpa using hp)
        refine ⟨(List.zipWith (· + ·) xi (batch.velocity_transform draws s rng vi pi xi s.g).1
            :: m.1, (batch.velocity_transform draws s rng vi pi xi s.g).1 :: m.2.1, m.2.2),
          by simp only [batch.moves, hm, bind, Except.bind, pure, Except.pure],
          by simp [hm1], by simp [hm2], ?_⟩
        intro j xj vj hx hvj hlen
        cases j with
        | zero =>
          simp only [List.getElem?_cons_zero, Option.some.injEq] at hx hvj
          subst hx
          subst hvj
          refine ⟨List.zipWith (· + ·) xi (batch.velocity_transform draws s rng vi pi xi s.g).1,
            (batch.velocity_transform draws s rng vi pi xi s.g).1, by simp, by simp, ?_, ?_⟩
          · simp [batch_velocity_transform_length, hlen]
          · simp [batch_velocity_transform_length, hlen]
        | succ j =>
          simp only [List.getElem?_cons_succ] at hx hvj
          obtain ⟨xj1, vj1, h1, h2, h3, h4⟩ := hall j xj vj hx hvj hlen
          exact ⟨xj1, vj1, by simpa using h1, by simpa using h2, h3, h4⟩

theorem evaluate_spec (cost : List ℚ → ℚ) (xs : List (List ℚ)) :
    ∀ (fs : List ℚ) (ps : List (List ℚ)), xs.length = fs.length → xs.length = ps.length →
      ∃ e, batch.evaluate cost xs fs ps = .ok e ∧
        e.1.length = xs.length ∧ e.2.length = xs.length ∧
        ∀ (j : Nat) (xj pj : List ℚ) (fj : ℚ), xs[j]? = some xj → fs[j]? = some fj →
          ps[j]? = some pj →
          e.1[j]? = some (if cost xj < fj then cost xj else fj) ∧
          e.2[j]? = some (if cost xj < fj then xj ++ pj.drop xj.length else pj) := by
  induction xs with
  | nil =>
    intro fs ps hf hp
    have hfs : fs = [] := List.length_eq_zero.mp hf.symm
    have hps : ps = [] := List.length_eq_zero.mp hp.symm
    subst hfs
    subst hps
    exact ⟨_, rfl, rfl, rfl, fun j xj pj fj hx => by simp at hx⟩
  | cons xk xs ih =>
    intro fs ps hf hp
    cases fs with
    | nil => simp at hf
    | cons fj0 fs =>
      cases ps with
      | nil => simp at hp
      | cons pk ps =>
        obtain ⟨e, he, he1, he2, hall⟩ := ih fs ps (by simpa using hf) (by simpa using hp)
        by_cases hc : cost xk < fj0
        · refine ⟨(cost xk :: e.1, (xk ++ pk.drop xk.length) :: e.2), ?_, by simp [he1],
            by simp [he2], ?_⟩
          · simp only [batch.evaluate, he, bind, Except.bind, hc, if_true, pure, Except.pure]
          · intro j xj pj fj hx hfj hpj
            cases j with
            | zero =>
              simp only [List.getElem?_cons_zero, Option.some.injEq] at hx hfj hpj
              subst hx; subst hfj; subst hpj
              simp [hc]
            | succ j =>
              simp only [List.getElem?_cons_succ] at hx hfj hpj
              simpa using hall j xj pj fj hx hfj hpj
        · refine ⟨(fj0 :: e.1, pk :: e.2), ?_, by simp [he1], by simp [he2], ?_⟩
          · simp only [batch.evaluate, he, bind, Except.bind, hc, if_false, pure, Except.pure]
          · intro j xj pj fj hx hfj hpj
            cases j with
            | zero =>
              simp only [List.getElem?_cons_zero, Option.some.injEq] at hx hfj hpj
              subst hx; subst hfj; subst hpj
              simp [hc]
            | succ j =>
              simp only [List.getElem?_cons_succ] at hx hfj hpj
              simpa using hall j xj pj fj hx hfj hpj

/-- A turn of the loop of `optimize` has the closed form, once the loop over the
particles, the evaluation and `std::min_element` have given their results. -/
theorem sweep_eq {draws : Nat → ℚ} {cost : List ℚ → ℚ} {s : batch}
    {m : List (List ℚ) × List (List ℚ) × Nat} {e : List ℚ × List (List ℚ)} {b : Nat}
    (hm : batch.moves draws s s.rng s.x s.v s.p = .ok m)
    (he : batch.evaluate cost m.1 s.f s.p = .ok e) (hb : min_element e.1 = some b) :
    batch.sweep draws cost s = .ok (s.sweep_result m e b) := by
  unfold batch.sweep batch.sweep_result
  simp only [hm, he, hb, bind, Except.bind]
  by_cases h1 : e.1.getD b 0 < s.fg
  · by_cases h2 : s.k + (m.1.length : Int) > s.kmax ∨ e.1.getD b 0 < 1 / 10
    ·
      simp only [h1, h2, decide_True, decide_False, if_true, if_false, Bool.not_true,
        Bool.not_false, Bool.true_and, Bool.false_and, Bool.and_self, Bool.false_eq_true, pure, Except.pure]
    · by_cases h3 : (0 : Int) = s.d
      ·
        simp only [h1, h2, h3, decide_True, decide_False, if_true, if_false, Bool.not_true,
          Bool.not_false, Bool.true_and, Bool.false_and, Bool.and_self, Bool.false_eq_true, pure, Except.pure]
      ·
        simp only [h1, h2, h3, decide_True, decide_False, if_true, if_false, Bool.not_true,
          Bool.not_false, Bool.true_and, Bool.false_and, Bool.and_self, Bool.false_eq_true, pure, Except.pure]
  · by_cases h2 : s.k + (m.1.length : Int) > s.kmax ∨ s.fg < 1 / 10
    ·
      simp only [h1, h2, decide_True, decide_False, if_true, if_false, Bool.not_true,
        Bool.not_false, Bool.true_and, Bool.false_and, Bool.and_self, Bool.false_eq_true, pure, Except.pure]
    · by_cases h3 : s.t + 1 = s.d
      ·
        simp only [h1, h2, h3, decide_True, decide_False, if_true, if_false, Bool.not_true,
          Bool.not_false, Bool.true_and, Bool.false_and, Bool.and_self, Bool.false_eq_true, pure, Except.pure]
      ·
        simp only [h1, h2, h3, decide_True, decide_False, if_true, if_false, Bool.not_true,
          Bool.not_false, Bool.true_and, Bool.false_and, Bool.and_self, Bool.false_eq_true, pure, Except.pure]

/-- A turn of the loop of `optimize` that completes has the closed form. -/
theorem sweep_inv {draws : Nat → ℚ} {cost : List ℚ → ℚ} {s : batch} {r : batch × Bool}
    (h : batch.sweep draws cost s = .ok r) :
    ∃ m e b, batch.moves draws s s.rng s.x s.v s.p = .ok m ∧
      batch.evaluate cost m.1 s.f s.p = .ok e ∧ min_element e.1 = some b ∧
      r = s.sweep_result m e b := by
  cases hm : batch.moves draws s s.rng s.x s.v s.p with
  | error err =>
    unfold batch.sweep at h
    rw [hm] at h
    simp [bind, Except.bind] at h
  | ok m =>
    cases he : batch.evaluate cost m.1 s.f s.p with
    | error err =>
      unfold batch.sweep at h
      rw [hm] at h
      simp only [bind, Except.bind] at h
      rw [he] at h
      simp at h
    | ok e =>
      cases hb : min_element e.1 with
      | none =>
        unfold batch.sweep at h
        rw [hm] at h
        simp only [bind, Except.bind] at h
        rw [he] at h
        simp only at h
        rw [hb] at h
        simp [throw, throwThe, MonadExceptOf.throw] at h
      | some b =>
        rw [sweep_eq hm he hb] at h
        cases h
        exact ⟨m, e, b, rfl, he, hb, rfl⟩

theorem list_getD_of_getElem? {α : Type} {l : List α} {j : Nat} {a d : α} (h : l[j]? = some a) :
    l.getD j d = a := by
  rw [List.getD_eq_getElem?_getD, h]
  rfl

theorem getElem?_of_lt {α : Type} {l : List α} {j : Nat} (h : j < l.length) :
    ∃ a, l[j]? = some a :=
  ⟨_, List.getElem?_eq_getElem h⟩

theorem lt_of_getElem? {α : Type} {l : List α} {j : Nat} {a : α} (h : l[j]? = some a) :
    j < l.length := by
  by_contra hc
  rw [List.getElem?_eq_none (not_lt.mp hc)] at h
  cases h

theorem generate_n_length (draws : Nat → ℚ) (lo hi : ℚ) (n : Nat) :
    ∀ rng, (batch.generate_n draws lo hi rng n).1.length = n := by
  induction n with
  | zero => intro rng; rfl
  | succ n ih => intro rng; simp [batch.generate_n, ih]

theorem generate_all_spec (draws : Nat → ℚ) (lo hi : ℚ) (N P : Nat) :
    ∀ rng, (batch.generate_all draws lo hi N rng P).1.length = P ∧
      ∀ (j : Nat) (xj : List ℚ), (batch.generate_all draws lo hi N rng P).1[j]? = some xj →
        xj.length = N := by
  induction P with
  | zero => intro rng; exact ⟨rfl, fun j xj h => by simp [batch.generate_all] at h⟩
  | succ P ih =>
    intro rng
    refine ⟨by simp [batch.generate_all, (ih _).1], ?_⟩
    intro j xj h
    cases j with
    | zero =>
      simp only [batch.generate_all, List.getElem?_cons_zero, Option.some.injEq] at h
      rw [← h]
      exact generate_n_length draws lo hi N rng
    | succ j =>
      simp only [batch.generate_all, List.getElem?_cons_succ] at h
      exact (ih _).2 j xj h

/-- What `initialize` leaves: the closed form of its result, given the index
found by `std::min_element`. -/
theorem batch_initialise_inv {P N : Nat} {draws : Nat → ℚ} {cost : List ℚ → ℚ} {s : batch}
    (h : batch.initialise P N draws cost = .ok s) :
    ∃ b, min_element ((batch.generate_all draws (-600) 600 N 0 P).1.map cost) = some b ∧
      s.x = (batch.generate_all draws (-600) 600 N 0 P).1 ∧
      s.v = (batch.generate_all draws (-600) 600 N
        (batch.generate_all draws (-600) 600 N 0 P).2 P).1 ∧
      s.p = s.x ∧ s.f = s.x.map cost ∧ s.g = s.x.getD b [] ∧ s.fg = s.f.getD b 0 ∧
      s.t = 0 ∧ s.d = 200 ∧ s.w = 1 ∧ s.wd = 19 / 20 ∧ s.vmax = 600 ∧ s.vd = 19 / 20 ∧
      s.k = P ∧ s.kmax = 640000 ∧ s.c1 = 2 ∧ s.c2 = 2 := by
  unfold batch.initialise at h
  simp only at h
  cases hb : min_element ((batch.generate_all draws (-600) 600 N 0 P).1.map cost) with
  | none => rw [hb] at h; cases h
  | some b =>
    rw [hb] at h
    simp only [Except.ok.injEq] at h
    subst h
    refine ⟨b, rfl, rfl, ?_, rfl, rfl, rfl, rfl, rfl, rfl, rfl, ?_, ?_, ?_, ?_, rfl, rfl, rfl⟩
    · norm_num
    · norm_num
    · norm_num
    · norm_num
    · simp [(generate_all_spec draws (-600) 600 N P 0).1]

theorem batch_initialise_ok {P N : Nat} (draws : Nat → ℚ) (cost : List ℚ → ℚ) (hP : 0 < P) :
    ∃ s, batch.initialise P N draws cost = .ok s := by
  have hne : (batch.generate_all draws (-600) 600 N 0 P).1.map cost ≠ [] := by
    intro h
    have := congrArg List.length h
    simp [(generate_all_spec draws (-600) 600 N P 0).1] at this
    omega
  obtain ⟨b, hb⟩ := min_element_some hne
  unfold batch.initialise
  simp only [hb]
  exact ⟨_, rfl⟩

theorem batch_initialise_sized {P N : Nat} {draws : Nat → ℚ} {cost : List ℚ → ℚ} {s : batch}
    (h : batch.initialise P N draws cost = .ok s) : s.sized := by
  obtain ⟨b, _, hx, hv, hp, hf, _⟩ := batch_initialise_inv h
  refine ⟨by rw [hf]; simp, ?_, by rw [hf, hp]; simp, ?_⟩
  · rw [hf, hv, hx]
    simp [(generate_all_spec draws (-600) 600 N P _).1]
  · intro j xj vj pj h1 h2 h3
    rw [hp] at h3
    rw [hx] at h1 h3
    rw [hv] at h2
    rw [(generate_all_spec draws (-600) 600 N P _).2 j xj h1,
      (generate_all_spec draws (-600) 600 N P _).2 j vj h2,
      (generate_all_spec draws (-600) 600 N P _).2 j pj h3]
    exact ⟨rfl, rfl⟩

theorem batch_initialise_best_inv {P N : Nat} {draws : Nat → ℚ} {cost : List ℚ → ℚ} {s : batch}
    (h : batch.initialise P N draws cost = .ok s) : s.best_inv cost := by
  obtain ⟨b, hb, hx, hv, hp, hf, hg, hfg, _⟩ := batch_initialise_inv h
  rw [← hx, ← hf] at hb
  obtain ⟨hlt, hmin⟩ := min_element_spec s.f b hb
  refine ⟨?_, ?_, b, ?_, ?_⟩
  · intro j pj fj h1 h2
    rw [hp] at h1
    rw [hf, List.getElem?_map, h1] at h2
    simpa using h2
  · intro j fj h1
    rw [hfg]
    exact hmin j fj h1
  · rw [hfg]
    exact getD_eq_of_lt hlt
  · rw [hp, hg]
    have hlt2 : b < s.x.length := by rw [hf] at hlt; simpa using hlt
    obtain ⟨a, ha⟩ := @getElem?_of_lt _ s.x b hlt2
    rw [ha, list_getD_of_getElem? ha]

theorem sweep_ok (draws : Nat → ℚ) (cost : List ℚ → ℚ) {s : batch} (hs : s.sized)
    (hne : s.f ≠ []) : ∃ r, batch.sweep draws cost s = .ok r := by
  obtain ⟨h1, h2, h3, _⟩ := hs
  obtain ⟨m, hm, hm1, _, _⟩ := moves_spec draws s s.x s.rng s.v s.p (by omega) (by omega)
  obtain ⟨e, he, he1, _, _⟩ := evaluate_spec cost m.1 s.f s.p (by omega) (by omega)
  have hne2 : e.1 ≠ [] := by
    intro h
    have h4 := congrArg List.length h
    have h5 : s.f.length ≠ 0 := fun h6 => hne (List.length_eq_zero.mp h6)
    simp only [List.length_nil] at h4
    omega
  obtain ⟨b, hb⟩ := min_element_some hne2
  exact ⟨_, sweep_eq hm he hb⟩

theorem sweep_sized {draws : Nat → ℚ} {cost : List ℚ → ℚ} {s : batch} {r : batch × Bool}
    (hs : s.sized) (h : batch.sweep draws cost s = .ok r) : r.1.sized := by
  obtain ⟨m, e, b, hm, he, hb, rfl⟩ := sweep_inv h
  obtain ⟨h1, h2, h3, h4⟩ := hs
  obtain ⟨m1, hm1, hml, hmv, hmall⟩ :=
    moves_spec draws s s.x s.rng s.v s.p (by omega) (by omega)
  rw [hm] at hm1
  cases hm1
  obtain ⟨e1, he1, hel, hep, heall⟩ := evaluate_spec cost m.1 s.f s.p (by omega) (by omega)
  rw [he] at he1
  cases he1
  refine ⟨?_, ?_, ?_, ?_⟩
  · show m.1.length = e.1.length
    omega
  · show m.2.1.length = e.1.length
    omega
  · show e.2.length = e.1.length
    omega
  · intro j xj1 vj1 pj1 hx hv hp
    change m.1[j]? = some xj1 at hx
    change m.2.1[j]? = some vj1 at hv
    change e.2[j]? = some pj1 at hp
    have hj : j < m.1.length := lt_of_getElem? hx
    obtain ⟨xj, hxj⟩ := @getElem?_of_lt _ s.x j (by omega)
    obtain ⟨vj, hvj⟩ := @getElem?_of_lt _ s.v j (by omega)
    obtain ⟨pj, hpj⟩ := @getElem?_of_lt _ s.p j (by omega)
    obtain ⟨fj, hfj⟩ := @getElem?_of_lt _ s.f j (by omega)
    obtain ⟨hvl, hpl⟩ := h4 j xj vj pj hxj hvj hpj
    obtain ⟨xj2, vj2, hx2, hv2, hxl2, hvl2⟩ := hmall j xj vj hxj hvj hvl
    rw [hx] at hx2
    rw [hv] at hv2
    cases hx2
    cases hv2
    obtain ⟨_, hp2⟩ := heall j xj1 pj fj hx hfj hpj
    rw [hp] at hp2
    simp only [Option.some.injEq] at hp2
    refine ⟨by omega, ?_⟩
    rw [hp2]
    split
    · simp; omega
    · omega

theorem sweep_best_inv {draws : Nat → ℚ} {cost : List ℚ → ℚ} {s : batch} {r : batch × Bool}
    (hs : s.sized) (hi : s.best_inv cost) (h : batch.sweep draws cost s = .ok r) :
    r.1.best_inv cost := by
  obtain ⟨m, e, b, hm, he, hb, rfl⟩ := sweep_inv h
  obtain ⟨h1, h2, h3, h4⟩ := hs
  obtain ⟨hcost, hleast, b0, hb0f, hb0p⟩ := hi
  obtain ⟨m1, hm1, hml, hmv, hmall⟩ :=
    moves_spec draws s s.x s.rng s.v s.p (by omega) (by omega)
  rw [hm] at hm1
  cases hm1
  obtain ⟨e1, he1, hel, hep, heall⟩ := evaluate_spec cost m.1 s.f s.p (by omega) (by omega)
  rw [he] at he1
  cases he1
  obtain ⟨hblt, hbmin⟩ := min_element_spec e.1 b hb
  -- the entries of one particle before and after the turn
  have hrow : ∀ j, j < s.f.length → ∃ (xj1 pj : List ℚ) (fj : ℚ),
      m.1[j]? = some xj1 ∧ s.p[j]? = some pj ∧ s.f[j]? = some fj ∧ pj.length = xj1.length ∧
      e.1[j]? = some (if cost xj1 < fj then cost xj1 else fj) ∧
      e.2[j]? = some (if cost xj1 < fj then xj1 else pj) := by
    intro j hj
    obtain ⟨xj, hxj⟩ := @getElem?_of_lt _ s.x j (by omega)
    obtain ⟨vj, hvj⟩ := @getElem?_of_lt _ s.v j (by omega)
    obtain ⟨pj, hpj⟩ := @getElem?_of_lt _ s.p j (by omega)
    obtain ⟨fj, hfj⟩ := @getElem?_of_lt _ s.f j (by omega)
    obtain ⟨hvl, hpl⟩ := h4 j xj vj pj hxj hvj hpj
    obtain ⟨xj1, vj1, hx1, hv1, hxl1, hvl1⟩ := hmall j xj vj hxj hvj hvl
    obtain ⟨hf2, hp2⟩ := heall j xj1 pj fj hx1 hfj hpj
    refine ⟨xj1, pj, fj, hx1, hpj, hfj, by omega, hf2, ?_⟩
    rw [hp2]
    have hd : pj.drop xj1.length = [] := List.drop_eq_nil_of_le (by omega)
    rw [hd, List.append_nil]
  refine ⟨?_, ?_, ?_⟩
  · intro j pj1 fj1 hp hf
    change e.2[j]? = some pj1 at hp
    change e.1[j]? = some fj1 at hf
    have hj : j < e.1.length := lt_of_getElem? hf
    obtain ⟨xj1, pj, fj, hx1, hpj, hfj, _, hf2, hp2⟩ := hrow j (by omega)
    rw [hf] at hf2
    rw [hp] at hp2
    simp only [Option.some.injEq] at hf2 hp2
    rw [hf2, hp2]
    split
    · rfl
    · exact hcost j pj fj hpj hfj
  · intro j fj1 hf
    change e.1[j]? = some fj1 at hf
    show (if decide (e.1.getD b 0 < s.fg) = true then e.1.getD b 0 else s.fg) ≤ fj1
    by_cases hc : e.1.getD b 0 < s.fg
    · simp only [hc, decide_True, if_true]
      exact hbmin j fj1 hf
    · simp only [hc, decide_False, Bool.false_eq_true, if_false]
      exact le_trans (not_lt.mp hc) (hbmin j fj1 hf)
  · show ∃ b1 : Nat,
      e.1[b1]? = some (if decide (e.1.getD b 0 < s.fg) = true then e.1.getD b 0 else s.fg) ∧
      e.2[b1]? = some (if decide (e.1.getD b 0 < s.fg) = true then m.1.getD b [] else s.g)
    by_cases hc : e.1.getD b 0 < s.fg
    · simp only [hc, decide_True, if_true]
      refine ⟨b, getD_eq_of_lt hblt, ?_⟩
      obtain ⟨xj1, pj, fj, hx1, hpj, hfj, _, hf2, hp2⟩ := hrow b (by omega)
      rw [list_getD_of_getElem? hf2] at hc
      rw [hp2, list_getD_of_getElem? hx1]
      have hlt : cost xj1 < fj := by
        by_contra hn
        rw [if_neg hn] at hc
        exact absurd (hleast b fj hfj) (not_le.mpr hc)
      rw [if_pos hlt]
    · simp only [hc, decide_False, Bool.false_eq_true, if_false]
      have hb0 : b0 < s.f.length := lt_of_getElem? hb0f
      obtain ⟨xj1, pj, fj, hx1, hpj, hfj, _, hf2, hp2⟩ := hrow b0 hb0
      rw [hb0f] at hfj
      rw [hb0p] at hpj
      cases hfj
      cases hpj
      have hn : ¬ cost xj1 < s.fg := by
        intro hlt
        rw [if_pos hlt] at hf2
        exact hc (lt_of_le_of_lt (hbmin b0 _ hf2) hlt)
      rw [if_neg hn] at hf2 hp2
      exact ⟨b0, hf2, hp2⟩

theorem swept_sized {P N : Nat} {draws : Nat → ℚ} {cost : List ℚ → ℚ} {s : batch}
    (h : batch.Swept P N draws cost s) : s.sized := by
  induction h with
  | init h0 => exact batch_initialise_sized h0
  | sweep _ hstep ih => exact sweep_sized ih hstep

theorem swept_best_inv {P N : Nat} {draws : Nat → ℚ} {cost : List ℚ → ℚ} {s : batch}
    (h : batch.Swept P N draws cost s) : s.best_inv cost := by
  induction h with
  | init h0 => exact batch_initialise_best_inv h0
  | sweep hprev hstep ih => exact sweep_best_inv (swept_sized hprev) ih hstep

theorem generate_n_const {draws : Nat → ℚ} (lo hi q : ℚ) (n : Nat) :
    ∀ rng, (∀ i, rng ≤ i → i < rng + n → draws i = q) →
      batch.generate_n draws lo hi rng n = (List.replicate n (q * (hi - lo) + lo), rng + n) := by
  induction n with
  | zero => intro rng _; rfl
  | succ n ih =>
    intro rng h
    have h1 := ih (rng + 1) (fun i hi1 hi2 => h i (by omega) (by omega))
    simp only [batch.generate_n, uniform_real, h1, h rng (le_refl _) (by omega),
      List.replicate_succ]
    exact Prod.ext rfl (by show rng + 1 + n = rng + (n + 1); omega)

theorem generate_all_const {draws : Nat → ℚ} (lo hi q : ℚ) (N P : Nat) :
    ∀ rng, (∀ i, rng ≤ i → i < rng + P * N → draws i = q) →
      batch.generate_all draws lo hi N rng P =
        (List.replicate P (List.replicate N (q * (hi - lo) + lo)), rng + P * N) := by
  induction P with
  | zero => intro rng _; simp [batch.generate_all]
  | succ P ih =>
    intro rng h
    have hmul : (P + 1) * N = P * N + N := Nat.succ_mul P N
    have h0 := generate_n_const lo hi q N rng (fun i hi1 hi2 => h i hi1 (by omega))
    have h1 := ih (rng + N) (fun i hi1 hi2 => h i (by omega) (by omega))
    simp only [batch.generate_all, h0, h1, List.replicate_succ]
    exact Prod.ext rfl (by show rng + N + P * N = rng + (P + 1) * N; omega)

theorem min_element_replicate (c : ℚ) (n : Nat) :
    min_element (List.replicate (n + 1) c) = some 0 := by
  induction n with
  | zero => rfl
  | succ n ih =>
    rw [List.replicate_succ]
    unfold min_element
    rw [ih]
    simp

theorem batch_velocity_transform_frozen (draws : Nat → ℚ) {s : batch} (h : 0 ≤ s.vmax)
    (a : ℚ) (n : Nat) :
    ∀ rng, (batch.velocity_transform draws s rng (List.replicate n 0) (List.replicate n a)
      (List.replicate n a) (List.replicate n a)).1 = List.replicate n 0 := by
  induction n with
  | zero => intro rng; rfl
  | succ n ih =>
    intro rng
    simp only [List.replicate_succ, batch.velocity_transform, List.headD_cons, List.tail_cons,
      ih, sub_self, mul_zero, add_zero]
    rw [min_eq_right h, max_eq_right (neg_nonpos.mpr h)]

theorem zipWith_add_replicate (a : ℚ) (n : Nat) :
    List.zipWith (· + ·) (List.replicate n a) (List.replicate n (0 : ℚ)) = List.replicate n a := by
  induction n with
  | zero => rfl
  | succ n ih => simp only [List.replicate_succ, List.zipWith_cons_cons, ih, add_zero]

theorem moves_frozen (draws : Nat → ℚ) {s : batch} (h : 0 ≤ s.vmax) {N : Nat} {a : ℚ}
    (hg : s.g = List.replicate N a) (P : Nat) :
    ∀ rng, ∃ rng1, batch.moves draws s rng (List.replicate P (List.replicate N a))
      (List.replicate P (List.replicate N 0)) (List.replicate P (List.replicate N a)) =
        .ok (List.replicate P (List.replicate N a), List.replicate P (List.replicate N 0), rng1) := by
  induction P with
  | zero => intro rng; exact ⟨rng, rfl⟩
  | succ P ih =>
    intro rng
    obtain ⟨rng1, h1⟩ := ih (batch.velocity_transform draws s rng (List.replicate N 0)
      (List.replicate N a) (List.replicate N a) (List.replicate N a)).2
    refine ⟨rng1, ?_⟩
    simp only [List.replicate_succ, batch.moves, hg, h1, bind, Except.bind, pure, Except.pure,
      batch_velocity_transform_frozen draws h a N rng, zipWith_add_replicate]

theorem evaluate_frozen (cost : List ℚ → ℚ) (x0 : List ℚ) (P : Nat) :
    batch.evaluate cost (List.replicate P x0) (List.replicate P (cost x0))
      (List.replicate P x0) = .ok (List.replicate P (cost x0), List.replicate P x0) := by
  induction P with
  | zero => rfl
  | succ P ih =>
    simp only [List.replicate_succ, batch.evaluate, ih, bind, Except.bind, lt_irrefl, if_false,
      pure, Except.pure]

/-- One turn of the loop of `optimize` on a stagnant swarm that has evaluations
left: nothing moves, the counter `t` goes up by one, and the decay is applied
exactly when the new count is `d`; the count is left as it is. -/
theorem sweep_frozen (draws : Nat → ℚ) {cost : List ℚ → ℚ} {P N : Nat} {a : ℚ} {s : batch}
    (hs : s.frozen P N a cost) (hP : 0 < P) (hk : s.k + (P : Int) ≤ s.kmax)
    (hc : 1 / 10 ≤ cost (List.replicate N a)) :
    ∃ s1, batch.sweep draws cost s = .ok (s1, false) ∧ s1.frozen P N a cost ∧
      s1.t = s.t + 1 ∧ s1.k = s.k + P ∧ s1.d = s.d ∧ s1.wd = s.wd ∧ s1.vd = s.vd ∧
      s1.kmax = s.kmax ∧ s1.w = (if s.t + 1 = s.d then s.w * s.wd else s.w) ∧
      s1.vmax = (if s.t + 1 = s.d then s.vmax * s.vd else s.vmax) := by
  obtain ⟨hx, hv, hp, hf, hg, hfg, hvm, hvd⟩ := hs
  obtain ⟨rng1, hm0⟩ := moves_frozen draws hvm hg P s.rng
  have hm : batch.moves draws s s.rng s.x s.v s.p = .ok (s.x, s.v, rng1) := by
    rw [hx, hv, hp]
    exact hm0
  have he2 : batch.evaluate cost (s.x, s.v, rng1).1 s.f s.p = .ok (s.f, s.p) := by
    show batch.evaluate cost s.x s.f s.p = .ok (s.f, s.p)
    rw [hx, hf, hp]
    exact evaluate_frozen cost (List.replicate N a) P
  have hb : min_element (s.f, s.p).1 = some 0 := by
    obtain ⟨P1, rfl⟩ : ∃ P1, P = P1 + 1 := ⟨P - 1, by omega⟩
    show min_element s.f = some 0
    rw [hf]
    exact min_element_replicate _ P1
  have hsw := @sweep_eq draws cost s _ _ _ hm he2 hb
  have hbest : s.f.getD 0 0 = s.fg := by
    obtain ⟨P1, rfl⟩ : ∃ P1, P = P1 + 1 := ⟨P - 1, by omega⟩
    rw [hf, hfg]
    simp [List.replicate_succ]
  have hxl : s.x.length = P := by rw [hx]; simp
  have hni : ¬ s.fg < s.fg := lt_irrefl _
  have hnl : ¬ (s.k + (s.x.length : Int) > s.kmax ∨ s.fg < 1 / 10) := by
    rw [hxl, hfg]
    intro h
    rcases h with h | h
    · omega
    · exact absurd hc (not_le.mpr h)
  have hres : s.sweep_result (s.x, s.v, rng1) (s.f, s.p) 0 =
      ({ s with
          x := s.x, v := s.v, rng := rng1, f := s.f, p := s.p, k := s.k + s.x.length,
          fg := s.fg, g := s.g, t := s.t + 1,
          w := if s.t + 1 = s.d then s.w * s.wd else s.w,
          vmax := if s.t + 1 = s.d then s.vmax * s.vd else s.vmax }, false) := by
    unfold batch.sweep_result
    simp only [hbest, hni, hnl, decide_False, Bool.false_eq_true, if_false, Bool.not_false,
      Bool.true_and, decide_eq_true_eq]
  rw [hres] at hsw
  refine ⟨_, hsw, ⟨hx, hv, hp, hf, hg, hfg, ?_, hvd⟩, rfl, ?_, rfl, rfl, rfl, rfl, rfl, rfl⟩
  · show 0 ≤ (if s.t + 1 = s.d then s.vmax * s.vd else s.vmax)
    split
    · exact mul_nonneg hvm hvd
    · exact hvm
  · show s.k + (s.x.length : Int) = s.k + P
    rw [hxl]

/-- A run of `optimize` on a stagnant swarm: `n` turns, with evaluations left for
all of them, leave the count `t + n`, and have decayed `w` and `vmax` once if
the count has passed through `d`, and not at all otherwise. -/
theorem optimize_frozen (draws : Nat → ℚ) {cost : List ℚ → ℚ} {P N : Nat} {a : ℚ}
    (hP : 0 < P) (hc : 1 / 10 ≤ cost (List.replicate N a)) (n : Nat) :
    ∀ s : batch, s.frozen P N a cost → s.k + (P : Int) * n ≤ s.kmax →
      ∃ sn, batch.optimize draws cost n s = .ok (sn, false) ∧ sn.frozen P N a cost ∧
        sn.fg = s.fg ∧ sn.t = s.t + n ∧ sn.d = s.d ∧
        sn.w = s.w * (if s.t < s.d ∧ s.d ≤ s.t + n then s.wd else 1) ∧
        sn.vmax = s.vmax * (if s.t < s.d ∧ s.d ≤ s.t + n then s.vd else 1) := by
  induction n with
  | zero =>
    intro s hs _
    refine ⟨s, rfl, hs, rfl, by simp, rfl, ?_, ?_⟩
    · rw [if_neg (by intro h; omega)]; simp
    · rw [if_neg (by intro h; omega)]; simp
  | succ n ih =>
    intro s hs hk
    have hPn : (0 : Int) ≤ (P : Int) * n := by positivity
    have hk1 : s.k + (P : Int) ≤ s.kmax := by
      push_cast at hk
      nlinarith
    obtain ⟨s1, hsw, hs1, ht1, hk1e, hd1, hwd1, hvd1, hkm1, hw1, hvm1⟩ :=
      sweep_frozen draws hs hP hk1 hc
    obtain ⟨sn, hopt, hsn, hfg, ht, hd, hw, hvm⟩ := ih s1 hs1 (by
      rw [hk1e, hkm1]
      push_cast at hk
      nlinarith)
    refine ⟨sn, ?_, hsn, ?_, ?_, by rw [hd, hd1], ?_, ?_⟩
    · simp only [batch.optimize, hsw, bind, Except.bind, Bool.false_eq_true, if_false]
      exact hopt
    · rw [hfg, hs1.2.2.2.2.2.1, hs.2.2.2.2.2.1]
    · rw [ht, ht1]
      push_cast
      ring
    · rw [hw, hw1, ht1, hd1, hwd1]
      by_cases h1 : s.t + 1 = s.d
      · rw [if_pos h1, if_neg (by intro h; omega), if_pos (by constructor <;> [omega; (push_cast; omega)])]
        ring
      · rw [if_neg h1]
        by_cases h2 : s.t < s.d ∧ s.d ≤ s.t + ((n + 1 : Nat) : Int)
        · rw [if_pos h2, if_pos (by push_cast at h2; constructor <;> omega)]
        · rw [if_neg h2, if_neg (by push_cast at h2; intro h; apply h2; constructor <;> omega)]
    · rw [hvm, hvm1, ht1, hd1, hvd1]
      by_cases h1 : s.t + 1 = s.d
      · rw [if_pos h1, if_neg (by intro h; omega), if_pos (by constructor <;> [omega; (push_cast; omega)])]
        ring
      · rw [if_neg h1]
        by_cases h2 : s.t < s.d ∧ s.d ≤ s.t + ((n + 1 : Nat) : Int)
        · rw [if_pos h2, if_pos (by push_cast at h2; constructor <;> omega)]
        · rw [if_neg h2, if_neg (by push_cast at h2; intro h; apply h2; constructor <;> omega)]

/-- What `initialize` leaves when the generator gives 3/4 for every position
component and 1/2 for every velocity component: a stagnant swarm at
(300, ..., 300). -/
theorem initialise_frozen {P N : Nat} {draws : Nat → ℚ} (cost : List ℚ → ℚ) (hP : 0 < P)
    (hx : ∀ i, i < P * N → draws i = 3 / 4)
    (hv : ∀ i, P * N ≤ i → i < P * N + P * N → draws i = 1 / 2) :
    ∃ s0, batch.initialise P N draws cost = .ok s0 ∧ s0.frozen P N 300 cost ∧
      s0.t = 0 ∧ s0.d = 200 ∧ s0.w = 1 ∧ s0.wd = 19 / 20 ∧ s0.vmax = 600 ∧
      s0.vd = 19 / 20 ∧ s0.k = P ∧ s0.kmax = 640000 := by
  obtain ⟨s0, h0⟩ := @batch_initialise_ok P N draws cost hP
  obtain ⟨b, hb, hxs, hvs, hp, hf, hg, hfg, ht, hd, hw, hwd, hvm, hvd, hk, hkm, _⟩ :=
    batch_initialise_inv h0
  have e1 := generate_all_const (-600) 600 (3 / 4) N P 0
    (fun i _ hi => hx i (by omega))
  have e2 := generate_all_const (-600) 600 (1 / 2) N P (0 + P * N)
    (fun i hi1 hi2 => hv i (by omega) (by omega))
  rw [e1] at hxs hvs hb
  rw [e2] at hvs
  have n1 : (3 / 4 : ℚ) * (600 - -600) + -600 = 300 := by norm_num
  have n2 : (1 / 2 : ℚ) * (600 - -600) + -600 = 0 := by norm_num
  rw [n1] at hxs hb
  rw [n2] at hvs
  simp only at hxs hvs hb
  obtain ⟨P1, rfl⟩ : ∃ P1, P = P1 + 1 := ⟨P - 1, by omega⟩
  rw [List.map_replicate, min_element_replicate] at hb
  cases hb
  have hf2 : s0.f = List.replicate (P1 + 1) (cost (List.replicate N 300)) := by
    rw [hf, hxs, List.map_replicate]
  refine ⟨s0, h0, ⟨hxs, hvs, by rw [hp, hxs], hf2, ?_, ?_, by rw [hvm]; norm_num,
    by rw [hvd]; norm_num⟩, ht, hd, hw, hwd, hvm, hvd, hk, hkm⟩
  · rw [hg, hxs]
    simp [List.replicate_succ]
  · rw [hfg, hf2]
    simp [List.replicate_succ]

theorem sweep_length {draws : Nat → ℚ} {cost : List ℚ → ℚ} {s : batch} {r : batch × Bool}
    (hs : s.sized) (h : batch.sweep draws cost s = .ok r) : r.1.f.length = s.f.length := by
  obtain ⟨m, e, b, hm, he, hb, rfl⟩ := sweep_inv h
  obtain ⟨h1, h2, h3, h4⟩ := hs
  obtain ⟨m1, hm1, hml, hmv, hmall⟩ :=
    moves_spec draws s s.x s.rng s.v s.p (by omega) (by omega)
  rw [hm] at hm1
  cases hm1
  obtain ⟨e1, he1, hel, hep, heall⟩ := evaluate_spec cost m.1 s.f s.p (by omega) (by omega)
  rw [he] at he1
  cases he1
  show e.1.length = s.f.length
  omega

theorem swept_length {P N : Nat} {draws : Nat → ℚ} {cost : List ℚ → ℚ} {s : batch}
    (h : batch.Swept P N draws cost s) : s.f.length = P := by
  induction h with
  | init h0 =>
    obtain ⟨b, _, hx, _, _, hf, _⟩ := batch_initialise_inv h0
    rw [hf, hx]
    simp [(generate_all_spec draws (-600) 600 N P 0).1]
  | sweep hprev hstep ih => rw [sweep_length (swept_sized hprev) hstep, ih]

theorem duo_init_ok : batch.initialise 2 1 demo_draws quadratic_cost = .ok duo_init :=
  except_eq_ok_of_toOption (by decide!)

theorem duo_swept_ok : batch.sweep demo_draws quadratic_cost duo_init = .ok (duo_swept, false) :=
  except_eq_ok_of_toOption (by decide!)

theorem quadratic_cost_ge (x : List ℚ) : ∀ c : ℚ, c ≤ x.foldl (fun sum a => sum + a * a / 4000) c := by
  induction x with
  | nil => intro c; exact le_refl c
  | cons a x ih =>
    intro c
    refine le_trans ?_ (ih (c + a * a / 4000))
    have : 0 ≤ a * a / 4000 := div_nonneg (mul_self_nonneg a) (by norm_num)
    linarith

theorem eq_error_of_fault_of {α : Type} {x : Except particle_hpp.fault α}
    {e : particle_hpp.fault} (h : particle_hpp.fault_of x = some e) : x = .error e := by
  cases x with
  | error e1 => simp only [particle_hpp.fault_of, Option.some.injEq] at h; rw [h]
  | ok a => simp [particle_hpp.fault_of] at h

/-! ## The claims -/

/-- C1: in `swarm::update`, for a particle `i` and a dimension `j` whose cap
`vmax[j]` is non-negative, the new velocity component is
`clamp(w*v[j] + c1*r1*(pbest[j]-x[j]) + c2*r2*(gbest[j]-x[j]), -vmax[j], vmax[j])`
with `v`, `x` the values before the update, `pbest` the particle's personal-best
position, `gbest` the leader's personal-best position and `r1`, `r2` the two
draws taken for that dimension. -/
theorem C1_update_velocity_rule (draws : Nat → ℚ) (s : swarm) (i j : Nat) (pi pl : particle)
    (cost v x p g vm : ℚ)
    (hi : s.super[i]? = some pi) (hl : s.super[s.leader]? = some pl)
    (hc : s.f.call (s.new_position draws pi pl) = .ok cost)
    (hv : pi.velocity[j]? = some v) (hx : pi.super[j]? = some x)
    (hp : pi.local_best.2[j]? = some p) (hg : pl.local_best.2[j]? = some g)
    (hvm : s.vmax[j]? = some vm) (hvm0 : 0 ≤ vm) :
    ∃ b s1 pi1, s.update draws i = .ok (b, s1) ∧ s1.super[i]? = some pi1 ∧
      pi1.velocity[j]? = some (spec_clamp
        (s.param.w * v + s.param.c1 * draws (s.rng + 2 * j) * (p - x)
          + s.param.c2 * draws (s.rng + 2 * j + 1) * (g - x)) (-vm) vm) := by
  refine ⟨_, _, _, update_ok draws s i pi pl cost hi hl hc,
    update_result_getElem? draws s i pi pl cost hi, ?_⟩
  show (s.new_velocity draws pi pl)[j]? = _
  unfold swarm.new_velocity
  rw [velocity_transform_getElem? draws s.param pi.velocity s.rng _ _ _ _ j v hv,
    getD_of_getElem? hx, getD_of_getElem? hp, getD_of_getElem? hg, getD_of_getElem? hvm,
    clamp_eq_spec_clamp _ _ hvm0]
  congr 2
  ring

/-- Instance of C1 on `demo_swarm`: particle 1, dimension 0, draws `1/2`. -/
theorem C1_update_velocity_rule_witness :
    (0 : ℚ) ≤ 128 / 25 ∧
    ∃ b s1 pi1, demo_swarm.update half_draws 1 = .ok (b, s1) ∧ s1.super[1]? = some pi1 ∧
      pi1.velocity[0]? = some (spec_clamp
        (demo_swarm.param.w * (-1) + demo_swarm.param.c1 * half_draws (demo_swarm.rng + 2 * 0)
            * (2 - 2)
          + demo_swarm.param.c2 * half_draws (demo_swarm.rng + 2 * 0 + 1) * (1 - 2))
        (-(128 / 25)) (128 / 25)) :=
  ⟨by norm_num,
    C1_update_velocity_rule half_draws demo_swarm 1 0
      { super := [2], velocity := [-1], local_best := ((4 : ℚ), [2]) }
      { super := [1], velocity := [1 / 2], local_best := ((1 : ℚ), [1]) }
      _ (-1) 2 2 1 (128 / 25) rfl rfl rfl rfl rfl rfl rfl rfl (by norm_num)⟩

/-- C2, as stated, fails after a stagnation decay: on the one-particle swarm
`stall_fresh` (default parameters, window `d = 1`) the first update leaves the
velocity at `-5.12`, the cap of that moment; the decay that follows lowers the
cap to `4.864` and does not touch the velocity, which is then outside
`[-vmax, vmax]`. -/
theorem C2_counterexample :
    swarm.Reachable zero_draws stall_fresh stall_decayed ∧
    stall_decayed.pc = .decayed ∧
    stall_decayed.s.vmax = [608 / 125] ∧
    stall_decayed.s.super.map (fun q => q.velocity) = [[-128 / 25]] ∧
    ¬ stall_decayed.s.velocity_within := by
  refine ⟨stall_reachable, by decide!, by decide!, by decide!, ?_⟩
  intro h
  have hq : particle.mk [-256 / 25] [-128 / 25] (((16384 / 625 : ℚ) : WithTop ℚ), [-128 / 25])
      ∈ stall_decayed.s.super := by decide!
  have := (h _ hq 0 (-128 / 25) (608 / 125) (by decide!) (by decide!)).1
  norm_num at this

/-- C2, amended: in `operator()` run on a freshly constructed swarm with
`k >= 0`, `low[i] <= high[i]`, `0 <= vd <= 1` and draws in `[0, 1)`, at every
control point every velocity component of every particle lies within
`[-vmax0[i], vmax0[i]]` for the caps `vmax0` computed by the constructor; right
after the update of a particle the components of that particle lie within the
current caps `[-vmax[i], vmax[i]]`; and after `initialize` every component lies
within the current caps. -/
theorem C2_velocity_bounds (draws : Nat → ℚ) (d : Nat) (f : objective) (p : param_type)
    (L : loop_state) (hd : ∀ n, 0 ≤ draws n ∧ draws n < 1) (hk : 0 ≤ p.k)
    (hdom : ∀ j, (f.domain j).1 ≤ (f.domain j).2) (hvd0 : 0 ≤ p.vd) (hvd1 : p.vd ≤ 1)
    (hreach : swarm.Reachable draws (swarm.construct d f p) L) :
    (∀ q ∈ L.s.super, q.velocity_within (swarm.vmax_init f p.k d)) ∧
    (L.pc = .updated → ∀ q, L.s.super[L.i]? = some q → q.velocity_within L.s.vmax) ∧
    (∀ s, (swarm.construct d f p).initialise draws = .ok s → s.velocity_within) := by
  obtain ⟨_, _, _, hc, hu⟩ := reachable_velocity_inv hd hk hdom hvd0 hvd1 hreach
  refine ⟨hc, hu, ?_⟩
  intro s hs
  exact @initialise_velocity_within draws (swarm.construct d f p) s hd
    (vmax_init_nonneg f p.k d hk hdom) hs

/-- Instance of C2 (amended) on the run of `stall_fresh` up to its first decay. -/
theorem C2_velocity_bounds_witness :
    (∀ n, 0 ≤ zero_draws n ∧ zero_draws n < 1) ∧
    swarm.Reachable zero_draws
      (swarm.construct 1 sphere { param_type.default with n := 1, d := 1 }) stall_decayed ∧
    ((∀ q ∈ stall_decayed.s.super,
        q.velocity_within (swarm.vmax_init sphere (1 / 2) 1)) ∧
      (stall_decayed.pc = .updated →
        ∀ q, stall_decayed.s.super[stall_decayed.i]? = some q →
          q.velocity_within stall_decayed.s.vmax) ∧
      (∀ s, (swarm.construct 1 sphere { param_type.default with n := 1, d := 1 }).initialise
          zero_draws = .ok s → s.velocity_within)) :=
  ⟨zero_draws_unit, stall_reachable,
    C2_velocity_bounds zero_draws 1 sphere { param_type.default with n := 1, d := 1 }
      stall_decayed zero_draws_unit (by norm_num [param_type.default])
      (by intro j; norm_num [sphere]) (by norm_num [param_type.default])
      (by norm_num [param_type.default]) stall_reachable⟩

/-- C3: `swarm::update` replaces the personal best of the particle with
`(cost, x1)`, `x1` the new position and `cost` its evaluated cost, exactly when
`cost` is strictly less than the previous personal-best cost; otherwise the
personal best (cost and position snapshot) is left as it was. -/
theorem C3_update_personal_best (draws : Nat → ℚ) (s : swarm) (i : Nat) (pi pl : particle)
    (cost : ℚ)
    (hi : s.super[i]? = some pi) (hl : s.super[s.leader]? = some pl)
    (hc : s.f.call (s.new_position draws pi pl) = .ok cost) :
    ∃ b s1 pi1, s.update draws i = .ok (b, s1) ∧ s1.super[i]? = some pi1 ∧
      pi1.super = s.new_position draws pi pl ∧
      ((cost : WithTop ℚ) < pi.local_best.1 → pi1.local_best = ((cost : WithTop ℚ), pi1.super)) ∧
      (¬ (cost : WithTop ℚ) < pi.local_best.1 → pi1.local_best = pi.local_best) := by
  refine ⟨_, _, _, update_ok draws s i pi pl cost hi hl hc,
    update_result_getElem? draws s i pi pl cost hi, rfl, ?_, ?_⟩
  · intro h; simp [h]
  · intro h; simp [h]

/-- Instance of C3 on `demo_swarm`, particle 1. -/
theorem C3_update_personal_best_witness :
    demo_swarm.super[1]? = some { super := [2], velocity := [-1], local_best := ((4 : ℚ), [2]) } ∧
    ∃ b s1 pi1, demo_swarm.update half_draws 1 = .ok (b, s1) ∧ s1.super[1]? = some pi1 ∧
      pi1.super = demo_swarm.new_position half_draws
        { super := [2], velocity := [-1], local_best := ((4 : ℚ), [2]) }
        { super := [1], velocity := [1 / 2], local_best := ((1 : ℚ), [1]) } ∧
      (((0 : ℚ) : WithTop ℚ) < ((4 : ℚ) : WithTop ℚ) →
        pi1.local_best = (((0 : ℚ) : WithTop ℚ), pi1.super)) ∧
      (¬ ((0 : ℚ) : WithTop ℚ) < ((4 : ℚ) : WithTop ℚ) →
        pi1.local_best = (((4 : ℚ) : WithTop ℚ), [2])) :=
  ⟨rfl,
    C3_update_personal_best half_draws demo_swarm 1
      { super := [2], velocity := [-1], local_best := ((4 : ℚ), [2]) }
      { super := [1], velocity := [1 / 2], local_best := ((1 : ℚ), [1]) }
      0 rfl rfl (by decide!)⟩

/-- C4: in every state of `operator()` reached with a record `hist` of the costs
evaluated for each particle since `initialize`, the personal-best cost of every
particle is the minimum of the costs recorded for it and is the cost of its
position snapshot; and no transition raises a personal-best cost. -/
theorem C4_personal_best_is_minimum (draws : Nat → ℚ) (s0 : swarm) (L : loop_state)
    (hist : Nat → List ℚ) (hreach : swarm.ReachableH draws s0 L hist) :
    (∀ (i : Nat) (q : particle), L.s.super[i]? = some q →
      q.local_best.1 = (hist i).minimum ∧
      ∃ c, L.s.f.call q.local_best.2 = .ok c ∧ (c : WithTop ℚ) = q.local_best.1) ∧
    (∀ (L1 : loop_state), swarm.step draws L = .ok L1 →
      ∀ (i : Nat) (q q1 : particle), L.s.super[i]? = some q → L1.s.super[i]? = some q1 →
        q1.local_best.1 ≤ q.local_best.1) :=
  ⟨reachableH_inv hreach, fun _ hstep => step_local_best_le hstep⟩

/-- Instance of C4: `demo_fresh` after `initialize` and the update of particle 0,
whose record is then the cost `9216/625` of its new position followed by the
cost of its initial position. -/
theorem C4_personal_best_is_minimum_witness :
    swarm.ReachableH demo_draws demo_fresh demo_first
      (Function.update demo_init.init_hist 0 (9216 / 625 :: demo_init.init_hist 0)) ∧
    ((∀ (i : Nat) (q : particle), demo_first.s.super[i]? = some q →
      q.local_best.1
        = ((Function.update demo_init.init_hist 0 (9216 / 625 :: demo_init.init_hist 0)) i).minimum ∧
      ∃ c, demo_first.s.f.call q.local_best.2 = .ok c ∧ (c : WithTop ℚ) = q.local_best.1) ∧
    (∀ (L1 : loop_state), swarm.step demo_draws demo_first = .ok L1 →
      ∀ (i : Nat) (q q1 : particle), demo_first.s.super[i]? = some q →
        L1.s.super[i]? = some q1 → q1.local_best.1 ≤ q.local_best.1)) :=
  ⟨demo_reachableH,
    C4_personal_best_is_minimum demo_draws demo_fresh demo_first _ demo_reachableH⟩

/-- C5: over any finite run of transitions of `operator()`, hence from one
particle update to any later one, the global-best cost (the cost of
`best_solution()`, the leader's personal best) does not increase. -/
theorem C5_global_best_nonincreasing (draws : Nat → ℚ) (L L1 : loop_state) (g : solution)
    (hrun : swarm.Steps draws L L1) (hg : L.s.best_solution = .ok g) :
    ∃ g1, L1.s.best_solution = .ok g1 ∧ g1.1 ≤ g.1 := by
  induction hrun with
  | refl => exact ⟨g, hg, le_refl _⟩
  | tail _ hstep ih =>
    obtain ⟨g0, hg0, hle0⟩ := ih
    obtain ⟨g1, hg1, hle1⟩ := step_best_le hstep hg0
    exact ⟨g1, hg1, le_trans hle1 hle0⟩

/-- Instance of C5: the update of particle 1 of `demo_swarm`, which takes the
lead with cost `0`, from a global best of cost `1`. -/
theorem C5_global_best_nonincreasing_witness :
    swarm.Steps half_draws demo_loop demo_loop_updated ∧
    demo_loop.s.best_solution = .ok ((1 : ℚ), [1]) ∧
    ∃ g1, demo_loop_updated.s.best_solution = .ok g1 ∧ g1.1 ≤ ((1 : ℚ) : WithTop ℚ) :=
  ⟨Relation.ReflTransGen.single demo_step, rfl,
    C5_global_best_nonincreasing half_draws demo_loop demo_loop_updated ((1 : ℚ), [1])
      (Relation.ReflTransGen.single demo_step) rfl⟩

/-- C6: in every state of `operator()` run on a freshly constructed swarm (after
`initialize`, after every particle update and at every other control point),
`best_solution()` is defined as soon as there is a particle, and its cost is
less than or equal to the personal-best cost of every particle. -/
theorem C6_global_best_le_personal_bests (draws : Nat → ℚ) (d : Nat) (f : objective)
    (p : param_type) (L : loop_state)
    (hreach : swarm.Reachable draws (swarm.construct d f p) L) :
    ∀ q ∈ L.s.super, ∃ g, L.s.best_solution = .ok g ∧ g.1 ≤ q.local_best.1 := by
  intro q hq
  obtain ⟨pl, hpl, hle⟩ := reachable_best_le_all rfl hreach q hq
  exact ⟨pl.local_best, best_solution_eq_ok.mpr ⟨pl, hpl, rfl⟩, hle⟩

/-- Instance of C6: the state in which `operator()` enters its loop on the
freshly constructed two-particle swarm `demo_fresh`. -/
theorem C6_global_best_le_personal_bests_witness :
    swarm.Reachable demo_draws (swarm.construct 1 sphere { param_type.default with n := 2 })
      demo_init.loop_entry ∧
    ∀ q ∈ demo_init.loop_entry.s.super,
      ∃ g, demo_init.loop_entry.s.best_solution = .ok g ∧ g.1 ≤ q.local_best.1 :=
  ⟨swarm.Reachable.entry demo_init_ok,
    C6_global_best_le_personal_bests demo_draws 1 sphere { param_type.default with n := 2 }
      demo_init.loop_entry (swarm.Reachable.entry demo_init_ok)⟩

/-- C7: in `operator()` run on a freshly constructed swarm, after the update of
the particle at `L.i`: if the particle's new personal-best cost is below the
global-best cost held just before the update, the global best is that
particle's personal best, the particle is the leader and the stagnation counter
`t` is `0`; otherwise the global best and the leader are unchanged and `t` is
one more than before. -/
theorem C7_global_best_and_counter (draws : Nat → ℚ) (d : Nat) (f : objective)
    (p : param_type) (L L1 : loop_state)
    (hreach : swarm.Reachable draws (swarm.construct d f p) L)
    (hpc : L.pc = .for_head) (hi : L.i ≠ L.s.super.length)
    (hstep : swarm.step draws L = .ok L1) :
    ∃ g pi1 g1, L.s.best_solution = .ok g ∧ L1.s.super[L.i]? = some pi1 ∧
      L1.s.best_solution = .ok g1 ∧
      (pi1.local_best.1 < g.1 → g1 = pi1.local_best ∧ L1.s.leader = L.i ∧ L1.t = 0) ∧
      (¬ pi1.local_best.1 < g.1 → g1 = g ∧ L1.s.leader = L.s.leader ∧ L1.t = L.t + 1) := by
  have hinv := reachable_best_le_all rfl hreach
  rcases step_for_head hpc hstep with ⟨h0, _⟩ | ⟨_, r, hr, hL1⟩
  · exact absurd h0 hi
  · obtain ⟨pi, pl, cost, hpi, hpl, _, hres⟩ := update_inv hr
    obtain ⟨pl1, hpl1, hbest⟩ := update_result_best_solution draws L.s L.i pi pl cost hpi hpl
    have hP : pl.local_best.1 ≤ pi.local_best.1 := by
      obtain ⟨pl0, hpl0, hle⟩ := hinv pi (List.getElem?_mem hpi)
      rw [hpl] at hpl0
      injection hpl0 with hpl0
      rw [hpl0]; exact hle
    have hs1 : L1.s = (L.s.update_result draws L.i pi pl cost).2 := by rw [hL1, hres]
    have ht1 : L1.t = if (L.s.update_result draws L.i pi pl cost).1 = true then 0 else L.t + 1 := by
      rw [hL1, hres]
    have hlead := update_result_leader draws L.s L.i pi pl cost
    refine ⟨pl.local_best, _, pl1.local_best, best_solution_eq_ok.mpr ⟨pl, hpl, rfl⟩,
      by rw [hs1]; exact update_result_getElem? draws L.s L.i pi pl cost hpi,
      best_solution_eq_ok.mpr ⟨pl1, by rw [hs1]; exact hpl1, rfl⟩, ?_, ?_⟩
    · intro hlt
      have h1 : (cost : WithTop ℚ) < pi.local_best.1 := by
        by_contra h1
        simp only [h1, if_false] at hlt
        exact absurd hlt (not_lt.mpr hP)
      simp only [h1, if_true] at hlt
      have hb : (L.s.update_result draws L.i pi pl cost).1 = true := by
        simp [swarm.update_result, h1, hlt]
      refine ⟨?_, ?_, ?_⟩
      · rw [hbest]; simp [h1, hlt]
      · rw [hs1, hlead]; simp [h1, hlt]
      · rw [ht1, hb]; rfl
    · intro hnlt
      have h2 : ¬ ((cost : WithTop ℚ) < pi.local_best.1 ∧ (cost : WithTop ℚ) < pl.local_best.1) := by
        rintro ⟨h1, h2⟩
        simp only [h1, if_true] at hnlt
        exact hnlt h2
      have hb : (L.s.update_result draws L.i pi pl cost).1 = false := by
        by_cases h1 : (cost : WithTop ℚ) < pi.local_best.1
        · have h3 : ¬ (cost : WithTop ℚ) < pl.local_best.1 := fun h3 => h2 ⟨h1, h3⟩
          have h4 : L.s.leader ≠ L.i := by
            intro h4
            rw [h4, hpi] at hpl
            injection hpl with hpl
            rw [hpl] at h1
            exact h3 h1
          simp [swarm.update_result, h1, h3, h4]
        · simp [swarm.update_result, h1]
      refine ⟨?_, ?_, ?_⟩
      · rw [hbest, if_neg h2]
      · rw [hs1, hlead, if_neg h2]
      · rw [ht1, hb]; rfl

/-- Instance of C7: the first particle update of `operator()` on the freshly
constructed swarm `demo_fresh`. -/
theorem C7_global_best_and_counter_witness :
    swarm.Reachable demo_draws (swarm.construct 1 sphere { param_type.default with n := 2 })
      demo_init.loop_entry ∧
    demo_init.loop_entry.pc = .for_head ∧
    demo_init.loop_entry.i ≠ demo_init.loop_entry.s.super.length ∧
    swarm.step demo_draws demo_init.loop_entry = .ok demo_first ∧
    ∃ g pi1 g1, demo_init.loop_entry.s.best_solution = .ok g ∧
      demo_first.s.super[demo_init.loop_entry.i]? = some pi1 ∧
      demo_first.s.best_solution = .ok g1 ∧
      (pi1.local_best.1 < g.1 →
        g1 = pi1.local_best ∧ demo_first.s.leader = demo_init.loop_entry.i ∧ demo_first.t = 0) ∧
      (¬ pi1.local_best.1 < g.1 →
        g1 = g ∧ demo_first.s.leader = demo_init.loop_entry.s.leader ∧
          demo_first.t = demo_init.loop_entry.t + 1) :=
  ⟨swarm.Reachable.entry demo_init_ok, rfl, by decide!, demo_first_ok,
    C7_global_best_and_counter demo_draws 1 sphere { param_type.default with n := 2 }
      demo_init.loop_entry demo_first (swarm.Reachable.entry demo_init_ok) rfl (by decide!)
      demo_first_ok⟩

/-- C8: at the decay test of `operator()` (after the update branch), when the
stagnation counter `t` equals `d` the inertia `w` is multiplied by `wd`, every
`vmax[i]` is multiplied by `vd` and `t` is reset to `0`; when `t` differs from
`d`, `w`, every `vmax[i]` and `t` are left as they are.  The test always
completes. -/
theorem C8_decay_step (draws : Nat → ℚ) (L : loop_state) (hpc : L.pc = .updated) :
    ∃ L1, swarm.step draws L = .ok L1 ∧
      (L.t = L.s.param.d →
        L1.s.param.w = L.s.param.w * L.s.param.wd ∧
        L1.s.vmax.length = L.s.vmax.length ∧
        (∀ (i : Nat) (vm : ℚ), L.s.vmax[i]? = some vm → L1.s.vmax[i]? = some (vm * L.s.param.vd)) ∧
        L1.t = 0) ∧
      (L.t ≠ L.s.param.d →
        L1.s.param.w = L.s.param.w ∧ L1.s.vmax = L.s.vmax ∧ L1.t = L.t) := by
  by_cases ht : L.t = L.s.param.d
  · refine ⟨{ L with t := 0, s := L.s.decay, pc := .decayed }, ?_, ?_, fun h => absurd ht h⟩
    · unfold swarm.step; rw [hpc]; simp [ht, pure, Except.pure]
    · intro _
      refine ⟨rfl, by simp [swarm.decay], ?_, rfl⟩
      intro i vm hvm
      simp [swarm.decay, hvm]
  · refine ⟨{ L with pc := .decayed }, ?_, fun h => absurd h ht, fun _ => ⟨rfl, rfl, rfl⟩⟩
    unfold swarm.step; rw [hpc]; simp [ht, pure, Except.pure]

/-- Instance of C8 on the state after the first update of `demo_init`. -/
theorem C8_decay_step_witness :
    demo_first.pc = .updated ∧
    ∃ L1, swarm.step demo_draws demo_first = .ok L1 ∧
      (demo_first.t = demo_first.s.param.d →
        L1.s.param.w = demo_first.s.param.w * demo_first.s.param.wd ∧
        L1.s.vmax.length = demo_first.s.vmax.length ∧
        (∀ (i : Nat) (vm : ℚ), demo_first.s.vmax[i]? = some vm →
          L1.s.vmax[i]? = some (vm * demo_first.s.param.vd)) ∧
        L1.t = 0) ∧
      (demo_first.t ≠ demo_first.s.param.d →
        L1.s.param.w = demo_first.s.param.w ∧ L1.s.vmax = demo_first.s.vmax ∧
          L1.t = demo_first.t) :=
  ⟨by decide!, C8_decay_step demo_draws demo_first (by decide!)⟩

/-- C9: for a stagnation window `d >= 1`, from the head of the loop with
counter `t = 0`, a stretch of `operator()` made of `m` particle updates that all
return `false`, taken up to a point where the decay test of the last update has
been executed, runs the decay branch exactly `m / d` times: `w` has become
`w * wd ^ (m / d)` and every cap `vmax[i] * vd ^ (m / d)`.  In particular
`m = d` gives exactly one decay and `m < d` none. -/
theorem C9_stagnation_decay_count (draws : Nat → ℚ) (L L1 : loop_state) (m dcs : Nat)
    (hrun : swarm.StagnantRun draws L m dcs L1) (ht : L.t = 0) (hpc : L.pc = .for_head)
    (hd : 1 ≤ L.s.param.d) (hend : L1.pc ≠ .updated) :
    (dcs : Int) = (m : Int) / L.s.param.d ∧
    L1.s.param.w = L.s.param.w * L.s.param.wd ^ dcs ∧
    L1.s.vmax = L.s.vmax.map (fun vm => vm * L.s.param.vd ^ dcs) ∧
    ((m : Int) = L.s.param.d → dcs = 1) ∧
    ((m : Int) < L.s.param.d → dcs = 0) := by
  obtain ⟨_, _, _, hw, hvm, hcount, hnn, _, hlt⟩ := stagnant_run_inv hrun ht hpc hd
  have hlt1 := hlt hend
  have hdiv : (m : Int) / L.s.param.d = dcs := by
    have := (@Int.ediv_emod_unique (m : Int) L.s.param.d L1.t (dcs : Int)
      (by omega)).mpr ⟨by rw [← hcount]; ring, hnn, hlt1⟩
    exact this.1
  refine ⟨hdiv.symm, hw, hvm, ?_, ?_⟩
  · intro hm
    rw [hm, Int.ediv_self (by omega)] at hdiv
    exact_mod_cast hdiv.symm
  · intro hm
    rw [Int.ediv_eq_zero_of_lt (by omega) hm] at hdiv
    exact_mod_cast hdiv.symm

/-- Instance of C9: window `d = 1`, one update of the single particle of
`stall_init` that does not improve, followed by its decay. -/
theorem C9_stagnation_decay_count_witness :
    swarm.StagnantRun zero_draws stall_init.loop_entry 1 1 stall_decayed ∧
    stall_init.loop_entry.t = 0 ∧ stall_init.loop_entry.pc = .for_head ∧
    1 ≤ stall_init.loop_entry.s.param.d ∧ stall_decayed.pc ≠ .updated ∧
    ((1 : Nat) : Int) = ((1 : Nat) : Int) / stall_init.loop_entry.s.param.d ∧
    stall_decayed.s.param.w
      = stall_init.loop_entry.s.param.w * stall_init.loop_entry.s.param.wd ^ 1 ∧
    stall_decayed.s.vmax
      = stall_init.loop_entry.s.vmax.map (fun vm => vm * stall_init.loop_entry.s.param.vd ^ 1) ∧
    ((((1 : Nat) : Int) = stall_init.loop_entry.s.param.d → 1 = 1) ∧
    (((1 : Nat) : Int) < stall_init.loop_entry.s.param.d → 1 = 0)) :=
  have hrun : swarm.StagnantRun zero_draws stall_init.loop_entry 1 1 stall_decayed :=
    swarm.StagnantRun.decay
      (swarm.StagnantRun.update swarm.StagnantRun.start rfl (by decide!)
        stall_update_ok (by decide!) stall_updated_ok)
      (by decide!) (by decide!) stall_decayed_ok
  ⟨hrun, rfl, rfl, by decide!, by decide!,
    C9_stagnation_decay_count zero_draws stall_init.loop_entry stall_decayed 1 1 hrun rfl rfl
      (by decide!) (by decide!)⟩

/-- C10, as stated, fails: on the one-particle swarm `flat_fresh`, whose
objective returns the constant `0.1`, the first particle update leaves a
global-best cost of `0.1`, which is `<= 0.1`, and yet the exit test that follows
sends `operator()` back to the head of the loop; after these three transitions
the run has not returned.  The cost is the same constant at every point, so it
does not depend on how the position was computed. -/
theorem C10_counterexample :
    swarm.Reachable zero_draws flat_fresh flat_decayed ∧
    flat_decayed.pc = .decayed ∧
    flat_decayed.s.best_solution = .ok (((1 / 10 : ℚ) : WithTop ℚ), [-1]) ∧
    ((1 / 10 : ℚ) : WithTop ℚ) ≤ ((1 / 10 : ℚ) : WithTop ℚ) ∧
    (swarm.step zero_draws flat_decayed).toOption.map (fun L1 => L1.pc) = some .for_head ∧
    (swarm.run zero_draws 3 flat_fresh).toOption.map Option.isSome = some false ∧
    (∀ x : List ℚ, flat.call x = .ok (1 / 10)) :=
  ⟨flat_reachable, by decide!, by decide!, le_refl _, by decide!, by decide!, fun _ => rfl⟩

/-- C10, amended: the exit test that follows a particle update and its decay
test always completes, leaves the swarm as it is, and makes `operator()` return
at once exactly when the global-best cost is strictly below `0.1` or the counter
`k` exceeds `640000`; otherwise the loop goes on with `i` and `k` incremented. -/
theorem C10_exit_test (draws : Nat → ℚ) (L : loop_state) (g : solution)
    (hpc : L.pc = .decayed) (hg : L.s.best_solution = .ok g) :
    ∃ L1, swarm.step draws L = .ok L1 ∧ L1.s = L.s ∧
      ((g.1 < ((1 / 10 : ℚ) : WithTop ℚ) ∨ 640000 < L.k) →
        L1.pc = .returned ∧ ∀ fuel, swarm.loop draws (fuel + 1) L = .ok (some L1)) ∧
      (¬ (g.1 < ((1 / 10 : ℚ) : WithTop ℚ) ∨ 640000 < L.k) →
        L1.pc = .for_head ∧ L1.i = L.i + 1 ∧ L1.k = L.k + 1) := by
  have hstop : swarm.stop_test g L.k = true ↔
      (g.1 < ((1 / 10 : ℚ) : WithTop ℚ) ∨ 640000 < L.k) := by
    simp [swarm.stop_test]
  by_cases hs : swarm.stop_test g L.k = true
  · have hstep : swarm.step draws L = .ok { L with pc := .returned } := by
      unfold swarm.step; rw [hpc]; simp [hg, hs, bind, Except.bind, pure, Except.pure]
    refine ⟨_, hstep, rfl, ?_, fun h => absurd (hstop.mp hs) h⟩
    intro _
    refine ⟨rfl, fun fuel => ?_⟩
    have hne : L.pc ≠ .returned := by rw [hpc]; decide
    rw [swarm.loop, if_neg hne, hstep]
    exact loop_returned draws fuel _ rfl
  · have hstep : swarm.step draws L =
        .ok { L with i := L.i + 1, k := L.k + 1, pc := .for_head } := by
      unfold swarm.step; rw [hpc]; simp [hg, hs, bind, Except.bind, pure, Except.pure]
    exact ⟨_, hstep, rfl, fun h => absurd (hstop.mpr h) hs, fun _ => ⟨rfl, rfl, rfl⟩⟩

/-- Instance of C10 (amended) on `flat_decayed`, where the global-best cost is
the constant `0.1` of the objective `flat`. -/
theorem C10_exit_test_witness :
    flat_decayed.pc = .decayed ∧
    flat_decayed.s.best_solution = .ok (((1 / 10 : ℚ) : WithTop ℚ), [-1]) ∧
    ∃ L1, swarm.step zero_draws flat_decayed = .ok L1 ∧ L1.s = flat_decayed.s ∧
      ((((1 / 10 : ℚ) : WithTop ℚ) < ((1 / 10 : ℚ) : WithTop ℚ) ∨ 640000 < flat_decayed.k) →
        L1.pc = .returned ∧
          ∀ fuel, swarm.loop zero_draws (fuel + 1) flat_decayed = .ok (some L1)) ∧
      (¬ (((1 / 10 : ℚ) : WithTop ℚ) < ((1 / 10 : ℚ) : WithTop ℚ) ∨ 640000 < flat_decayed.k) →
        L1.pc = .for_head ∧ L1.i = flat_decayed.i + 1 ∧ L1.k = flat_decayed.k + 1) :=
  ⟨by decide!, by decide!,
    C10_exit_test zero_draws flat_decayed (((1 / 10 : ℚ) : WithTop ℚ), [-1])
      (by decide!) (by decide!)⟩

/-- C11: for every total objective, every stream of draws and every population
of at least one particle, `operator()` on the freshly constructed swarm returns
normally within `2560007` transitions, whether or not the cost threshold was
reached; the number of particle updates it has executed is `k + 1` for the
final value of the counter `k`, and is at most `640002`. -/
theorem C11_run_terminates (draws : Nat → ℚ) (d : Nat) (f : objective) (p : param_type)
    (htot : ∀ x, ∃ c, f.call x = .ok c) (hn : 1 ≤ p.n) (fuel : Nat) (hfuel : 2560007 ≤ fuel) :
    ∃ s1 Lf, (swarm.construct d f p).initialise draws = .ok s1 ∧
      (swarm.construct d f p).run draws fuel = .ok (some Lf) ∧ Lf.pc = .returned ∧
      (swarm.loop_updates draws fuel s1.loop_entry : Int) = Lf.k + 1 ∧
      swarm.loop_updates draws fuel s1.loop_entry ≤ 640002 := by
  obtain ⟨s1, Lf, hinit, hrun, hret, hcount, hk⟩ := run_terminates draws d f p htot hn fuel hfuel
  refine ⟨s1, Lf, hinit, hrun, hret, hcount, ?_⟩
  have : (swarm.loop_updates draws fuel s1.loop_entry : Int) ≤ 640002 := by rw [hcount]; omega
  exact_mod_cast this

/-- Instance of C11: the sphere objective and two particles in one dimension. -/
theorem C11_run_terminates_witness :
    (∀ x, ∃ c, sphere.call x = .ok c) ∧ (1 : ℚ) ≤ 2 ∧ 2560007 ≤ 2560007 ∧
    ∃ s1 Lf, (swarm.construct 1 sphere { param_type.default with n := 2 }).initialise demo_draws
        = .ok s1 ∧
      (swarm.construct 1 sphere { param_type.default with n := 2 }).run demo_draws 2560007
        = .ok (some Lf) ∧ Lf.pc = .returned ∧
      (swarm.loop_updates demo_draws 2560007 s1.loop_entry : Int) = Lf.k + 1 ∧
      swarm.loop_updates demo_draws 2560007 s1.loop_entry ≤ 640002 :=
  ⟨fun x => ⟨_, rfl⟩, by norm_num, le_refl _,
    C11_run_terminates demo_draws 1 sphere { param_type.default with n := 2 }
      (fun x => ⟨_, rfl⟩) (by norm_num) 2560007 (le_refl _)⟩

/-- C12, refuted on particle.hpp: a promotion by the swarmer at `p` is to leave
every swarmer of the neighbor list `nb` of its former leader `sl` with `p` as
leader, and `p` its own leader.  `lead()` of newswarmer.cpp and swarmer.cpp
completes and does so.  `promote()` of particle.hpp does not complete: on the
two objects of particle.cpp, both led by object 0, which holds the list
`[1, 0]`, the first `update()` of object 1 calls `promote()`, and the turn of
its loop that repoints the former leader deletes the former leader, which the
end of that turn deletes a second time; this is so whichever control block
`std::enable_shared_from_this` records. -/
theorem C12_lead_repoints_promote_deletes {h : List swarmer} {p : Nat} {sp sl : swarmer}
    {nb : List Nat}
    (hp : h[p]? = some sp) (hl : h[sp.leader]? = some sl) (hnb : sl.neighbors = some nb) :
    (∃ h1, swarmer.lead h p = .ok h1 ∧
      (∀ s ∈ nb, s < h.length → (h1[s]?).map swarmer.leader = some p) ∧
      (h1[p]?).map swarmer.leader = some p) ∧
    (∀ latest : Bool,
      (particle_hpp.pair latest).toOption.map particle_hpp.store.links
        = some [(0, 0, some [1, 0]), (1, 0, none)] ∧
      (particle_hpp.pair latest >>= fun m =>
          particle_hpp.swarmer.update particle_hpp.accumulate m 1)
        = .error (particle_hpp.fault.double_delete 0)) := by
  obtain ⟨h1, h1ok, e1⟩ := lead_ok hp hl hnb
  refine ⟨⟨h1, h1ok, ?_, ?_⟩, ?_⟩
  · intro s hs hlt
    rw [e1 s, List.getElem?_eq_getElem hlt]
    simp [swarmer.promoted, hs]
  · rw [e1 p, hp]
    simp [swarmer.promoted]
  · intro latest
    cases latest
    · exact ⟨by decide!, eq_error_of_fault_of (by decide!)⟩
    · exact ⟨by decide!, eq_error_of_fault_of (by decide!)⟩

/-- C12 on the swarm of two swarmers `race_heap` of newswarmer.cpp, for `lead()`
on swarmer 1, whose leader is swarmer 0 with the neighbor list `[1, 0]`. -/
theorem C12_lead_repoints_promote_deletes_witness :
    (∃ h1, swarmer.lead race_heap 1 = .ok h1 ∧
      (∀ s ∈ [1, 0], s < race_heap.length → (h1[s]?).map swarmer.leader = some 1) ∧
      (h1[1]?).map swarmer.leader = some 1) ∧
    (∀ latest : Bool,
      (particle_hpp.pair latest).toOption.map particle_hpp.store.links
        = some [(0, 0, some [1, 0]), (1, 0, none)] ∧
      (particle_hpp.pair latest >>= fun m =>
          particle_hpp.swarmer.update particle_hpp.accumulate m 1)
        = .error (particle_hpp.fault.double_delete 0)) :=
  @C12_lead_repoints_promote_deletes race_heap 1 race_s1 race_s0 [1, 0]
    (by decide!) (by decide!) (by decide!)

/-- C13: in every state reached from a swarm built by the constructor and copy
constructions from that prototype, through any sequence of completed `lead()`
calls, all leader references are one address `L`, the swarmer at `L` is its own
leader, it is the only one holding a neighbor list, and the list is a permutation
of all the addresses of the swarm. -/
theorem C13_led_swarm_invariant {draws : Nat → Nat → ℚ} {f : objective} {n : Nat}
    {h : List swarmer} (hl : swarmer.Led draws f n h) :
    ∃ L nb, swarmer.well_led h L nb :=
  led_well_led hl

/-- C13 on the swarm of two swarmers `race_heap` after a promotion of swarmer 1. -/
theorem C13_led_swarm_invariant_witness :
    swarmer.Led race_draws sphere 1 race_led ∧ ∃ L nb, swarmer.well_led race_led L nb :=
  have hled : swarmer.Led race_draws sphere 1 race_led :=
    swarmer.Led.lead (swarmer.Led.built (swarmer.Built.copy swarmer.Built.proto race_heap_ok))
      (except_eq_ok_getD [] (by decide!))
  ⟨hled, C13_led_swarm_invariant hled⟩

/-- C14, refuted on the code: two swarmers on the 1-dimensional sphere, built by
the constructor and one copy construction and started.  Swarmer 1 makes its
improvement test (9/100 against the initial infinite cost of leader 0) and is
about to call `lead()`; swarmer 0 then completes an update with personal best
1/25, so that the designated leader holds cost 1/25; the `lead()` of swarmer 1,
which does not test again, makes swarmer 1 the leader: the cost held by the
designated leader goes from 1/25 up to 9/100. -/
theorem C14_leader_cost_increases :
    swarmer.copy race_draws sphere race_proto 0 = .ok race_heap ∧
    swarmer.start race_heap 0 = .ok race_start ∧
    swarmer.run_schedule race_draws sphere swarmer.statics.default race_start
      [1, 1, 1, 0, 0, 0] = .ok (race_after [1, 1, 1, 0, 0, 0]) ∧
    (race_after [1, 1, 1, 0, 0, 0]).pcs = [worker_pc.loop_head, worker_pc.leading] ∧
    (race_after [1, 1, 1, 0, 0, 0]).leader_cost 0 = .ok (((1 / 25 : ℚ)) : WithTop ℚ) ∧
    (race_after [1, 1, 1, 0, 0, 0]).leader_cost 1 = .ok (((1 / 25 : ℚ)) : WithTop ℚ) ∧
    swarmer.worker_step race_draws sphere swarmer.statics.default
      (race_after [1, 1, 1, 0, 0, 0]) 1 = .ok (race_after [1, 1, 1, 0, 0, 0, 1]) ∧
    (race_after [1, 1, 1, 0, 0, 0, 1]).leader_cost 0 = .ok (((9 / 100 : ℚ)) : WithTop ℚ) ∧
    (race_after [1, 1, 1, 0, 0, 0, 1]).leader_cost 1 = .ok (((9 / 100 : ℚ)) : WithTop ℚ) :=
  ⟨race_heap_ok, race_start_ok, race_after_ok _ (by decide!), by decide!,
    except_eq_ok_of_toOption (by decide!), except_eq_ok_of_toOption (by decide!),
    except_eq_ok_of_toOption (by decide!),
    except_eq_ok_of_toOption (by decide!), except_eq_ok_of_toOption (by decide!)⟩

/-- C15, refuted on the code: in the run of C14 continued until both threads
have left the loop of `operator()`, every thread has finished, `best_solution()`
returns the cost 9/100 of the recorded leader, swarmer 1, and swarmer 0 holds the
personal best 1/25: the promotion that swarmer 0 was entitled to is lost. -/
theorem C15_recorded_leader_not_minimum :
    swarmer.run_schedule race_draws sphere swarmer.statics.default race_start
      [1, 1, 1, 0, 0, 0, 1, 0, 1] = .ok (race_after [1, 1, 1, 0, 0, 0, 1, 0, 1]) ∧
    (race_after [1, 1, 1, 0, 0, 0, 1, 0, 1]).joined ∧
    (race_after [1, 1, 1, 0, 0, 0, 1, 0, 1]).leader_cost 0 = .ok (((9 / 100 : ℚ)) : WithTop ℚ) ∧
    (race_after [1, 1, 1, 0, 0, 0, 1, 0, 1]).leader_cost 1 = .ok (((9 / 100 : ℚ)) : WithTop ℚ) ∧
    ((race_after [1, 1, 1, 0, 0, 0, 1, 0, 1]).heap.map (fun q => q.local_best.1))
      = [(((1 / 25 : ℚ)) : WithTop ℚ), (((9 / 100 : ℚ)) : WithTop ℚ)] :=
  ⟨race_after_ok _ (by decide!), by decide!,
    except_eq_ok_of_toOption (by decide!), except_eq_ok_of_toOption (by decide!), by decide!⟩

/-- C16, as stated, fails: the construction of a swarm of four-dimensional
particles on `beale` completes, with twenty particles of four zero components
and four caps; no error is raised until `initialize` evaluates the objective. -/
theorem C16_counterexample :
    (swarm.construct 4 beale param_type.default).super.length = 20 ∧
    (swarm.construct 4 beale param_type.default).super[0]? = some (particle.ofDim 4) ∧
    (swarm.construct 4 beale param_type.default).vmax = [9 / 2, 9 / 2, 9 / 2, 9 / 2] ∧
    (swarm.construct 4 beale param_type.default).leader = 0 ∧
    ((swarm.construct 4 beale param_type.default).initialise zero_draws).toOption.isSome
      = false := by
  refine ⟨by decide!, by decide!, by decide!, rfl, by decide!⟩

/-- C16, amended: for a population of at least one particle of dimension
`d` other than 2 on `beale`, the constructor completes and the mismatch is
raised as the `std::logic_error` of the objective by the first evaluation in
`initialize`; `operator()` ends with that error whatever the draws, before any
particle update. -/
theorem C16_mismatch_raised_by_initialise (draws : Nat → ℚ) (d : Nat) (p : param_type)
    (hd : d ≠ 2) (hn : 1 ≤ p.n) :
    (swarm.construct d beale p).initialise draws
      = .error (.logic_error "must have exactly 2 dimensions") ∧
    ∀ fuel, (swarm.construct d beale p).run draws fuel
      = .error (.logic_error "must have exactly 2 dimensions") := by
  have hlen := construct_length d beale p hn
  obtain ⟨hrl, _, _, hall⟩ := randomize_spec draws (swarm.construct d beale p)
  have h0 : 0 < ((swarm.construct d beale p).randomize draws).super.length := by
    rw [hrl]; exact hlen
  have hq := List.getElem?_eq_getElem h0
  obtain ⟨q0, hq0, hql⟩ := hall 0 _ hq
  have hq0d : q0 = particle.ofDim d := construct_getElem? d beale p 0 q0 hq0
  have hqlen : (((swarm.construct d beale p).randomize draws).super[0]).super.length = d := by
    rw [hql, hq0d]; simp [particle.ofDim]
  have hcall : (swarm.construct d beale p).f.call
      (((swarm.construct d beale p).randomize draws).super[0]).super
      = .error (.logic_error "must have exactly 2 dimensions") := by
    exact beale_call_error _ (by rw [hqlen]; exact hd)
  have hinit := initialise_error_first hq hcall
  refine ⟨hinit, fun fuel => ?_⟩
  simp [swarm.run, hinit, bind, Except.bind]

/-- Instance of C16 (amended): twenty particles of dimension 4 on `beale`. -/
theorem C16_mismatch_raised_by_initialise_witness :
    (4 : Nat) ≠ 2 ∧ (1 : ℚ) ≤ param_type.default.n ∧
    (swarm.construct 4 beale param_type.default).initialise zero_draws
      = .error (.logic_error "must have exactly 2 dimensions") ∧
    ∀ fuel, (swarm.construct 4 beale param_type.default).run zero_draws fuel
      = .error (.logic_error "must have exactly 2 dimensions") :=
  ⟨by decide, by norm_num [param_type.default],
    C16_mismatch_raised_by_initialise zero_draws 4 param_type.default (by decide)
      (by norm_num [param_type.default])⟩

/-- C17, as stated, fails: with negative coefficients `c1 = c2 = -2` the
constructor yields a swarm of two particles, `initialize` completes and
`operator()` is running without error after its first transitions; with a
population size of zero the constructor yields an empty swarm and `operator()`
runs on without error and without returning. -/
theorem C17_counterexample :
    (swarm.construct 1 sphere negative_param).super.length = 2 ∧
    (swarm.construct 1 sphere negative_param).param.c1 = -2 ∧
    ((swarm.construct 1 sphere negative_param).initialise demo_draws).toOption.isSome = true ∧
    ((swarm.construct 1 sphere negative_param).run demo_draws 3).toOption.map Option.isSome
      = some false ∧
    (swarm.construct 1 sphere empty_param).super = [] ∧
    ((swarm.construct 1 sphere empty_param).run demo_draws 6).toOption.map Option.isSome
      = some false := by
  refine ⟨by decide!, by decide!, by decide!, by decide!, by decide!, by decide!⟩

/-- C17, amended: the constructor validates nothing.  For parameters `p` with a
population of at least one particle and a total objective, whatever the signs
of `c1` and `c2`, `initialize` completes and `operator()` returns normally; for
parameters `p0` with a population size in `[0, 1)` the constructor yields an
empty swarm, on which `operator()` raises nothing and never returns. -/
theorem C17_no_validation (draws : Nat → ℚ) (d : Nat) (f : objective) (p p0 : param_type)
    (htot : ∀ x, ∃ c, f.call x = .ok c) (hn : 1 ≤ p.n) (h0 : 0 ≤ p0.n) (h1 : p0.n < 1) :
    (∃ s1, (swarm.construct d f p).initialise draws = .ok s1) ∧
    (∀ fuel, 2560007 ≤ fuel →
      ∃ Lf, (swarm.construct d f p).run draws fuel = .ok (some Lf) ∧ Lf.pc = .returned) ∧
    (swarm.construct d f p0).super = [] ∧
    (∀ fuel, (swarm.construct d f p0).run draws fuel = .ok none) := by
  refine ⟨?_, ?_, construct_empty d f p0 h0 h1, ?_⟩
  · obtain ⟨s1, _, hinit, _⟩ := run_terminates draws d f p htot hn 2560007 (le_refl _)
    exact ⟨s1, hinit⟩
  · intro fuel hfuel
    obtain ⟨_, Lf, _, hrun, hret, _⟩ := run_terminates draws d f p htot hn fuel hfuel
    exact ⟨Lf, hrun, hret⟩
  · intro fuel
    have hempty := construct_empty d f p0 h0 h1
    have hr := (randomize_spec draws (swarm.construct d f p0)).1
    rw [hempty, List.length_nil] at hr
    have hinit : (swarm.construct d f p0).initialise draws
        = .ok ((swarm.construct d f p0).randomize draws) := by
      unfold swarm.initialise
      rw [hr]
      rfl
    simp only [swarm.run, hinit, bind, Except.bind]
    exact loop_empty draws _ rfl rfl hr fuel

/-- Instance of C17 (amended): negative coefficients with two particles, and a
population size of zero, on the sphere objective. -/
theorem C17_no_validation_witness :
    (∀ x, ∃ c, sphere.call x = .ok c) ∧ 1 ≤ negative_param.n ∧
    0 ≤ empty_param.n ∧ empty_param.n < 1 ∧
    negative_param.c1 < 0 ∧ negative_param.c2 < 0 ∧
    ((∃ s1, (swarm.construct 1 sphere negative_param).initialise demo_draws = .ok s1) ∧
    (∀ fuel, 2560007 ≤ fuel →
      ∃ Lf, (swarm.construct 1 sphere negative_param).run demo_draws fuel = .ok (some Lf) ∧
        Lf.pc = .returned) ∧
    (swarm.construct 1 sphere empty_param).super = [] ∧
    (∀ fuel, (swarm.construct 1 sphere empty_param).run demo_draws fuel = .ok none)) :=
  ⟨fun x => ⟨_, rfl⟩, by norm_num [negative_param, param_type.default],
    by norm_num [empty_param, param_type.default],
    by norm_num [empty_param, param_type.default],
    by norm_num [negative_param, param_type.default],
    by norm_num [negative_param, param_type.default],
    C17_no_validation demo_draws 1 sphere negative_param empty_param (fun x => ⟨_, rfl⟩)
      (by norm_num [negative_param, param_type.default])
      (by norm_num [empty_param, param_type.default])
      (by norm_num [empty_param, param_type.default])⟩

/-- C18: the fixed-arity objectives fail exactly on a dimensionality mismatch:
`beale`, `booth` and `branin` raise an error if and only if the position has a
length other than 2, `colville` if and only if the length is other than 4, and
each returns a cost exactly for a position of the matching length. -/
theorem C18_fixed_arity_objectives :
    (∀ x : List ℚ, (∃ e, beale.call x = .error e) ↔ x.length ≠ 2) ∧
    (∀ x : List ℚ, (∃ c, beale.call x = .ok c) ↔ x.length = 2) ∧
    (∀ x : List ℚ, (∃ e, booth.call x = .error e) ↔ x.length ≠ 2) ∧
    (∀ x : List ℚ, (∃ c, booth.call x = .ok c) ↔ x.length = 2) ∧
    (∀ x : List ℚ, (∃ e, branin.call x = .error e) ↔ x.length ≠ 2) ∧
    (∀ x : List ℚ, (∃ c, branin.call x = .ok c) ↔ x.length = 2) ∧
    (∀ x : List ℚ, (∃ e, colville.call x = .error e) ↔ x.length ≠ 4) ∧
    (∀ x : List ℚ, (∃ c, colville.call x = .ok c) ↔ x.length = 4) := by
  refine ⟨?_, ?_, ?_, ?_, ?_, ?_, ?_, ?_⟩ <;> intro x
  · by_cases h : x.length = 2 <;> simp [beale, h]
  · by_cases h : x.length = 2 <;> simp [beale, h]
  · by_cases h : x.length = 2 <;> simp [booth, h]
  · by_cases h : x.length = 2 <;> simp [booth, h]
  · by_cases h : x.length = 2 <;> simp [branin, h]
  · by_cases h : x.length = 2 <;> simp [branin, h]
  · by_cases h : x.length = 4 <;> simp [colville, h]
  · by_cases h : x.length = 4 <;> simp [colville, h]

/-- C19: in `swarm::update`, for every dimension `j` the new position component
is the old position component plus the new, already clamped, velocity
component, `x1[j] = x[j] + v1[j]`; the cost that `update` compares and stores is
the objective evaluated at this new position. -/
theorem C19_update_position_rule (draws : Nat → ℚ) (s : swarm) (i : Nat) (pi pl : particle)
    (cost : ℚ)
    (hi : s.super[i]? = some pi) (hl : s.super[s.leader]? = some pl)
    (hc : s.f.call (s.new_position draws pi pl) = .ok cost) :
    ∃ b s1 pi1, s.update draws i = .ok (b, s1) ∧ s1.super[i]? = some pi1 ∧
      (∀ (j : Nat) (x v1 : ℚ), pi.super[j]? = some x → pi1.velocity[j]? = some v1 →
        pi1.super[j]? = some (x + v1)) ∧
      s.f.call pi1.super = .ok cost ∧
      pi1.local_best =
        if (cost : WithTop ℚ) < pi.local_best.1 then ((cost : WithTop ℚ), pi1.super)
        else pi.local_best := by
  refine ⟨_, _, _, update_ok draws s i pi pl cost hi hl hc,
    update_result_getElem? draws s i pi pl cost hi, ?_, hc, rfl⟩
  intro j x v1 hx hv
  show (List.zipWith (· + ·) pi.super (s.new_velocity draws pi pl))[j]? = _
  have hv1 : (s.new_velocity draws pi pl)[j]? = some v1 := hv
  simp [List.getElem?_zipWith, hx, hv1]

/-- Instance of C19 on `demo_swarm`, particle 1. -/
theorem C19_update_position_rule_witness :
    demo_swarm.super[1]? = some demo_p1 ∧ demo_swarm.super[demo_swarm.leader]? = some demo_p0 ∧
    demo_swarm.f.call (demo_swarm.new_position half_draws demo_p1 demo_p0) = .ok 0 ∧
    ∃ b s1 pi1, demo_swarm.update half_draws 1 = .ok (b, s1) ∧ s1.super[1]? = some pi1 ∧
      (∀ (j : Nat) (x v1 : ℚ), demo_p1.super[j]? = some x → pi1.velocity[j]? = some v1 →
        pi1.super[j]? = some (x + v1)) ∧
      demo_swarm.f.call pi1.super = .ok 0 ∧
      pi1.local_best =
        if ((0 : ℚ) : WithTop ℚ) < demo_p1.local_best.1 then (((0 : ℚ) : WithTop ℚ), pi1.super)
        else demo_p1.local_best :=
  ⟨rfl, rfl, by decide!,
    C19_update_position_rule half_draws demo_swarm 1 demo_p1 demo_p0 0 rfl rfl (by decide!)⟩

/-- C20: after the construction of a swarm of dimensionality `d` with
velocity-cap fraction `k`, there are `d` caps and for every `i < d` the cap is
`vmax[i] = k * (high[i] - low[i])` with `(low[i], high[i]) = domain(i)`. -/
theorem C20_constructor_caps (d : Nat) (f : objective) (p : param_type) (i : Nat)
    (hi : i < d) :
    (swarm.construct d f p).vmax.length = d ∧
    (swarm.construct d f p).vmax[i]? = some (p.k * ((f.domain i).2 - (f.domain i).1)) := by
  constructor
  · simp [swarm.construct, swarm.vmax_init]
  · simp [swarm.construct, swarm.vmax_init, List.getElem?_range hi, mul_comm]

/-- Instance of C20: the second cap of a two-dimensional swarm on `beale`. -/
theorem C20_constructor_caps_witness :
    1 < 2 ∧
    (swarm.construct 2 beale param_type.default).vmax.length = 2 ∧
    (swarm.construct 2 beale param_type.default).vmax[1]?
      = some (param_type.default.k * ((beale.domain 1).2 - (beale.domain 1).1)) :=
  ⟨by decide, C20_constructor_caps 2 beale param_type.default 1 (by decide)⟩

/-- C21: after `randomize`, and so after `initialize`, which moves no particle,
for every particle and every dimension `j`: if `low[j] <= high[j]` for
`(low[j], high[j]) = domain(j)` the position component `j` lies in
`[low[j], high[j]]`, and if `vmax[j] >= 0` the velocity component `j` lies in
`[-vmax[j], vmax[j]]`, for every stream of draws in the unit interval. -/
theorem C21_randomize_within_bounds (draws : Nat → ℚ) (hd : ∀ n, 0 ≤ draws n ∧ draws n < 1)
    (s : swarm) :
    (∀ q ∈ (s.randomize draws).super, ∀ (j : Nat),
      (∀ x : ℚ, q.super[j]? = some x → (s.f.domain j).1 ≤ (s.f.domain j).2 →
        (s.f.domain j).1 ≤ x ∧ x ≤ (s.f.domain j).2) ∧
      (∀ v vm : ℚ, q.velocity[j]? = some v → s.vmax[j]? = some vm → 0 ≤ vm →
        -vm ≤ v ∧ v ≤ vm)) ∧
    (∀ s1, s.initialise draws = .ok s1 → ∀ q ∈ s1.super, ∀ (j : Nat),
      (∀ x : ℚ, q.super[j]? = some x → (s.f.domain j).1 ≤ (s.f.domain j).2 →
        (s.f.domain j).1 ≤ x ∧ x ≤ (s.f.domain j).2) ∧
      (∀ v vm : ℚ, q.velocity[j]? = some v → s1.vmax[j]? = some vm → 0 ≤ vm →
        -vm ≤ v ∧ v ≤ vm)) := by
  refine ⟨randomize_within draws hd s, ?_⟩
  intro s1 hinit q hq j
  obtain ⟨hvmax, _, _, hfr⟩ := initialise_frame hinit
  obtain ⟨q0, hq0, hvel, hpos⟩ := hfr q hq
  rw [hvel, hpos, hvmax]
  exact randomize_within draws hd s q0 hq0 j

/-- Instance of C21: `demo_fresh` under `demo_draws`, whose values are
`0, 1/4, 1/2, 3/4`. -/
theorem C21_randomize_within_bounds_witness :
    (∀ n, 0 ≤ demo_draws n ∧ demo_draws n < 1) ∧
    (∀ q ∈ (demo_fresh.randomize demo_draws).super, ∀ (j : Nat),
      (∀ x : ℚ, q.super[j]? = some x → (demo_fresh.f.domain j).1 ≤ (demo_fresh.f.domain j).2 →
        (demo_fresh.f.domain j).1 ≤ x ∧ x ≤ (demo_fresh.f.domain j).2) ∧
      (∀ v vm : ℚ, q.velocity[j]? = some v → demo_fresh.vmax[j]? = some vm → 0 ≤ vm →
        -vm ≤ v ∧ v ≤ vm)) ∧
    (demo_fresh.randomize demo_draws).super.map (fun q => (q.super, q.velocity))
      = [([-128 / 25], [0]), ([-64 / 25], [64 / 25])] :=
  ⟨demo_draws_unit, (C21_randomize_within_bounds demo_draws demo_draws_unit demo_fresh).1,
    by decide!⟩

/-- C22, as stated, fails: in the run of `operator()` on `demo_fresh` under
`improve_draws`, the update of particle 1 moves it from `2` to `1`, its personal
best improves from cost `4` to cost `1`, which does not beat the cost `1` of the
leader, and `update` reports `false`. -/
theorem C22_counterexample :
    swarm.Reachable improve_draws demo_fresh (demo_at improve_draws 3) ∧
    (demo_at improve_draws 3).pc = .for_head ∧ (demo_at improve_draws 3).i = 1 ∧
    ((demo_at improve_draws 3).s.super[1]?).map (fun q => q.local_best)
      = some (((4 : ℚ) : WithTop ℚ), [2]) ∧
    ((demo_at improve_draws 3).s.update improve_draws 1).toOption.map
        (fun r => (r.1, (r.2.super[1]?).map (fun q => q.local_best)))
      = some (false, some (((1 : ℚ) : WithTop ℚ), [1])) :=
  ⟨trace_reachable 3 _ (demo_at_ok improve_draws 3 (by decide!)), by decide!, by decide!, by decide!,
    by decide!⟩

/-- C22, amended: the boolean reported by `swarm::update` is true exactly when
the personal best of the particle improved in that update and the particle is
the leader when `update` returns, that is, it was the leader already or the new
cost is also below the personal-best cost of the leader; where the leader holds
the least personal-best cost, that is exactly when the new cost is below the
global-best cost. -/
theorem C22_update_reports_leadership (draws : Nat → ℚ) (s : swarm) (i : Nat)
    (pi pl : particle) (cost : ℚ)
    (hi : s.super[i]? = some pi) (hl : s.super[s.leader]? = some pl)
    (hc : s.f.call (s.new_position draws pi pl) = .ok cost) :
    ∃ b s1, s.update draws i = .ok (b, s1) ∧
      (b = true ↔ (cost : WithTop ℚ) < pi.local_best.1 ∧
        (s.leader = i ∨ (cost : WithTop ℚ) < pl.local_best.1)) ∧
      (b = true ↔ (cost : WithTop ℚ) < pi.local_best.1 ∧ s1.leader = i) ∧
      (s.best_le_all → (b = true ↔ (cost : WithTop ℚ) < pl.local_best.1)) := by
  have hpl : s.leader = i → pl = pi := by
    intro e; rw [e, hi] at hl; injection hl with hl; exact hl.symm
  have hb : (s.update_result draws i pi pl cost).1 = true ↔
      (cost : WithTop ℚ) < pi.local_best.1 ∧
        (s.leader = i ∨ (cost : WithTop ℚ) < pl.local_best.1) := by
    unfold swarm.update_result
    by_cases h1 : (cost : WithTop ℚ) < pi.local_best.1 <;> simp [h1]
  have hlead := update_result_leader draws s i pi pl cost
  refine ⟨(s.update_result draws i pi pl cost).1, (s.update_result draws i pi pl cost).2,
    update_ok draws s i pi pl cost hi hl hc, hb, ?_, ?_⟩
  · rw [hb, hlead]
    by_cases h1 : (cost : WithTop ℚ) < pi.local_best.1
    · by_cases h2 : (cost : WithTop ℚ) < pl.local_best.1
      · simp [h1, h2]
      · simp [h1, h2]
    · simp [h1]
  · intro hinv
    obtain ⟨pl0, hpl0, hle⟩ := hinv pi (List.getElem?_mem hi)
    rw [hl] at hpl0
    injection hpl0 with hpl0
    subst hpl0
    rw [hb]
    constructor
    · rintro ⟨h1, h2 | h2⟩
      · rw [hpl h2]; exact h1
      · exact h2
    · intro h2
      exact ⟨lt_of_lt_of_le h2 hle, Or.inr h2⟩

/-- Instance of C22 (amended) on `demo_swarm`, particle 1, which moves to `1`
under `zero_draws`: the personal best improves and `false` is reported. -/
theorem C22_update_reports_leadership_witness :
    demo_swarm.super[1]? = some demo_p1 ∧ demo_swarm.super[demo_swarm.leader]? = some demo_p0 ∧
    demo_swarm.f.call (demo_swarm.new_position zero_draws demo_p1 demo_p0) = .ok 1 ∧
    demo_swarm.best_le_all ∧
    ∃ b s1, demo_swarm.update zero_draws 1 = .ok (b, s1) ∧
      (b = true ↔ ((1 : ℚ) : WithTop ℚ) < demo_p1.local_best.1 ∧
        (demo_swarm.leader = 1 ∨ ((1 : ℚ) : WithTop ℚ) < demo_p0.local_best.1)) ∧
      (b = true ↔ ((1 : ℚ) : WithTop ℚ) < demo_p1.local_best.1 ∧ s1.leader = 1) ∧
      (demo_swarm.best_le_all → (b = true ↔ ((1 : ℚ) : WithTop ℚ) < demo_p0.local_best.1)) :=
  ⟨rfl, rfl, by decide!, demo_swarm_best_le_all,
    C22_update_reports_leadership zero_draws demo_swarm 1 demo_p1 demo_p0 1 rfl rfl (by decide!)⟩

/-- C23, refuted on particle.hpp: a promotion by the swarmer at `p`, whose former
leader holds the neighbor list `nb`, is to transfer the list: afterwards `p`
holds exactly `nb`, the former leader, when it is not `p`, holds no list, every
other swarmer holds what it held, the swarm has the same swarmers, and no
position, velocity, personal best or generator is changed.  `lead()` of
newswarmer.cpp and swarmer.cpp completes and does so.  `promote()` of
particle.hpp transfers nothing: on a prototype with two copies, all led by
object 0, which holds the list `[2, 1, 0]`, `promote()` on object 1 repoints
objects 2 and 1, and the assignment that repoints the former leader deletes the
former leader with its list and, with the list, object 2; the end of that turn of
the loop deletes the former leader a second time, before the statement that
moves the list; `promote()` on object 2 ends in the same way.  This is so
whichever control block `std::enable_shared_from_this` records. -/
theorem C23_lead_transfers_promote_deletes {h : List swarmer} {p : Nat} {sp sl : swarmer}
    {nb : List Nat}
    (hp : h[p]? = some sp) (hl : h[sp.leader]? = some sl) (hnb : sl.neighbors = some nb) :
    (∃ h1, swarmer.lead h p = .ok h1 ∧ h1.length = h.length ∧
      (h1[p]?).map swarmer.neighbors = some (some nb) ∧
      (sp.leader ≠ p → (h1[sp.leader]?).map swarmer.neighbors = some none) ∧
      (∀ (i : Nat) (q : swarmer), h[i]? = some q → i ≠ p → i ≠ sp.leader →
        (h1[i]?).map swarmer.neighbors = some q.neighbors) ∧
      (∀ (i : Nat) (q : swarmer), h[i]? = some q →
        ∃ q1, h1[i]? = some q1 ∧ q1.super = q.super ∧ q1.velocity = q.velocity ∧
          q1.local_best = q.local_best ∧ q1.rng = q.rng)) ∧
    (∀ latest : Bool,
      (particle_hpp.trio latest).toOption.map particle_hpp.store.links
        = some [(0, 0, some [2, 1, 0]), (1, 0, none), (2, 0, none)] ∧
      (particle_hpp.trio_repointed latest).toOption.map particle_hpp.store.links
        = some [(1, 1, none)] ∧
      (particle_hpp.trio latest >>= fun m => particle_hpp.swarmer.promote m 1)
        = .error (particle_hpp.fault.double_delete 0) ∧
      (particle_hpp.trio latest >>= fun m => particle_hpp.swarmer.promote m 2)
        = .error (particle_hpp.fault.double_delete 0)) := by
  have hlt : sp.leader < h.length := (List.getElem?_eq_some_iff.mp hl).1
  obtain ⟨h1, h1ok, e1⟩ := lead_ok hp hl hnb
  obtain ⟨a1, a2, a3, a4, a5⟩ := promoted_frame hp e1
  refine ⟨⟨h1, h1ok, a1, a2, fun hne => a3 hne hlt, a4, a5⟩, ?_⟩
  intro latest
  cases latest
  · exact ⟨by decide!, by decide!, eq_error_of_fault_of (by decide!),
      eq_error_of_fault_of (by decide!)⟩
  · exact ⟨by decide!, by decide!, eq_error_of_fault_of (by decide!),
      eq_error_of_fault_of (by decide!)⟩

/-- C23 on the swarm of two swarmers `race_heap` of newswarmer.cpp, for `lead()`
on swarmer 1, whose leader is swarmer 0 with the neighbor list `[1, 0]`. -/
theorem C23_lead_transfers_promote_deletes_witness :
    (∃ h1, swarmer.lead race_heap 1 = .ok h1 ∧ h1.length = race_heap.length ∧
      (h1[1]?).map swarmer.neighbors = some (some [1, 0]) ∧
      (race_s1.leader ≠ 1 → (h1[race_s1.leader]?).map swarmer.neighbors = some none) ∧
      (∀ (i : Nat) (q : swarmer), race_heap[i]? = some q → i ≠ 1 → i ≠ race_s1.leader →
        (h1[i]?).map swarmer.neighbors = some q.neighbors) ∧
      (∀ (i : Nat) (q : swarmer), race_heap[i]? = some q →
        ∃ q1, h1[i]? = some q1 ∧ q1.super = q.super ∧ q1.velocity = q.velocity ∧
          q1.local_best = q.local_best ∧ q1.rng = q.rng)) ∧
    (∀ latest : Bool,
      (particle_hpp.trio latest).toOption.map particle_hpp.store.links
        = some [(0, 0, some [2, 1, 0]), (1, 0, none), (2, 0, none)] ∧
      (particle_hpp.trio_repointed latest).toOption.map particle_hpp.store.links
        = some [(1, 1, none)] ∧
      (particle_hpp.trio latest >>= fun m => particle_hpp.swarmer.promote m 1)
        = .error (particle_hpp.fault.double_delete 0) ∧
      (particle_hpp.trio latest >>= fun m => particle_hpp.swarmer.promote m 2)
        = .error (particle_hpp.fault.double_delete 0)) :=
  @C23_lead_transfers_promote_deletes race_heap 1 race_s1 race_s0 [1, 0]
    (by decide!) (by decide!) (by decide!)

/-- C24, as stated, fails: in the swarm built from a prototype and one copy
construction, the leader reference of the copy, swarmer 1, is the prototype,
swarmer 0, not swarmer 1 itself. -/
theorem C24_counterexample :
    swarmer.Built race_draws sphere 1 race_heap ∧ race_heap.length = 2 ∧
    (race_heap[1]?).map swarmer.leader = some 0 :=
  ⟨swarmer.Built.copy swarmer.Built.proto race_heap_ok, by decide!, by decide!⟩

/-- C24, amended: immediately after the swarm has been built, one swarmer
constructed and the others copy-constructed from it, every leader reference
points to the prototype, the swarmer constructed first; the prototype is the
only swarmer whose leader reference points to itself. -/
theorem C24_built_leader_is_prototype {draws : Nat → Nat → ℚ} {f : objective} {n : Nat}
    {h : List swarmer} (hb : swarmer.Built draws f n h) :
    0 < h.length ∧ ∀ (i : Nat) (q : swarmer), h[i]? = some q →
      q.leader = 0 ∧ (q.leader = i ↔ i = 0) := by
  obtain ⟨nb, hall, ⟨q0, hq0, _, _⟩, _, _⟩ := built_well_led hb
  refine ⟨(List.getElem?_eq_some_iff.mp hq0).1, fun i q hq => ?_⟩
  have h0 := hall i q hq
  refine ⟨h0, ?_⟩
  rw [h0]
  exact ⟨fun e => e.symm, fun e => e.symm⟩

/-- Instance of C24 (amended) on `race_heap`. -/
theorem C24_built_leader_is_prototype_witness :
    swarmer.Built race_draws sphere 1 race_heap ∧
    0 < race_heap.length ∧ ∀ (i : Nat) (q : swarmer), race_heap[i]? = some q →
      q.leader = 0 ∧ (q.leader = i ↔ i = 0) :=
  ⟨swarmer.Built.copy swarmer.Built.proto race_heap_ok,
    C24_built_leader_is_prototype (swarmer.Built.copy swarmer.Built.proto race_heap_ok)⟩

/-- C25: in the loop of `operator()`, let `La` be the state right after the
update of a particle, `g` the leader's personal best in `La`, and `L` the head
of the loop reached from `La` through the decay test and the exit test.  Then
`L` is about to update the next particle, and the velocity this update writes is
computed with `g.2`, the global-best position as left by the updates executed so
far in the sweep. -/
theorem C25_live_global_best (draws : Nat → ℚ) (La Lb L L1 : loop_state) (g : solution)
    (pj : particle)
    (hpa : La.pc = .updated) (hab : swarm.step draws La = .ok Lb)
    (hbc : swarm.step draws Lb = .ok L) (hpc : L.pc = .for_head)
    (hi : L.i ≠ L.s.super.length) (hg : La.s.best_solution = .ok g)
    (hj : L.s.super[L.i]? = some pj) (hstep : swarm.step draws L = .ok L1) :
    L.i = La.i + 1 ∧ L.s.best_solution = .ok g ∧
    ∃ pj1, L1.s.super[L.i]? = some pj1 ∧
      pj1.velocity = (swarm.velocity_transform draws L.s.param L.s.rng pj.velocity pj.super
        L.s.vmax pj.local_best.2 g.2).1 := by
  obtain ⟨hsup, hlead, hLi⟩ := between_updates hpa hab hbc hpc
  obtain ⟨pl, hpl, hplg⟩ := best_solution_eq_ok.mp hg
  have hpl1 : L.s.super[L.s.leader]? = some pl := by rw [hsup, hlead]; exact hpl
  refine ⟨hLi, best_solution_eq_ok.mpr ⟨pl, hpl1, hplg⟩, ?_⟩
  rcases step_for_head hpc hstep with ⟨h0, _⟩ | ⟨_, r, hr, hL1⟩
  · exact absurd h0 hi
  · obtain ⟨pi, pl0, cost, hpi, hpl0, _, hres⟩ := update_inv hr
    rw [hj] at hpi
    injection hpi with hpi
    rw [hpl1] at hpl0
    injection hpl0 with hpl0
    subst hpi
    subst hpl0
    have hs1 : L1.s = (L.s.update_result draws L.i pj pl cost).2 := by rw [hL1, hres]
    refine ⟨_, by rw [hs1]; exact update_result_getElem? draws L.s L.i pj pl cost hj, ?_⟩
    show L.s.new_velocity draws pj pl = _
    rw [← hplg]
    rfl

/-- Instance of C25: `demo_fresh` under `live_draws`.  The sweep starts with the
global-best position `[1]`; the update of particle 0 improves it to `[1/2]`, and
the update of particle 1 is computed with `[1/2]`: its velocity is `-5/2`, where
the position `[1]` would have given `-2`. -/
theorem C25_live_global_best_witness :
    (demo_at live_draws 0).s.best_solution = .ok (((1 : ℚ) : WithTop ℚ), [1]) ∧
    (demo_at live_draws 1).s.best_solution = .ok (((1 / 4 : ℚ) : WithTop ℚ), [1 / 2]) ∧
    ((demo_at live_draws 4).s.super[1]?).map (fun q => q.velocity) = some [(-5 / 2 : ℚ)] ∧
    ((demo_at live_draws 3).i = (demo_at live_draws 1).i + 1 ∧
    (demo_at live_draws 3).s.best_solution = .ok (((1 / 4 : ℚ) : WithTop ℚ), [1 / 2]) ∧
    ∃ pj1, (demo_at live_draws 4).s.super[(demo_at live_draws 3).i]? = some pj1 ∧
      pj1.velocity = (swarm.velocity_transform live_draws (demo_at live_draws 3).s.param
        (demo_at live_draws 3).s.rng [-1] [2] (demo_at live_draws 3).s.vmax [2] [1 / 2]).1) :=
  ⟨except_eq_ok_of_toOption (by decide!), except_eq_ok_of_toOption (by decide!), by decide!,
    C25_live_global_best live_draws (demo_at live_draws 1) (demo_at live_draws 2)
      (demo_at live_draws 3) (demo_at live_draws 4) (((1 / 4 : ℚ) : WithTop ℚ), [1 / 2])
      { super := [2], velocity := [-1], local_best := (((4 : ℚ) : WithTop ℚ), [2]) }
      (by decide!)
      (trace_step (demo_at_ok live_draws 1 (by decide!)) (demo_at_ok live_draws 2 (by decide!)))
      (trace_step (demo_at_ok live_draws 2 (by decide!)) (demo_at_ok live_draws 3 (by decide!)))
      (by decide!) (by decide!) (except_eq_ok_of_toOption (by decide!)) (by decide!)
      (trace_step (demo_at_ok live_draws 3 (by decide!)) (demo_at_ok live_draws 4 (by decide!)))⟩

/-- C26: one `swarm::update` of a particle whose velocity has `D` components
consumes exactly `2*D` draws: the generator cursor advances by `2*D`, component
`j` of the new velocity is computed with the draws at `rng + 2*j` (weighting the
cognitive term) and `rng + 2*j + 1` (weighting the social term), so that no draw
serves two dimensions, and the outcome is the same for any stream that has these
`2*D` draws.  The velocity computation of the concurrent `swarmer::update` reads
its own generator in the same way. -/
theorem C26_update_draws_per_dimension (draws : Nat → ℚ) (s : swarm) (i : Nat)
    (pi pl : particle) (cost : ℚ)
    (hi : s.super[i]? = some pi) (hl : s.super[s.leader]? = some pl)
    (hc : s.f.call (s.new_position draws pi pl) = .ok cost) :
    (∃ b s1 pi1, s.update draws i = .ok (b, s1) ∧ s1.super[i]? = some pi1 ∧
      s1.rng = s.rng + 2 * pi.velocity.length ∧
      (∀ (j : Nat) (v : ℚ), pi.velocity[j]? = some v →
        pi1.velocity[j]? = some (max (min
          (v * s.param.w
            + draws (s.rng + 2 * j) * s.param.c1 * (pi.local_best.2.getD j 0 - pi.super.getD j 0)
            + draws (s.rng + 2 * j + 1) * s.param.c2
              * (pl.local_best.2.getD j 0 - pi.super.getD j 0))
          (s.vmax.getD j 0)) (-(s.vmax.getD j 0)))) ∧
      (∀ draws1 : Nat → ℚ,
        (∀ m, s.rng ≤ m → m < s.rng + 2 * pi.velocity.length → draws1 m = draws m) →
        s.update draws1 i = .ok (b, s1))) ∧
    (∀ (dr : Nat → Nat → ℚ) (f : objective) (st : swarmer.statics) (h : List swarmer)
      (p : Nat) (sp sl : swarmer) (c : ℚ),
      h[p]? = some sp → h[sp.leader]? = some sl →
      f.call (List.zipWith (· + ·) sp.super
        (swarmer.velocity_transform (dr p) st sp.rng sp.velocity sp.super
          sp.local_best.2 sl.local_best.2).1) = .ok c →
      ∃ h1 sp1, swarmer.move dr f st h p = .ok h1 ∧ h1[p]? = some sp1 ∧
        sp1.rng = sp.rng + 2 * sp.velocity.length ∧
        ∀ (j : Nat) (v : ℚ), sp.velocity[j]? = some v →
          sp1.velocity[j]? = some (v * st.INERTIA
            + dr p (sp.rng + 2 * j) * st.P_AFFINITY
              * (sp.local_best.2.getD j 0 - sp.super.getD j 0)
            + dr p (sp.rng + 2 * j + 1) * st.G_AFFINITY
              * (sl.local_best.2.getD j 0 - sp.super.getD j 0))) := by
  constructor
  · refine ⟨(s.update_result draws i pi pl cost).1, (s.update_result draws i pi pl cost).2, _,
      update_ok draws s i pi pl cost hi hl hc, update_result_getElem? draws s i pi pl cost hi,
      update_result_rng draws s i pi pl cost, ?_, ?_⟩
    · intro j v hv
      show (s.new_velocity draws pi pl)[j]? = _
      unfold swarm.new_velocity
      exact velocity_transform_getElem? draws s.param pi.velocity s.rng _ _ _ _ j v hv
    · intro draws1 h
      exact update_congr hi hl hc h
  · intro dr f st h p sp sl c hp hl1 hc1
    obtain ⟨h1, sp1, hmove, hp1, _, hrng, hvel⟩ := move_ok hp hl1 hc1
    refine ⟨h1, sp1, hmove, hp1, hrng, ?_⟩
    intro j v hv
    rw [hvel]
    exact swarmer_velocity_transform_getElem? (dr p) st sp.velocity sp.rng _ _ _ j v hv

/-- Instance of C26 on `demo_swarm`, particle 1, one dimension: two draws. -/
theorem C26_update_draws_per_dimension_witness :
    demo_swarm.super[1]? = some demo_p1 ∧ demo_swarm.super[demo_swarm.leader]? = some demo_p0 ∧
    demo_swarm.f.call (demo_swarm.new_position half_draws demo_p1 demo_p0) = .ok 0 ∧
    ((∃ b s1 pi1, demo_swarm.update half_draws 1 = .ok (b, s1) ∧ s1.super[1]? = some pi1 ∧
      s1.rng = demo_swarm.rng + 2 * demo_p1.velocity.length ∧
      (∀ (j : Nat) (v : ℚ), demo_p1.velocity[j]? = some v →
        pi1.velocity[j]? = some (max (min
          (v * demo_swarm.param.w
            + half_draws (demo_swarm.rng + 2 * j) * demo_swarm.param.c1
              * (demo_p1.local_best.2.getD j 0 - demo_p1.super.getD j 0)
            + half_draws (demo_swarm.rng + 2 * j + 1) * demo_swarm.param.c2
              * (demo_p0.local_best.2.getD j 0 - demo_p1.super.getD j 0))
          (demo_swarm.vmax.getD j 0)) (-(demo_swarm.vmax.getD j 0)))) ∧
      (∀ draws1 : Nat → ℚ,
        (∀ m, demo_swarm.rng ≤ m → m < demo_swarm.rng + 2 * demo_p1.velocity.length →
          draws1 m = half_draws m) →
        demo_swarm.update draws1 1 = .ok (b, s1))) ∧
    (∀ (dr : Nat → Nat → ℚ) (f : objective) (st : swarmer.statics) (h : List swarmer)
      (p : Nat) (sp sl : swarmer) (c : ℚ),
      h[p]? = some sp → h[sp.leader]? = some sl →
      f.call (List.zipWith (· + ·) sp.super
        (swarmer.velocity_transform (dr p) st sp.rng sp.velocity sp.super
          sp.local_best.2 sl.local_best.2).1) = .ok c →
      ∃ h1 sp1, swarmer.move dr f st h p = .ok h1 ∧ h1[p]? = some sp1 ∧
        sp1.rng = sp.rng + 2 * sp.velocity.length ∧
        ∀ (j : Nat) (v : ℚ), sp.velocity[j]? = some v →
          sp1.velocity[j]? = some (v * st.INERTIA
            + dr p (sp.rng + 2 * j) * st.P_AFFINITY
              * (sp.local_best.2.getD j 0 - sp.super.getD j 0)
            + dr p (sp.rng + 2 * j + 1) * st.G_AFFINITY
              * (sl.local_best.2.getD j 0 - sp.super.getD j 0)))) :=
  ⟨rfl, rfl, by decide!,
    C26_update_draws_per_dimension half_draws demo_swarm 1 demo_p1 demo_p0 0 rfl rfl
      (by decide!)⟩

/-- C27, as stated, fails: `swarm` holds one generator for all the particles.
On `demo_swarm` under `demo_draws` the update of particle 0 moves the generator
cursor from `0` to `2` and leaves particle 1 and the global best untouched; the
update of particle 1 that follows takes the draws `1/2, 3/4` and writes the
velocity `-5/2`, where the draws `0, 1/4` it would have taken before the update
of particle 0 give `-3/2`. -/
theorem C27_counterexample :
    demo_swarm.rng = 0 ∧
    (demo_swarm.update demo_draws 0).toOption.map (fun r => r.2.rng) = some 2 ∧
    (demo_swarm.update demo_draws 0).toOption.map (fun r => r.2.super[1]?)
      = some (some demo_p1) ∧
    (demo_swarm.update demo_draws 0).toOption.map (fun r => r.2.best_solution.toOption)
      = some (some (((1 : ℚ) : WithTop ℚ), [1])) ∧
    (demo_swarm.update demo_draws 1).toOption.map
        (fun r => (r.2.super[1]?).map (fun q => q.velocity)) = some (some [(-3 / 2 : ℚ)]) ∧
    ((demo_swarm.update demo_draws 0).toOption.bind
        (fun r => (r.2.update demo_draws 1).toOption)).map
        (fun r => (r.2.super[1]?).map (fun q => q.velocity)) = some (some [(-5 / 2 : ℚ)]) := by
  refine ⟨rfl, by decide!, by decide!, by decide!, by decide!, by decide!⟩

/-- C27, amended: in the synchronous coordinator the swarm owns one generator,
shared by all the particles.  The update of a particle whose velocity has `D`
components advances the generator by `2*D` draws and changes no other particle,
no cap and no parameter; the next update, of whichever particle, takes its draws
from the advanced state. -/
theorem C27_shared_generator (draws : Nat → ℚ) (s : swarm) (i : Nat)
    (pi pl : particle) (cost : ℚ)
    (hi : s.super[i]? = some pi) (hl : s.super[s.leader]? = some pl)
    (hc : s.f.call (s.new_position draws pi pl) = .ok cost) :
    ∃ b s1, s.update draws i = .ok (b, s1) ∧
      s1.rng = s.rng + 2 * pi.velocity.length ∧
      (∀ j, j ≠ i → s1.super[j]? = s.super[j]?) ∧
      s1.vmax = s.vmax ∧ s1.param = s.param ∧
      ∀ pj pl1 : particle, s1.new_velocity draws pj pl1 =
        (swarm.velocity_transform draws s.param (s.rng + 2 * pi.velocity.length)
          pj.velocity pj.super s.vmax pj.local_best.2 pl1.local_best.2).1 := by
  obtain ⟨hparam, hvmax, _⟩ := update_result_frame draws s i pi pl cost
  refine ⟨(s.update_result draws i pi pl cost).1, (s.update_result draws i pi pl cost).2,
    update_ok draws s i pi pl cost hi hl hc, update_result_rng draws s i pi pl cost,
    fun j hj => update_result_getElem?_ne draws s i j pi pl cost (Ne.symm hj), hvmax, hparam, ?_⟩
  intro pj pl1
  unfold swarm.new_velocity
  rw [hparam, hvmax, update_result_rng]

/-- Instance of C27 (amended) on `demo_swarm`, particle 0. -/
theorem C27_shared_generator_witness :
    demo_swarm.super[0]? = some demo_p0 ∧ demo_swarm.super[demo_swarm.leader]? = some demo_p0 ∧
    demo_swarm.f.call (demo_swarm.new_position demo_draws demo_p0 demo_p0) = .ok (9 / 4) ∧
    ∃ b s1, demo_swarm.update demo_draws 0 = .ok (b, s1) ∧
      s1.rng = demo_swarm.rng + 2 * demo_p0.velocity.length ∧
      (∀ j, j ≠ 0 → s1.super[j]? = demo_swarm.super[j]?) ∧
      s1.vmax = demo_swarm.vmax ∧ s1.param = demo_swarm.param ∧
      ∀ pj pl1 : particle, s1.new_velocity demo_draws pj pl1 =
        (swarm.velocity_transform demo_draws demo_swarm.param
          (demo_swarm.rng + 2 * demo_p0.velocity.length)
          pj.velocity pj.super demo_swarm.vmax pj.local_best.2 pl1.local_best.2).1 :=
  ⟨rfl, rfl, by decide!,
    C27_shared_generator demo_draws demo_swarm 0 demo_p0 demo_p0 (9 / 4) rfl rfl (by decide!)⟩

/-- C29, refuted on the code: on the one-particle swarm `solo_fresh` under
`half_draws`, `operator()` returns after one particle update; the objective has
been evaluated twice, once by `initialize` and once by `update`, and the counter
`k` that `operator()` prints on return is `0`.  In general, for a total
objective and a population of at least one particle, the evaluations of a run
are the population size plus `k + 1` for the value of `k` on return. -/
theorem C29_reported_count_differs :
    solo_fresh.run half_draws 3 = .ok (some (solo_final 3)) ∧
    (solo_final 3).pc = .returned ∧ (solo_final 3).k = 0 ∧
    solo_fresh.run_evaluations half_draws 3 = 2 ∧
    (∀ (draws : Nat → ℚ) (d : Nat) (f : objective) (p : param_type) (fuel : Nat),
      (∀ x, ∃ c, f.call x = .ok c) → 1 ≤ p.n → 2560007 ≤ fuel →
      ∃ Lf, (swarm.construct d f p).run draws fuel = .ok (some Lf) ∧ Lf.pc = .returned ∧
        ((swarm.construct d f p).run_evaluations draws fuel : Int)
          = (swarm.construct d f p).super.length + Lf.k + 1 ∧
        1 ≤ (swarm.construct d f p).super.length) :=
  ⟨solo_final_ok 3 (by decide!), by decide!, by decide!, by decide!,
    fun draws d f p fuel htot hn hfuel => run_evaluations_eq draws d f p htot hn fuel hfuel⟩

/-- C30, as stated, fails: for `booth` the point `(extremum(0), extremum(1))` is
`(0, 1)`, of cost `41`, and `(1, 3)` has cost `0`; likewise the points
`(extremum(0), ..)` of `rosenbrock` in two dimensions, `beale`, `colville` and
`dixon_price` in one dimension have costs `101`, `909/64`, `101` and `1`, and
each objective has cost `0` at another point.  The cost of `colville` is `0` at
`(1, 1, 1, 1)` and negative at `(7/4, 59/20, 3/20, -1/10)`. -/
theorem C30_counterexample :
    booth.call (booth.extremum_point 2) = .ok 41 ∧ booth.call [1, 3] = .ok 0 ∧
    (∀ m, ¬ booth.minimised_at (booth.extremum_point 2) m) ∧
    rosenbrock.call (rosenbrock.extremum_point 2) = .ok 101 ∧
    rosenbrock.call [1, 1] = .ok 0 ∧
    beale.call (beale.extremum_point 2) = .ok (909 / 64) ∧ beale.call [3, 1 / 2] = .ok 0 ∧
    colville.call (colville.extremum_point 4) = .ok 101 ∧
    colville.call [1, 1, 1, 1] = .ok 0 ∧
    colville.call [7 / 4, 59 / 20, 3 / 20, -1 / 10] = .ok (-12193 / 640) ∧
    dixon_price.call (dixon_price.extremum_point 1) = .ok 1 ∧
    dixon_price.call [1] = .ok 0 := by
  refine ⟨by decide!, by decide!, ?_, by decide!, by decide!, by decide!, by decide!,
    by decide!, by decide!, by decide!, by decide!, by decide!⟩
  rintro m ⟨hm, hmin⟩
  have h41 : booth.call (booth.extremum_point 2) = .ok 41 := by decide!
  rw [h41] at hm
  injection hm with hm
  have h0 := hmin [1, 3] 0 rfl (by decide!)
  rw [← hm] at h0
  norm_num at h0

/-- C30, amended: `extremum(0)` is the minimum cost and the coordinates of a
minimiser are read from index 1 on.  For `sphere` in every dimension `D`, for
`rosenbrock` in every dimension `D >= 1`, for `beale` and `booth` in dimension
2, the point whose `i`-th coordinate is `extremum(i+1)`, `i = 0..D-1`, has cost
`extremum(0)`, and no point of `D` coordinates has a smaller cost; for `sphere`
this point is also the point of coordinates `extremum(i)`. -/
theorem C30_extremum_point_minimises :
    (∀ D, sphere.minimised_at (sphere.extremum_point1 D) (sphere.extremum 0)) ∧
    (∀ D, sphere.minimised_at (sphere.extremum_point D) (sphere.extremum 0)) ∧
    (∀ D, 1 ≤ D →
      rosenbrock.minimised_at (rosenbrock.extremum_point1 D) (rosenbrock.extremum 0)) ∧
    beale.minimised_at (beale.extremum_point1 2) (beale.extremum 0) ∧
    booth.minimised_at (booth.extremum_point1 2) (booth.extremum 0) :=
  ⟨sphere_minimised, fun D => sphere_minimised D, rosenbrock_minimised, beale_minimised,
    booth_minimised⟩

/-- C31: for every vector `x = (x_0, ..., x_{n-1})` with `n >= 1`, the
`rosenbrock` objective returns the sum over `i = 0..n-2` of
`100*(x_i^2 - x_{i+1})^2 + (x_i - 1)^2`; for the vector of `n` entries all equal
to `2.5` it returns `(n-1)*1408.5`. -/
theorem C31_rosenbrock_sum (x : List ℚ) (n : Nat) (hx : 1 ≤ x.length) (hn : 1 ≤ n) :
    rosenbrock.call x = .ok (rosenbrock_sum x) ∧
    rosenbrock.call (List.replicate n (5 / 2)) = .ok (((n - 1 : Nat) : ℚ) * (2817 / 2)) := by
  have hcall : ∀ y : List ℚ, 1 ≤ y.length → rosenbrock.call y = .ok (rosenbrock_sum y) := by
    intro y hy
    have hlen : ¬ y.length = 0 := by omega
    show (if y.length = 0 then _ else _) = _
    rw [if_neg hlen, rosenbrock_fold_eq_sum y 0, zero_add]
  refine ⟨hcall x hx, ?_⟩
  rw [hcall _ (by simpa using hn), rosenbrock_sum_replicate]
  norm_num

/-- Instance of C31: the vector `(0, 1, 2)` and `n = 3`. -/
theorem C31_rosenbrock_sum_witness :
    1 ≤ [(0 : ℚ), 1, 2].length ∧ 1 ≤ 3 ∧
    rosenbrock_sum [0, 1, 2] = 201 ∧ rosenbrock.call [5 / 2, 5 / 2, 5 / 2] = .ok 2817 ∧
    (rosenbrock.call [0, 1, 2] = .ok (rosenbrock_sum [0, 1, 2]) ∧
      rosenbrock.call (List.replicate 3 (5 / 2)) = .ok (((3 - 1 : Nat) : ℚ) * (2817 / 2))) :=
  ⟨by decide, by decide, by norm_num [rosenbrock_sum, List.range_succ], by decide!,
    C31_rosenbrock_sum [0, 1, 2] 3 (by decide) (by decide)⟩

/-- C32: what simplepso2.cpp does in a stagnant run, where the generator puts
every particle at (300, ..., 300) with velocity 0 and the cost there is not below
0.1: `initialize` returns, `n` turns of the loop of `optimize` complete while
evaluations are left, none improves `fg`, and the counter `t` is `n` after them:
it is not reset when it reaches `d = 200`; `w` and `vmax` are multiplied by
`wd` and `vd` once, in the turn that brings `t` to 200, and never again, so
a further 200 non-improving turns trigger no further decay. -/
theorem C32_stagnant_run_decays_once (P N : Nat) (draws : Nat → ℚ) (cost : List ℚ → ℚ)
    (n : Nat) (hP : 0 < P) (hx : ∀ i, i < P * N → draws i = 3 / 4)
    (hv : ∀ i, P * N ≤ i → i < P * N + P * N → draws i = 1 / 2)
    (hc : 1 / 10 ≤ cost (List.replicate N 300)) (hn : P + P * n ≤ 640000) :
    ∃ s0 sn, batch.initialise P N draws cost = .ok s0 ∧
      batch.optimize draws cost n s0 = .ok (sn, false) ∧
      sn.fg = s0.fg ∧ sn.t = n ∧ sn.d = 200 ∧
      sn.w = (if 200 ≤ n then 19 / 20 else 1) ∧
      sn.vmax = (if 200 ≤ n then 570 else 600) := by
  obtain ⟨s0, h0, hs0, ht, hd, hw, hwd, hvm, hvd, hk, hkm⟩ := initialise_frozen cost hP hx hv
  obtain ⟨sn, hopt, _, hfg, htn, hdn, hwn, hvmn⟩ := optimize_frozen draws hP hc n s0 hs0 (by
    rw [hk, hkm]
    exact_mod_cast hn)
  refine ⟨s0, sn, h0, hopt, hfg, by rw [htn, ht]; simp, by rw [hdn, hd], ?_, ?_⟩
  · rw [hwn, hw, ht, hd, hwd]
    by_cases h : 200 ≤ n
    · rw [if_pos h, if_pos (by constructor <;> [norm_num; (push_cast; omega)])]
      norm_num
    · rw [if_neg h, if_neg (by intro h1; apply h; omega)]
      norm_num
  · rw [hvmn, hvm, ht, hd, hvd]
    by_cases h : 200 ≤ n
    · rw [if_pos h, if_pos (by constructor <;> [norm_num; (push_cast; omega)])]
      norm_num
    · rw [if_neg h, if_neg (by intro h1; apply h; omega)]
      norm_num

/-- Witness for C32: the program's population of 20 particles of 64 components
with the generator `stagnant_draws` and the cost `quadratic_cost`: after 400
non-improving turns the counter is 400 and `w` and `vmax` have been decayed
once, to 19/20 and 570. -/
theorem C32_stagnant_run_decays_once_witness :
    1 / 10 ≤ quadratic_cost (List.replicate 64 300) ∧
    ∃ s0 sn, batch.initialise 20 64 stagnant_draws quadratic_cost = .ok s0 ∧
      batch.optimize stagnant_draws quadratic_cost 400 s0 = .ok (sn, false) ∧
      sn.fg = s0.fg ∧ sn.t = 400 ∧ sn.d = 200 ∧ sn.w = 19 / 20 ∧ sn.vmax = 570 := by
  have hc : 1 / 10 ≤ quadratic_cost (List.replicate 64 300) :=
    le_trans (by norm_num) (quadratic_cost_ge (List.replicate 64 300) 1)
  obtain ⟨s0, sn, h0, h1, h2, h3, h4, h5, h6⟩ :=
    C32_stagnant_run_decays_once 20 64 stagnant_draws quadratic_cost 400 (by decide)
      (fun i hi => by simp only [stagnant_draws]; rw [if_pos (by omega)])
      (fun i hi _ => by simp only [stagnant_draws]; rw [if_neg (by omega)])
      hc (by decide)
  exact ⟨hc, s0, sn, h0, h1, h2, h3, h4, by simpa using h5, by simpa using h6⟩

/-- C33, as stated, fails: `swarmer::update` has no cap.  On the swarm of one
swarmer `lone_heap`, at `5` with velocity `-10.24` on the sphere, whose domain
`(-5.12, 5.12)` has width `10.24`, one update leaves the velocity `-23.192`,
more than twice the width of the domain in absolute value. -/
theorem C33_counterexample :
    lone_heap = [lone_s0] ∧ sphere.domain 0 = (-128 / 25, 128 / 25) ∧
    (swarmer.update lone_draws sphere swarmer.statics.default lone_heap 0).toOption.map
        (fun h => h.map (fun q => q.velocity)) = some [[-2899 / 125]] ∧
    2 * ((sphere.domain 0).2 - (sphere.domain 0).1) < |(-2899 / 125 : ℚ)| := by
  refine ⟨by decide!, by decide!, by decide!, ?_⟩
  rw [show sphere.domain 0 = (-128 / 25, 128 / 25) from rfl]
  norm_num [abs_of_neg]

/-- C33, amended: in the concurrent variant the computations of
`swarmer::update` bound no velocity: component `j` of the velocity of the
updated swarmer is exactly
`v[j]*INERTIA + r1*P_AFFINITY*(pbest[j] - x[j]) + r2*G_AFFINITY*(gbest[j] - x[j])`
for its two draws `r1`, `r2`, whatever its size, and the other swarmers are left
as they are. -/
theorem C33_update_velocity_unbounded {draws : Nat → Nat → ℚ} {f : objective}
    {st : swarmer.statics} {h : List swarmer} {p : Nat} {sp sl : swarmer} {cost : ℚ}
    (hp : h[p]? = some sp) (hl : h[sp.leader]? = some sl)
    (hc : f.call (List.zipWith (· + ·) sp.super
      (swarmer.velocity_transform (draws p) st sp.rng sp.velocity sp.super
        sp.local_best.2 sl.local_best.2).1) = .ok cost) :
    ∃ h1 sp1, swarmer.move draws f st h p = .ok h1 ∧ h1[p]? = some sp1 ∧
      (∀ i, i ≠ p → h1[i]? = h[i]?) ∧
      ∀ (j : Nat) (v : ℚ), sp.velocity[j]? = some v →
        sp1.velocity[j]? = some (v * st.INERTIA
          + draws p (sp.rng + 2 * j) * st.P_AFFINITY
            * (sp.local_best.2.getD j 0 - sp.super.getD j 0)
          + draws p (sp.rng + 2 * j + 1) * st.G_AFFINITY
            * (sl.local_best.2.getD j 0 - sp.super.getD j 0)) := by
  obtain ⟨h1, sp1, hmove, hp1, hframe, _, hvel⟩ := move_ok hp hl hc
  refine ⟨h1, sp1, hmove, hp1, hframe, ?_⟩
  intro j v hv
  rw [hvel]
  exact swarmer_velocity_transform_getElem? (draws p) st sp.velocity sp.rng _ _ _ j v hv

/-- Instance of C33 (amended) on `lone_heap`: the new position `-18.192` has
cost `330.948864`. -/
theorem C33_update_velocity_unbounded_witness :
    lone_heap[0]? = some lone_s0 ∧ lone_heap[lone_s0.leader]? = some lone_s0 ∧
    ∃ h1 sp1, swarmer.move lone_draws sphere swarmer.statics.default lone_heap 0 = .ok h1 ∧
      h1[0]? = some sp1 ∧ (∀ i, i ≠ 0 → h1[i]? = lone_heap[i]?) ∧
      ∀ (j : Nat) (v : ℚ), lone_s0.velocity[j]? = some v →
        sp1.velocity[j]? = some (v * swarmer.statics.default.INERTIA
          + lone_draws 0 (lone_s0.rng + 2 * j) * swarmer.statics.default.P_AFFINITY
            * (lone_s0.local_best.2.getD j 0 - lone_s0.super.getD j 0)
          + lone_draws 0 (lone_s0.rng + 2 * j + 1) * swarmer.statics.default.G_AFFINITY
            * (lone_s0.local_best.2.getD j 0 - lone_s0.super.getD j 0)) :=
  ⟨by decide!, by decide!,
    @C33_update_velocity_unbounded lone_draws sphere swarmer.statics.default lone_heap 0
      lone_s0 lone_s0 (5171076 / 15625) (by decide!) (by decide!) (by decide!)⟩

/-- C34, refuted on the code: in the constructors of the concurrent variant the
counter `i` of the position lambda is not reset before the velocity lambda, so
that for a particle of `n` components the velocity component `j` is drawn from
`(-range, range)` with `range` the width of `domain(n + j)`, while the position
component `j` is drawn from `domain(j)`; this holds for the prototype and for
every copy.  On the objective `ramp`, whose `domain(i)` is `(0, i+1)`, with
`n = 2` and the draws `ramp_draws`, the velocity is `(21/8, 7/2)`: component 0
is drawn from `(-3, 3)`, not from the width `1` of `domain(0)`, and component 1
from `(-4, 4)`, not from the width `2` of `domain(1)`. -/
theorem C34_velocity_range_of_later_dimension :
    (∀ (draws : Nat → ℚ) (f : objective) (n this j : Nat), j < n →
      (swarmer.construct draws n f this).super[j]? =
        some (uniform_real draws j (f.domain j).1 (f.domain j).2).1 ∧
      (swarmer.construct draws n f this).velocity[j]? =
        some (uniform_real draws (n + j)
          (-|(f.domain (n + j)).2 - (f.domain (n + j)).1|)
          |(f.domain (n + j)).2 - (f.domain (n + j)).1|).1) ∧
    (∀ (draws : Nat → Nat → ℚ) (f : objective) (h h1 : List swarmer) (s j : Nat)
      (proto : swarmer), h[s]? = some proto → swarmer.copy draws f h s = .ok h1 →
      j < proto.super.length →
      ∃ fresh : swarmer, h1[h.length]? = some fresh ∧
        fresh.super[j]? = some (uniform_real (draws h.length) j (f.domain j).1 (f.domain j).2).1 ∧
        fresh.velocity[j]? =
          some (uniform_real (draws h.length) (proto.super.length + j)
            (-|(f.domain (proto.super.length + j)).2 - (f.domain (proto.super.length + j)).1|)
            |(f.domain (proto.super.length + j)).2
              - (f.domain (proto.super.length + j)).1|).1) ∧
    (swarmer.construct ramp_draws 2 ramp 0).super = [1 / 2, 1] ∧
    (swarmer.construct ramp_draws 2 ramp 0).velocity = [21 / 8, 7 / 2] ∧
    ramp.domain 0 = (0, 1) ∧ ramp.domain 1 = (0, 2) ∧
    ramp.domain 2 = (0, 3) ∧ ramp.domain 3 = (0, 4) := by
  refine ⟨?_, ?_, by decide!, by decide!, by decide!, by decide!, by decide!, by decide!⟩
  · intro draws f n this j hj
    exact generate_spec draws f n j hj
  · intro draws f h h1 s j proto hs hc hj
    obtain ⟨fresh, hf, hsup, hvel, _⟩ := copy_fresh hs hc
    obtain ⟨g1, g2⟩ := generate_spec (draws h.length) f proto.super.length j hj
    exact ⟨fresh, hf, by rw [hsup]; exact g1, by rw [hvel]; exact g2⟩

/-- C35, as stated, fails: in the swarm reached by the schedule
`[1, 1, 1, 0, 0, 0, 1]` of the race example both swarmers share the leader 1,
which holds the neighbor list; swarmer 0 holds the cost `1/25` and the leader
the cost `9/100`.  After a complete update of swarmer 1 both still share the
leader 1, whose cost `9/100` is not the minimum `1/25`. -/
theorem C35_counterexample :
    (race_after [1, 1, 1, 0, 0, 0, 1]).heap.map
        (fun q => (q.leader, q.neighbors, q.local_best.1))
      = [(1, none, (((1 / 25 : ℚ)) : WithTop ℚ)),
         (1, some [1, 0], (((9 / 100 : ℚ)) : WithTop ℚ))] ∧
    (swarmer.update race_draws sphere swarmer.statics.default
        (race_after [1, 1, 1, 0, 0, 0, 1]).heap 1).toOption.map
        (fun h => h.map (fun q => (q.leader, q.neighbors, q.local_best.1)))
      = some [(1, none, (((1 / 25 : ℚ)) : WithTop ℚ)),
         (1, some [1, 0], (((9 / 100 : ℚ)) : WithTop ℚ))] := by
  refine ⟨by decide!, by decide!⟩

/-- C35, amended: if the updates execute one at a time, each running to
completion, then starting from a swarm in which all particles share one leader
that holds the neighbor list of the whole swarm and the least personal-best
cost, after every update all particles share one leader, and the personal-best
cost of that leader is the minimum of the personal-best costs of the swarm.  A
freshly built swarm, in which every personal-best cost is `+infinity`, is such a
start. -/
theorem C35_atomic_updates_keep_best_leader {draws : Nat → Nat → ℚ} {f : objective}
    {st : swarmer.statics} {h0 h : List swarmer} {L : Nat} {nb : List Nat}
    (hinv : swarmer.led_by_best h0 L nb) (hrun : swarmer.AtomicRun draws f st h0 h) :
    (∃ L2 sl, swarmer.well_led h L2 nb ∧ h[L2]? = some sl ∧
      ∀ (i : Nat) (q : swarmer), h[i]? = some q → sl.local_best.1 ≤ q.local_best.1) ∧
    (∀ (dr : Nat → Nat → ℚ) (f1 : objective) (n : Nat) (hb : List swarmer),
      swarmer.Built dr f1 n hb → ∃ nb1, swarmer.led_by_best hb 0 nb1) := by
  constructor
  · obtain ⟨L2, hw, hmin⟩ := atomic_run_led_by_best hinv hrun
    obtain ⟨sl, hsl, _, _⟩ := hw.2.1
    exact ⟨L2, sl, hw, hsl, fun i q hq => hmin sl q i hsl hq⟩
  · intro dr f1 n hb hbuilt
    exact built_led_by_best hbuilt

/-- Instance of C35 (amended): from the built swarm `race_heap`, a complete
update of swarmer 1, then one of swarmer 0; swarmer 0 ends as the leader of
both, with the least cost `1/25`. -/
theorem C35_atomic_updates_keep_best_leader_witness :
    race_atomic2.map (fun q => (q.leader, q.local_best.1))
      = [(0, (((1 / 25 : ℚ)) : WithTop ℚ)), (0, (((9 / 100 : ℚ)) : WithTop ℚ))] ∧
    ∃ nb, swarmer.led_by_best race_heap 0 nb ∧
      swarmer.AtomicRun race_draws sphere swarmer.statics.default race_heap race_atomic2 ∧
      ((∃ L2 sl, swarmer.well_led race_atomic2 L2 nb ∧ race_atomic2[L2]? = some sl ∧
        ∀ (i : Nat) (q : swarmer), race_atomic2[i]? = some q →
          sl.local_best.1 ≤ q.local_best.1) ∧
      (∀ (dr : Nat → Nat → ℚ) (f1 : objective) (n : Nat) (hb : List swarmer),
        swarmer.Built dr f1 n hb → ∃ nb1, swarmer.led_by_best hb 0 nb1)) := by
  obtain ⟨nb, hnb⟩ := built_led_by_best race_built
  have hrun : swarmer.AtomicRun race_draws sphere swarmer.statics.default race_heap
      race_atomic2 :=
    swarmer.AtomicRun.update (swarmer.AtomicRun.update swarmer.AtomicRun.start race_atomic1_ok)
      race_atomic2_ok
  exact ⟨by decide!, nb, hnb, hrun, C35_atomic_updates_keep_best_leader hnb hrun⟩

/-- C36: in the batch variant (simplepso2.cpp), after `initialize` and after
every turn of the loop of `optimize`, `fg` is the least of the per-particle best
costs `f`, and `g` is the personal best `p[b]` of a particle `b` with
`f[b] = fg`, so that the cost of `g` is `fg`, although `g` is copied from the
current position `x[b]`; with at least one particle, `initialize` and the next
turn of the loop do return. -/
theorem C36_global_best_is_a_personal_best (P N : Nat) (draws : Nat → ℚ) (cost : List ℚ → ℚ)
    (s : batch) (h : batch.Swept P N draws cost s) :
    (∀ (j : Nat) (fj : ℚ), s.f[j]? = some fj → s.fg ≤ fj) ∧
    (∃ b : Nat, s.f[b]? = some s.fg ∧ s.p[b]? = some s.g) ∧
    cost s.g = s.fg ∧
    (0 < P → (∃ s0, batch.initialise P N draws cost = .ok s0) ∧
      ∃ r, batch.sweep draws cost s = .ok r) := by
  obtain ⟨hcost, hleast, b, hbf, hbp⟩ := swept_best_inv h
  refine ⟨hleast, ⟨b, hbf, hbp⟩, hcost b s.g s.fg hbp hbf, ?_⟩
  intro hP
  refine ⟨batch_initialise_ok draws cost hP, sweep_ok draws cost (swept_sized h) ?_⟩
  intro hnil
  have hl := swept_length h
  rw [hnil] at hl
  simp at hl
  omega

/-- Witness for C36: two particles of one component, after `initialize` and one
turn of the loop: the global best is the new position 0 of particle 1, which is
also its personal best, and its cost 1 is `fg`. -/
theorem C36_global_best_is_a_personal_best_witness :
    batch.Swept 2 1 demo_draws quadratic_cost duo_swept ∧
    duo_swept.p[1]? = some duo_swept.g ∧ quadratic_cost duo_swept.g = duo_swept.fg :=
  ⟨.sweep (.init duo_init_ok) duo_swept_ok, by decide!,
    (C36_global_best_is_a_personal_best 2 1 demo_draws quadratic_cost duo_swept
      (.sweep (.init duo_init_ok) duo_swept_ok)).2.2.1⟩

/-- C37: `swarm::update` does not confine positions to the domain of the
objective.  There are a swarm, a particle with position, velocity, personal best
and global best inside the bounds, and draws in `[0,1)` for which the position
after one update is outside `[low, high]`: on `inside_swarm` the particle moves
from `5` to `6`, beyond `high = 5.12`; and in the run of `operator()` on
`stall_fresh` under `zero_draws` the first update moves the particle from
`-5.12` to `-10.24`. -/
theorem C37_update_leaves_domain :
    (∃ (s : swarm) (draws : Nat → ℚ) (pi pi1 : particle) (b : Bool) (s1 : swarm)
        (x v p g vm x1 : ℚ),
      (∀ n, 0 ≤ draws n ∧ draws n < 1) ∧
      s.super[0]? = some pi ∧ s.super[s.leader]? = some pi ∧ s.vmax = [vm] ∧
      pi.super = [x] ∧ pi.velocity = [v] ∧ pi.local_best.2 = [p] ∧ pi.local_best.2 = [g] ∧
      (s.f.domain 0).1 < x ∧ x < (s.f.domain 0).2 ∧ -vm < v ∧ v < vm ∧
      (s.f.domain 0).1 < p ∧ p < (s.f.domain 0).2 ∧
      (s.f.domain 0).1 < g ∧ g < (s.f.domain 0).2 ∧
      s.update draws 0 = .ok (b, s1) ∧ s1.super[0]? = some pi1 ∧ pi1.super = [x1] ∧
      (s.f.domain 0).2 < x1) ∧
    (stall_fresh.initialise zero_draws = .ok stall_init ∧
      stall_init.super.map (fun q => (q.super, q.velocity, q.local_best.2))
        = [([-128 / 25], [-128 / 25], [-128 / 25])] ∧
      stall_init.vmax = [128 / 25] ∧ stall_init.f.domain 0 = (-128 / 25, 128 / 25) ∧
      (stall_init.update zero_draws 0).toOption.map (fun r => r.2.super.map (fun q => q.super))
        = some [[-256 / 25]]) := by
  constructor
  · refine ⟨inside_swarm, zero_draws,
      { super := [5], velocity := [1], local_best := ((25 : ℚ), [5]) },
      { super := [6], velocity := [1], local_best := ((25 : ℚ), [5]) },
      (inside_swarm.update_result zero_draws 0
        { super := [5], velocity := [1], local_best := ((25 : ℚ), [5]) }
        { super := [5], velocity := [1], local_best := ((25 : ℚ), [5]) } 36).1,
      (inside_swarm.update_result zero_draws 0
        { super := [5], velocity := [1], local_best := ((25 : ℚ), [5]) }
        { super := [5], velocity := [1], local_best := ((25 : ℚ), [5]) } 36).2,
      5, 1, 5, 5, 128 / 25, 6, zero_draws_unit, rfl, rfl, rfl, rfl, rfl, rfl, rfl,
      by decide!, by decide!, by decide!, by decide!, by decide!, by decide!, by decide!,
      by decide!, ?_, by decide!, rfl, by decide!⟩
    exact update_ok zero_draws inside_swarm 0 _ _ 36 rfl rfl (by decide!)
  · exact ⟨stall_init_ok, by decide!, by decide!, by decide!, by decide!⟩

/-- C38: the cost of `branin` is the cost of `beale` on every input, the
two-dimensional ones in particular, so that its value at
`(extremum(1), extremum(2)) = (9.42478, 2.475)` is not the value
`extremum(0) = 0.397887` that the objective records for its minimum: it is
about `21313.4`. -/
theorem C38_branin_is_beale :
    (∀ x : List ℚ, branin.call x = beale.call x) ∧
    branin.extremum 0 = 397887 / 1000000 ∧
    [branin.extremum 1, branin.extremum 2] = [942478 / 100000, 2475 / 1000] ∧
    branin.call [branin.extremum 1, branin.extremum 2]
      = .ok (218249293516489108154121 / 10240000000000000000) ∧
    branin.extremum 0 < 218249293516489108154121 / 10240000000000000000 ∧
    beale.call [branin.extremum 1, branin.extremum 2]
      = .ok (218249293516489108154121 / 10240000000000000000) := by
  refine ⟨fun x => rfl, by decide!, by decide!, by decide!, by decide!, by decide!⟩

end PSO
